import Mathlib

/-!
# Strided-access and matrix-multiply kernels of `ndarray_backend_cpu.cc`

A shallow embedding of the CPU kernels of the needle N-dimensional array backend
(`src/src/ndarray_backend_cpu.cc`) together with proofs of their contracts.

Conventions of the embedding

* `uint32_t` and `size_t` values are natural numbers; every machine operation that
  can wrap is written with an explicit `% U32` or `% U64`.
* A buffer (`AlignedArray`) is the list of its elements, `size` being its length,
  plus a ghost list `stores` of the positions stored to, in program order.
* A load or store outside a buffer, `std::vector::at` out of range, `back()` on an
  empty vector and a failed `assert` are reported as a `Fault`.
* The `int` counter of `Fill` wraps from `INT_MAX` to `INT_MIN` when incremented, as
  on two's-complement machines.
* The `while (true)` traversal loop is driven by an explicit fuel argument and
  reports `Fault.out_of_fuel` when it is exhausted.
* The scalar type `scalar_t` is a parameter `α`; arithmetic kernels are stated over
  exact arithmetic.
-/

namespace needle
namespace cpu

/-! ## Machine model -/

/-- Number of values of a `uint32_t`. -/
def U32 : Nat := 2 ^ 32

/-- Number of values of a `size_t`. -/
def U64 : Nat := 2 ^ 64

/-- The macro `TILE`. -/
def TILE : Nat := 8

/-- Ways in which a kernel fails to return normally. -/
inductive Fault where
  /-- The call `std::vector::at` threw `std::out_of_range` -/
  | out_of_range
  /-- A load or store through `ptr` outside `[0, size)` -/
  | out_of_bounds
  /-- The call `back()` was made on an empty vector -/
  | empty_back
  /-- An `assert` failed -/
  | assertion
  /-- The fuel given to a `while (true)` loop ran out -/
  | out_of_fuel
  deriving DecidableEq, Repr

/-- The struct `AlignedArray`: `ptr` holds the `size` elements; `stores` is a ghost
record of the positions written through `ptr`, oldest first. -/
structure AlignedArray (α : Type) where
  ptr : List α
  stores : List Nat := []
  deriving DecidableEq, Repr

/-- The field `size` of an `AlignedArray`. -/
def AlignedArray.size {α : Type} (a : AlignedArray α) : Nat := a.ptr.length

/-- The expression `a.ptr[i]` read as an rvalue. -/
def load {α : Type} (a : AlignedArray α) (i : Nat) : Except Fault α :=
  match a.ptr[i]? with
  | some v => .ok v
  | none => .error .out_of_bounds

/-- The statement `out->ptr[i] = v`. -/
def store {α : Type} (out : AlignedArray α) (i : Nat) (v : α) :
    Except Fault (AlignedArray α) :=
  if i < out.ptr.length then .ok ⟨out.ptr.set i v, out.stores ++ [i]⟩
  else .error .out_of_bounds

/-- The call `v.at(i)` on a `std::vector<uint32_t>`. -/
def vecAt (v : List Nat) (i : Nat) : Except Fault Nat :=
  match v[i]? with
  | some x => .ok x
  | none => .error .out_of_range

/-- A counting loop `for (size_t i = i0; i < bound; i++) body`, with `n = bound - i`
the number of iterations left and `i` the current value of the counter. The bound
is a machine value no wider than `size_t`, so the counter does not wrap. -/
def forLoop {σ : Type} (body : Nat → σ → Except Fault σ) :
    Nat → Nat → σ → Except Fault σ
  | 0, _, s => .ok s
  | n + 1, i, s => do
    let s ← body i s
    forLoop body n (i + 1) s

/-! ## The index traversal shared by `Compact`, `EwiseSetitem`, `ScalarSetitem` -/

/-- The statement `cur_offset += index.at(i) * strides.at(i);` where the product is
a `uint32_t` and the sum a `size_t`. -/
def offsetStep (index strides : List Nat) (i cur_offset : Nat) : Except Fault Nat := do
  let x ← vecAt index i
  let s ← vecAt strides i
  pure ((cur_offset + (x * s) % U32) % U64)

/-- The loop `for (size_t i = 0; i < ndim; i++) cur_offset += ...;` started from
`cur_offset = offset`. -/
def offsetLoop (index strides : List Nat) (ndim : Nat) (offset : Nat) : Except Fault Nat :=
  forLoop (offsetStep index strides) ndim 0 offset

/-- The carry scan `for (size_t j = ndim-1; j >= 0; j--)`: leaves through `break` at
the last coordinate that is not at its maximum, popping the ones that are. The
guard `j >= 0` is always true; each pass that does not leave pops one element,
so `index.size() + 1` passes (the fuel) always suffice. -/
def carryScan (shape : List Nat) : Nat → List Nat → Nat → Except Fault (List Nat)
  | 0, _, _ => .error .out_of_fuel
  | fuel + 1, index, j => do
    let x ← vecAt index j
    let s ← vecAt shape j
    if x ≠ (s + U32 - 1) % U32 then pure index
    else carryScan shape fuel index.dropLast ((j + U64 - 1) % U64)

/-- The update of `index` between two iterations: carry scan, increment of the last
remaining coordinate, refill with zeros up to `ndim`. -/
def advance (shape index : List Nat) : Except Fault (List Nat) := do
  let ndim := shape.length
  let index ← carryScan shape (index.length + 1) index ((ndim + U64 - 1) % U64)
  match index.getLast? with
  | none => .error .empty_back
  | some last_value =>
    let index := index.dropLast ++ [(last_value + 1) % U32]
    pure (index ++ List.replicate (ndim - index.length) 0)

/-- The `while (true)` loop of the three strided kernels. They differ only in the
statement executed at each index (`body`, given the index vector, `cur_offset`
and `cnt`) and in the count `size` compared with `cnt`. -/
def traverse {σ : Type} (body : σ → List Nat → Nat → Nat → Except Fault σ)
    (shape strides : List Nat) (offset size : Nat) :
    Nat → List Nat → Nat → σ → Except Fault σ
  | 0, _, _, _ => .error .out_of_fuel
  | fuel + 1, index, cnt, s => do
    let cur_offset ← offsetLoop index strides shape.length offset
    let s ← body s index cur_offset cnt
    let cnt := (cnt + 1) % U64
    if cnt ≥ size then pure s
    else do
      let index ← advance shape index
      traverse body shape strides offset size fuel index cnt s

/-- The kernel `Compact`. The `assert` on the lengths of `shape` and `strides` is
taken as enabled. -/
def Compact {α : Type} (fuel : Nat) (a out : AlignedArray α) (shape strides : List Nat)
    (offset : Nat) : Except Fault (AlignedArray α) :=
  if shape.length ≠ strides.length then .error .assertion
  else
    traverse (fun out _ cur_offset cnt => do
        let v ← load a cur_offset
        store out cnt v)
      shape strides offset out.size fuel (List.replicate shape.length 0) 0 out

/-- The kernel `EwiseSetitem`. -/
def EwiseSetitem {α : Type} (fuel : Nat) (a out : AlignedArray α) (shape strides : List Nat)
    (offset : Nat) : Except Fault (AlignedArray α) :=
  traverse (fun out _ cur_offset cnt => do
      let v ← load a cnt
      store out cur_offset v)
    shape strides offset a.size fuel (List.replicate shape.length 0) 0 out

/-- The kernel `ScalarSetitem`. -/
def ScalarSetitem {α : Type} (fuel : Nat) (size : Nat) (val : α) (out : AlignedArray α)
    (shape strides : List Nat) (offset : Nat) : Except Fault (AlignedArray α) :=
  traverse (fun out _ cur_offset _ => store out cur_offset val)
    shape strides offset size fuel (List.replicate shape.length 0) 0 out

/-! ## Matrix multiplication -/

/-- The statement `tmp += a.ptr[i * n + j] * b.ptr[j * p + k];` of `Matmul`. -/
def matmulAccum {α : Type} [Semiring α] (a b : AlignedArray α) (n p i k : Nat)
    (j : Nat) (tmp : α) : Except Fault α := do
  let x ← load a ((i * n + j) % U64)
  let y ← load b ((j * p + k) % U64)
  pure (tmp + x * y)

/-- The body of the loop over `k` of `Matmul`: `tmp = 0`, the loop over `j`, and the
single store `out->ptr[i * p + k] = tmp`. -/
def matmulCell {α : Type} [Semiring α] (a b : AlignedArray α) (n p i : Nat)
    (k : Nat) (out : AlignedArray α) : Except Fault (AlignedArray α) := do
  let tmp ← forLoop (matmulAccum a b n p i k) n 0 0
  store out ((i * p + k) % U64) tmp

/-- The kernel `Matmul`. -/
def Matmul {α : Type} [Semiring α] (a b out : AlignedArray α) (m n p : Nat) :
    Except Fault (AlignedArray α) :=
  forLoop (fun i out => forLoop (matmulCell a b n p i) p 0 out) m 0 out

/-- The statement `tmp += a[i * TILE + j] * b[j * TILE + k];` of `AlignedDot`, the
pointers `a` and `b` being positions `abase` and `bbase` of two buffers. -/
def alignedDotAccum {α : Type} [Semiring α] (a : AlignedArray α) (abase : Nat)
    (b : AlignedArray α) (bbase : Nat) (i k : Nat) (j : Nat) (tmp : α) : Except Fault α := do
  let x ← load a (abase + (i * TILE + j) % U64)
  let y ← load b (bbase + (j * TILE + k) % U64)
  pure (tmp + x * y)

/-- The body of the loop over `k` of `AlignedDot`: `tmp = 0`, the loop over `j`, and
`out[i * TILE + k] += tmp`. -/
def alignedDotCell {α : Type} [Semiring α] (a : AlignedArray α) (abase : Nat)
    (b : AlignedArray α) (bbase : Nat) (obase : Nat) (i : Nat)
    (k : Nat) (out : AlignedArray α) : Except Fault (AlignedArray α) := do
  let tmp ← forLoop (alignedDotAccum a abase b bbase i k) TILE 0 0
  let old ← load out (obase + (i * TILE + k) % U64)
  store out (obase + (i * TILE + k) % U64) (old + tmp)

/-- The micro-kernel `AlignedDot(a, b, out)`. A pointer argument is a buffer together
with the position in it the pointer refers to; `a` and `b` are `const`, and the
three buffers are distinct objects (`__restrict__`). -/
def AlignedDot {α : Type} [Semiring α] (a : AlignedArray α) (abase : Nat)
    (b : AlignedArray α) (bbase : Nat) (out : AlignedArray α) (obase : Nat) :
    Except Fault (AlignedArray α) :=
  forLoop (fun i out => forLoop (alignedDotCell a abase b bbase obase i) TILE 0 out) TILE 0 out

/-- The statement `out->ptr[i * p * TILE + k * TILE * TILE + q1 * TILE + q2] = 0.0;`
of `MatmulTiled`. -/
def tileZero {α : Type} [Semiring α] (p i k q1 : Nat) (q2 : Nat) (out : AlignedArray α) :
    Except Fault (AlignedArray α) :=
  store out ((i * p * TILE + k * TILE * TILE + q1 * TILE + q2) % U64) 0

/-- The body of the loop over `k` of `MatmulTiled`: the output tile is zeroed, then
`AlignedDot` is called once for each `j < n / TILE`. -/
def matmulTile {α : Type} [Semiring α] (a b : AlignedArray α) (n p i : Nat)
    (k : Nat) (out : AlignedArray α) : Except Fault (AlignedArray α) := do
  let out ← forLoop (fun q1 out => forLoop (tileZero p i k q1) TILE 0 out) TILE 0 out
  forLoop (fun j out =>
      AlignedDot a ((i * n * TILE + j * TILE * TILE) % U64)
        b ((j * p * TILE + k * TILE * TILE) % U64)
        out ((i * p * TILE + k * TILE * TILE) % U64))
    (n / TILE) 0 out

/-- The kernel `MatmulTiled`; `m / TILE`, `n / TILE` and `p / TILE` are `uint32_t`
divisions of the `uint32_t` arguments. -/
def MatmulTiled {α : Type} [Semiring α] (a b out : AlignedArray α) (m n p : Nat) :
    Except Fault (AlignedArray α) :=
  forLoop (fun i out => forLoop (matmulTile a b n p i) (p / TILE) 0 out) (m / TILE) 0 out

/-! ## Reductions -/

/-- The body of the loop over `j` of `ReduceMax`:
`if (a.ptr[i * reduce_size + j] > tmp) tmp = a.ptr[i * reduce_size + j];`. -/
def reduceMaxStep {α : Type} [LinearOrder α] (a : AlignedArray α) (reduce_size i : Nat)
    (j : Nat) (tmp : α) : Except Fault α := do
  let x ← load a ((i * reduce_size + j) % U64)
  if x > tmp then
    load a ((i * reduce_size + j) % U64)
  else pure tmp

/-- The body of the loop over `i` of `ReduceMax`. -/
def reduceMaxCell {α : Type} [LinearOrder α] (a : AlignedArray α) (reduce_size : Nat)
    (i : Nat) (out : AlignedArray α) : Except Fault (AlignedArray α) := do
  let tmp ← load a ((i * reduce_size) % U64)
  let tmp ← forLoop (reduceMaxStep a reduce_size i) (reduce_size - 1) 1 tmp
  store out i tmp

/-- The kernel `ReduceMax`. -/
def ReduceMax {α : Type} [LinearOrder α] (a out : AlignedArray α) (reduce_size : Nat) :
    Except Fault (AlignedArray α) :=
  forLoop (reduceMaxCell a reduce_size) out.size 0 out

/-- The statement `tmp += a.ptr[i * reduce_size + j];` of `ReduceSum`. -/
def reduceSumStep {α : Type} [Semiring α] (a : AlignedArray α) (reduce_size i : Nat)
    (j : Nat) (tmp : α) : Except Fault α := do
  let x ← load a ((i * reduce_size + j) % U64)
  pure (tmp + x)

/-- The body of the loop over `i` of `ReduceSum`. -/
def reduceSumCell {α : Type} [Semiring α] (a : AlignedArray α) (reduce_size : Nat)
    (i : Nat) (out : AlignedArray α) : Except Fault (AlignedArray α) := do
  let tmp ← forLoop (reduceSumStep a reduce_size i) reduce_size 0 0
  store out i tmp

/-- The kernel `ReduceSum`. -/
def ReduceSum {α : Type} [Semiring α] (a out : AlignedArray α) (reduce_size : Nat) :
    Except Fault (AlignedArray α) :=
  forLoop (reduceSumCell a reduce_size) out.size 0 out

/-! ## Fill and the comparison kernels -/

/-- The largest value of an `int`. -/
def INT_MAX : Nat := 2 ^ 31 - 1

/-- The value of `INT_MIN` converted to `size_t`. -/
def INT_MIN_AS_SIZE : Nat := U64 - 2 ^ 31

/-- The loop `for (int i = 0; i < out->size; i++) out->ptr[i] = val;` of `Fill`, with
`n = out->size - i` the number of iterations left while `i` has not wrapped. The
counter is an `int`: the guard compares it, converted to `size_t`, with `out->size`.
The increment `i++` at `INT_MAX` (undefined in C++) wraps to `INT_MIN`, which the
guard sees as `2^64 - 2^31`: the loop is left there, unless `out->size` is larger
still, and then `out->ptr[i]` with a negative `i` is outside the buffer. -/
def fillLoop {α : Type} (val : α) : Nat → Nat → AlignedArray α → Except Fault (AlignedArray α)
  | 0, _, out => .ok out
  | n + 1, i, out => do
    let out ← store out i val
    if i + 1 > INT_MAX then
      if INT_MIN_AS_SIZE < out.size then .error .out_of_bounds else .ok out
    else fillLoop val n (i + 1) out

/-- The kernel `Fill`. -/
def Fill {α : Type} (out : AlignedArray α) (val : α) : Except Fault (AlignedArray α) :=
  fillLoop val out.size 0 out

/-- The statement `out->ptr[i] = a.ptr[i] > b.ptr[i] ? 1.0 : 0.0;` of `EwiseGe`. -/
def ewiseGeStep {α : Type} [LinearOrder α] [Zero α] [One α] (a b : AlignedArray α)
    (i : Nat) (out : AlignedArray α) : Except Fault (AlignedArray α) := do
  let x ← load a i
  let y ← load b i
  store out i (if x > y then 1 else 0)

/-- The kernel `EwiseGe`. -/
def EwiseGe {α : Type} [LinearOrder α] [Zero α] [One α] (a b out : AlignedArray α) :
    Except Fault (AlignedArray α) :=
  forLoop (ewiseGeStep a b) a.size 0 out

/-- The statement `out->ptr[i] = a.ptr[i] >= val ? 1.0 : 0.0;` of `ScalarGe`. -/
def scalarGeStep {α : Type} [LinearOrder α] [Zero α] [One α] (a : AlignedArray α) (val : α)
    (i : Nat) (out : AlignedArray α) : Except Fault (AlignedArray α) := do
  let x ← load a i
  store out i (if x ≥ val then 1 else 0)

/-- The kernel `ScalarGe`. -/
def ScalarGe {α : Type} [LinearOrder α] [Zero α] [One α] (a : AlignedArray α) (val : α)
    (out : AlignedArray α) : Except Fault (AlignedArray α) :=
  forLoop (scalarGeStep a val) a.size 0 out

/-! ## Instrumented runs of the traversal loop -/

/-- The traversal loop run with a body that records the index vector it is given:
the sequence of values of `index` at the successive iterations. -/
def indexTrace (shape strides : List Nat) (offset size fuel : Nat) :
    Except Fault (List (List Nat)) :=
  traverse (fun log index _ _ => .ok (log ++ [index])) shape strides offset size fuel
    (List.replicate shape.length 0) 0 []

/-- The traversal loop run with a body that counts its executions. -/
def passCount (shape strides : List Nat) (offset size fuel : Nat) : Except Fault Nat :=
  traverse (fun n _ _ _ => .ok (n + 1)) shape strides offset size fuel
    (List.replicate shape.length 0) 0 0

/-- The traversal loop of `traverse` together with the state it has reached when it
stops: the state after the last body that ran, and the way the loop was left (`.ok ()`
through `break`, `.error` through a fault). In the program an exception leaves the
stores already made in place; this keeps them. -/
def traverseOutcome {σ : Type} (body : σ → List Nat → Nat → Nat → Except Fault σ)
    (shape strides : List Nat) (offset size : Nat) :
    Nat → List Nat → Nat → σ → σ × Except Fault Unit
  | 0, _, _, s => (s, .error .out_of_fuel)
  | fuel + 1, index, cnt, s =>
    match offsetLoop index strides shape.length offset with
    | .error e => (s, .error e)
    | .ok cur_offset =>
      match body s index cur_offset cnt with
      | .error e => (s, .error e)
      | .ok s1 =>
        if (cnt + 1) % U64 ≥ size then (s1, .ok ())
        else
          match advance shape index with
          | .error e => (s1, .error e)
          | .ok index1 =>
            traverseOutcome body shape strides offset size fuel index1 ((cnt + 1) % U64) s1

/-- What a caller gets from a loop that stopped in the given state and way: the state
on a normal exit, the fault otherwise. -/
def outcomeResult {σ : Type} (o : σ × Except Fault Unit) : Except Fault σ :=
  match o.2 with
  | .ok _ => .ok o.1
  | .error e => .error e

/-- The kernel `EwiseSetitem` together with the contents of `out` when it stops. -/
def EwiseSetitemOutcome {α : Type} (fuel : Nat) (a out : AlignedArray α)
    (shape strides : List Nat) (offset : Nat) : AlignedArray α × Except Fault Unit :=
  traverseOutcome (fun out _ cur_offset cnt => do
      let v ← load a cnt
      store out cur_offset v)
    shape strides offset a.size fuel (List.replicate shape.length 0) 0 out

/-! ## Reference notions used to state the contracts -/

/-- The `k`-th multi-index of `shape` in row-major order:
`idx[d] = (k / Π_{e>d} shape[e]) % shape[d]`. -/
def unravel : List Nat → Nat → List Nat
  | [], _ => []
  | s :: rest, k => (k / rest.prod) % s :: unravel rest k

/-- The linear offset of a multi-index, `offset + Σ_d idx[d] * strides[d]`, in
unbounded arithmetic. -/
def linearOffset (offset : Nat) (strides idx : List Nat) : Nat :=
  offset + (List.zipWith (fun i s => i * s) idx strides).sum

/-- A multi-index of `shape`: one coordinate per dimension, each below its extent. -/
def IsIndex (shape idx : List Nat) : Prop :=
  List.Forall₂ (fun i s => i < s) idx shape

/-- The rank of a multi-index in row-major order, `Σ_d idx[d] * Π_{e>d} shape[e]`. -/
def ravel : List Nat → List Nat → Nat
  | _ :: rest, i :: idx => i * rest.prod + ravel rest idx
  | _, _ => 0

/-- The number of values a coordinate of extent `s` runs through before the carry scan
finds it equal to `shape.at(j) - 1`, a `uint32_t` expression: `s` itself when
`1 <= s < 2^32`, and `2^32` when `s = 0`. -/
def effExtent (s : Nat) : Nat := (s + U32 - 1) % U32 + 1

/-- The value `cur_offset` the machine computes for an index vector: each product
is reduced modulo `2^32` and the running sum modulo `2^64`. -/
def machineOffset (offset : Nat) (index strides : List Nat) : Nat :=
  (List.zip index strides).foldl (fun cur p => (cur + (p.1 * p.2) % U32) % U64) offset

/-- What the traversal executes at the index of rank `k`. -/
def visit {σ : Type} (body : σ → List Nat → Nat → Nat → Except Fault σ)
    (shape strides : List Nat) (offset : Nat) (s : σ) (k : Nat) : Except Fault σ :=
  body s (unravel shape k) (machineOffset offset (unravel shape k) strides) k

/-! ## Basic lemmas -/

@[simp] theorem ok_bind {ε α β : Type} (a : α) (f : α → Except ε β) :
    (Except.ok a >>= f) = f a := rfl

@[simp] theorem error_bind {ε α β : Type} (e : ε) (f : α → Except ε β) :
    (Except.error e >>= f) = Except.error e := rfl

@[simp] theorem pure_eq_ok {ε α : Type} (a : α) : (pure a : Except ε α) = Except.ok a := rfl

theorem vecAt_of_lt {v : List Nat} {i : Nat} (h : i < v.length) :
    vecAt v i = .ok (v.get ⟨i, h⟩) := by
  simp [vecAt, List.getElem?_eq_getElem h]

theorem vecAt_of_le {v : List Nat} {i : Nat} (h : v.length ≤ i) :
    vecAt v i = .error .out_of_range := by
  simp [vecAt, List.getElem?_eq_none h]

theorem vecAt_append_length (v w : List Nat) (x : Nat) :
    vecAt (v ++ x :: w) v.length = .ok x := by
  have h : (v ++ x :: w)[v.length]? = some x := by
    rw [List.getElem?_append_right (Nat.le_refl _)]
    simp
  simp [vecAt, h]

theorem load_of_lt {α : Type} {a : AlignedArray α} {i : Nat} (h : i < a.ptr.length) :
    load a i = .ok (a.ptr.get ⟨i, h⟩) := by
  simp [load, List.getElem?_eq_getElem h]

theorem forLoop_succ_last {σ : Type} (body : Nat → σ → Except Fault σ) :
    ∀ (n i : Nat) (s : σ),
      forLoop body (n + 1) i s = forLoop body n i s >>= body (i + n)
  | 0, i, s => by
    simp only [forLoop, ok_bind, Nat.add_zero]
    cases body i s <;> rfl
  | n + 1, i, s => by
    rw [forLoop]
    conv_rhs => rw [forLoop]
    cases h : body i s with
    | error e => rfl
    | ok s1 =>
      simp only [ok_bind]
      rw [forLoop_succ_last body n (i + 1) s1]
      have : i + 1 + n = i + (n + 1) := by omega
      rw [this]

theorem length_unravel (shape : List Nat) (k : Nat) :
    (unravel shape k).length = shape.length := by
  induction shape with
  | nil => rfl
  | cons s rest ih => simp [unravel, ih]

theorem unravel_concat (sh : List Nat) (s k : Nat) :
    unravel (sh ++ [s]) k = unravel sh (k / s) ++ [k % s] := by
  induction sh with
  | nil => simp [unravel]
  | cons t sh ih =>
    have h : k / (sh ++ [s]).prod = k / s / sh.prod := by
      rw [Nat.div_div_eq_div_mul, List.prod_append, List.prod_singleton, Nat.mul_comm]
    show k / (sh ++ [s]).prod % t :: unravel (sh ++ [s]) k = _
    rw [ih, h]
    rfl

theorem unravel_zero (shape : List Nat) : unravel shape 0 = List.replicate shape.length 0 := by
  induction shape with
  | nil => rfl
  | cons s rest ih => simp [unravel, ih, List.replicate_succ]

/-! ## The offset loop -/

theorem forLoop_offset (index strides : List Nat) :
    ∀ (n i cur : Nat), i + n = index.length → i + n ≤ strides.length →
      forLoop (offsetStep index strides) n i cur
        = .ok (machineOffset cur (index.drop i) (strides.drop i)) := by
  intro n
  induction n with
  | zero =>
    intro i cur hi _
    have h : index.drop i = [] := List.drop_eq_nil_of_le (by omega)
    simp [forLoop, machineOffset, h]
  | succ n ih =>
    intro i cur hi hs
    have h1 : i < index.length := by omega
    have h2 : i < strides.length := by omega
    rw [forLoop, offsetStep, vecAt_of_lt h1, vecAt_of_lt h2]
    simp only [ok_bind, pure_eq_ok]
    rw [ih (i + 1) _ (by omega) (by omega)]
    rw [List.drop_eq_getElem_cons h1, List.drop_eq_getElem_cons h2]
    simp only [machineOffset, List.zip_cons_cons, List.foldl_cons, List.get_eq_getElem]

theorem offsetLoop_eq (index strides : List Nat) (offset : Nat)
    (hs : index.length ≤ strides.length) :
    offsetLoop index strides index.length offset = .ok (machineOffset offset index strides) := by
  have h := forLoop_offset index strides index.length 0 offset (by omega) (by omega)
  simpa [offsetLoop] using h

theorem machineOffset_eq_linearOffset :
    ∀ (idx strides : List Nat) (offset : Nat),
      (∀ q ∈ List.zipWith (fun i s => i * s) idx strides, q < U32) →
      linearOffset offset strides idx < U64 →
      machineOffset offset idx strides = linearOffset offset strides idx
  | [], strides, offset => by
    intro _ _
    simp [machineOffset, linearOffset]
  | x :: idx, [], offset => by
    intro _ _
    simp [machineOffset, linearOffset]
  | x :: idx, s :: strides, offset => by
    intro hq hlt
    have hx : x * s < U32 := hq _ (by simp)
    have hlin : linearOffset offset (s :: strides) (x :: idx)
        = linearOffset (offset + x * s) strides idx := by
      simp [linearOffset, Nat.add_assoc]
    rw [hlin] at hlt ⊢
    have hle : offset + x * s ≤ linearOffset (offset + x * s) strides idx := by
      simp [linearOffset]
    have ih := machineOffset_eq_linearOffset idx strides (offset + x * s)
      (fun q hq1 => hq q (by simp [hq1])) hlt
    rw [← ih]
    simp only [machineOffset, List.zip_cons_cons, List.foldl_cons]
    rw [Nat.mod_eq_of_lt hx, Nat.mod_eq_of_lt (by omega)]

theorem machineOffset_of_small (idx strides : List Nat) (offset : Nat)
    (h : linearOffset offset strides idx < U32) :
    machineOffset offset idx strides = linearOffset offset strides idx := by
  apply machineOffset_eq_linearOffset
  · intro q hq
    have : q ≤ (List.zipWith (fun i s => i * s) idx strides).sum := List.single_le_sum (by simp) q hq
    unfold linearOffset at h
    omega
  · have : U32 < U64 := by decide
    omega

/-! ## The odometer step -/

theorem u32_pred {s : Nat} (h1 : 1 ≤ s) (h2 : s < U32) : (s + U32 - 1) % U32 = s - 1 := by
  have : s + U32 - 1 = (s - 1) + U32 := by omega
  rw [this, Nat.add_mod_right, Nat.mod_eq_of_lt (by omega)]

theorem u64_pred {n : Nat} (h : n < U64) : (n + 1 + U64 - 1) % U64 = n := by
  have : n + 1 + U64 - 1 = n + U64 := by omega
  rw [this, Nat.add_mod_right, Nat.mod_eq_of_lt h]

theorem succ_div_of_lt {k s : Nat} (h : k % s + 1 < s) :
    (k + 1) / s = k / s ∧ (k + 1) % s = k % s + 1 := by
  have hs : 0 < s := by omega
  have hk : k + 1 = s * (k / s) + (k % s + 1) := by
    have := Nat.div_add_mod k s
    omega
  rw [hk, Nat.mul_add_div hs, Nat.mul_add_mod, Nat.div_eq_of_lt h, Nat.mod_eq_of_lt h]
  simp [Nat.mul_add_mod, Nat.mod_eq_of_lt h]

theorem succ_div_of_eq {k s : Nat} (hs : 0 < s) (h : k % s + 1 = s) :
    (k + 1) / s = k / s + 1 ∧ (k + 1) % s = 0 := by
  have hk : k + 1 = s * (k / s + 1) := by
    have := Nat.div_add_mod k s
    rw [Nat.mul_add, Nat.mul_one]
    omega
  rw [hk, Nat.mul_div_cancel_left _ hs, Nat.mul_mod_right]
  simp

theorem carryScan_unravel (sh : List Nat) :
    ∀ (extra : List Nat) (k fuel : Nat),
      (∀ s ∈ sh, 1 ≤ s ∧ s < U32) → sh.length < U64 → k + 1 < sh.prod → sh.length < fuel →
      ∃ I1 last,
        carryScan (sh ++ extra) fuel (unravel sh k) ((sh.length + U64 - 1) % U64)
          = .ok (I1 ++ [last]) ∧
        I1.length < sh.length ∧
        I1 ++ [(last + 1) % U32] ++ List.replicate (sh.length - (I1.length + 1)) 0
          = unravel sh (k + 1) := by
  induction sh using List.reverseRecOn with
  | nil =>
    intro extra k fuel _ _ hk _
    simp at hk
  | append_singleton sh s ih =>
    intro extra k fuel hsh hlen hk hfuel
    have hs : 1 ≤ s ∧ s < U32 := hsh s (by simp)
    have hsh1 : ∀ t ∈ sh, 1 ≤ t ∧ t < U32 := fun t ht => hsh t (by simp [ht])
    rw [List.length_append, List.length_singleton] at hlen hfuel
    rw [List.prod_append, List.prod_singleton] at hk
    obtain ⟨f, rfl⟩ : ∃ f, fuel = f + 1 := ⟨fuel - 1, by omega⟩
    have hj : ((sh ++ [s]).length + U64 - 1) % U64 = (unravel sh (k / s)).length := by
      rw [List.length_append, List.length_singleton, u64_pred (by omega), length_unravel]
    have hj2 : (unravel sh (k / s)).length = sh.length := length_unravel _ _
    have hmod : k % s < s := Nat.mod_lt _ (by omega)
    rw [unravel_concat, carryScan, hj, vecAt_append_length]
    have hshape : sh ++ [s] ++ extra = sh ++ s :: extra := by simp
    rw [hshape, hj2, vecAt_append_length]
    simp only [ok_bind, pure_eq_ok]
    rw [u32_pred hs.1 hs.2, unravel_concat]
    by_cases hc : k % s = s - 1
    · -- the last coordinate is at its maximum: it is popped and the scan goes on
      have hks := succ_div_of_eq (by omega : 0 < s) (by omega : k % s + 1 = s)
      have hk1 : k / s + 1 < sh.prod := by
        have h1 : k + 1 = s * (k / s + 1) := by
          have := Nat.div_add_mod k s
          rw [Nat.mul_add, Nat.mul_one]
          omega
        rw [h1, Nat.mul_comm] at hk
        exact Nat.lt_of_mul_lt_mul_right hk
      obtain ⟨I1, last, h1, h2, h3⟩ := ih (s :: extra) (k / s) f hsh1 (by omega) hk1 (by omega)
      refine ⟨I1, last, ?_, by rw [List.length_append, List.length_singleton]; omega, ?_⟩
      · simp only [hc, ne_eq, not_true_eq_false, if_false, List.dropLast_concat]
        rw [← hj2] at h1 ⊢
        simpa using h1
      · rw [hks.1, hks.2, ← h3]
        have : (sh ++ [s]).length - (I1.length + 1) = (sh.length - (I1.length + 1)) + 1 := by
          rw [List.length_append, List.length_singleton]
          omega
        rw [this, List.replicate_succ']
        simp
    · -- the scan leaves here
      have hks := succ_div_of_lt (by omega : k % s + 1 < s)
      refine ⟨unravel sh (k / s), k % s, ?_, by rw [List.length_append, hj2]; simp, ?_⟩
      · simp [hc]
      · rw [hks.1, hks.2, Nat.mod_eq_of_lt (by omega)]
        simp [hj2]

theorem advance_unravel (shape : List Nat) (k : Nat)
    (hsh : ∀ s ∈ shape, 1 ≤ s ∧ s < U32) (hlen : shape.length < U64)
    (hk : k + 1 < shape.prod) :
    advance shape (unravel shape k) = .ok (unravel shape (k + 1)) := by
  obtain ⟨I1, last, h1, _, h3⟩ :=
    carryScan_unravel shape [] k ((unravel shape k).length + 1) hsh hlen hk
      (by rw [length_unravel]; omega)
  rw [List.append_nil] at h1
  rw [advance, h1]
  simp only [ok_bind, List.getLast?_concat, List.dropLast_concat, pure_eq_ok]
  rw [← h3]
  simp

/-- The fuel `index.size() + 1` given to the carry scan is never exhausted: a pass that
neither leaves nor throws pops one element. -/
theorem carryScan_fuel_suffices (shape : List Nat) :
    ∀ (fuel : Nat) (index : List Nat) (j : Nat), index.length < fuel →
      carryScan shape fuel index j ≠ .error .out_of_fuel := by
  intro fuel
  induction fuel with
  | zero =>
    intro index j h
    omega
  | succ fuel ih =>
    intro index j h
    rw [carryScan]
    by_cases hj : j < index.length
    · rw [vecAt_of_lt hj]
      simp only [ok_bind]
      cases hs : vecAt shape j with
      | error e =>
        simp only [error_bind]
        intro heq
        cases heq
        unfold vecAt at hs
        split at hs <;> cases hs
      | ok sj =>
        simp only [ok_bind]
        split
        · intro heq
          cases heq
        · exact ih _ _ (by rw [List.length_dropLast]; omega)
    · rw [vecAt_of_le (by omega)]
      intro heq
      cases heq

/-! ## The traversal as a fold over the ranks `0 .. size-1` -/

theorem traverse_eq_foldlM {σ : Type} (body : σ → List Nat → Nat → Nat → Except Fault σ)
    (shape strides : List Nat) (offset size : Nat)
    (hsh : ∀ s ∈ shape, 1 ≤ s ∧ s < U32) (hlen : shape.length < U64)
    (hst : shape.length ≤ strides.length) (hsize : size ≤ shape.prod) (h64 : size < U64) :
    ∀ (fuel c : Nat) (s : σ), c < size → size - c ≤ fuel →
      traverse body shape strides offset size fuel (unravel shape c) c s
        = List.foldlM (visit body shape strides offset) s (List.range' c (size - c)) := by
  intro fuel
  induction fuel with
  | zero =>
    intro c s hc hf
    omega
  | succ fuel ih =>
    intro c s hc hf
    obtain ⟨n, hn⟩ : ∃ n, size - c = n + 1 := ⟨size - c - 1, by omega⟩
    have hoff := offsetLoop_eq (unravel shape c) strides offset (by rw [length_unravel]; exact hst)
    rw [length_unravel] at hoff
    rw [traverse, hoff, hn, List.range'_succ, List.foldlM_cons]
    simp only [ok_bind]
    show (visit body shape strides offset s c >>= _) = _
    cases hv : visit body shape strides offset s c with
    | error e => rfl
    | ok s1 =>
      simp only [ok_bind]
      rw [Nat.mod_eq_of_lt (by omega)]
      by_cases hlast : c + 1 ≥ size
      · have : n = 0 := by omega
        subst this
        simp [hlast]
      · rw [if_neg hlast, advance_unravel shape c hsh hlen (by omega)]
        simp only [ok_bind]
        rw [ih (c + 1) s1 (by omega) (by omega)]
        have : size - (c + 1) = n := by omega
        rw [this]

theorem traverse_out_of_fuel {σ : Type} (body : σ → List Nat → Nat → Nat → Except Fault σ)
    (shape strides : List Nat) (offset size : Nat) (index : List Nat) (cnt : Nat) (s : σ) :
    traverse body shape strides offset size 0 index cnt s = .error .out_of_fuel := rfl

/-! ## Folds of loads and stores -/

theorem store_of_lt {α : Type} {out : AlignedArray α} {i : Nat} (v : α)
    (h : i < out.ptr.length) :
    store out i v = .ok ⟨out.ptr.set i v, out.stores ++ [i]⟩ := by
  simp [store, h]

/-- Sequential destination, computed source position: the fold behind `Compact`. -/
theorem gather_fold {α : Type} (a : AlignedArray α) (off : Nat → Nat)
    (f : AlignedArray α → Nat → Except Fault (AlignedArray α))
    (hf : ∀ o k, f o k = load a (off k) >>= fun v => store o k v)
    (out : AlignedArray α) :
    ∀ n, n ≤ out.ptr.length → (∀ k < n, off k < a.ptr.length) →
      ∃ res, List.foldlM f out (List.range n) = .ok res ∧
        res.ptr.length = out.ptr.length ∧
        res.stores = out.stores ++ List.range n ∧
        (∀ k < n, res.ptr[k]? = a.ptr[off k]?) ∧
        (∀ k, n ≤ k → res.ptr[k]? = out.ptr[k]?) := by
  intro n
  induction n with
  | zero =>
    intro _ _
    exact ⟨out, by simp⟩
  | succ n ih =>
    intro hn hoff
    obtain ⟨o1, h1, hl, hs, hlo, hhi⟩ := ih (by omega) (fun k hk => hoff k (by omega))
    have hn1 : n < o1.ptr.length := by omega
    refine ⟨⟨o1.ptr.set n (a.ptr.get ⟨off n, hoff n (by omega)⟩), o1.stores ++ [n]⟩,
      ?_, by simp [hl], by simp [hs, List.range_succ], ?_, ?_⟩
    · rw [List.range_succ, List.foldlM_append, h1]
      simp only [ok_bind, List.foldlM_cons, List.foldlM_nil]
      rw [hf, load_of_lt (hoff n (by omega))]
      simp only [ok_bind]
      rw [store_of_lt _ hn1]
      rfl
    · intro k hk
      by_cases hkn : k = n
      · subst hkn
        simp [List.getElem?_set_self hn1, List.getElem?_eq_getElem (hoff k (by omega))]
      · have : n ≠ k := fun h => hkn h.symm
        simp only [List.getElem?_set_ne this]
        exact hlo k (by omega)
    · intro k hk
      have : n ≠ k := by omega
      simp only [List.getElem?_set_ne this]
      exact hhi k (by omega)

/-- Computed destination position: the fold behind `EwiseSetitem` and `ScalarSetitem`.
A position holds the value of the last rank mapped to it, and its old value when
no rank is mapped to it. -/
theorem scatter_fold {α : Type} (g : Nat → Except Fault α) (off : Nat → Nat)
    (f : AlignedArray α → Nat → Except Fault (AlignedArray α))
    (hf : ∀ o k, f o k = g k >>= fun v => store o (off k) v)
    (out : AlignedArray α) :
    ∀ n, (∀ k < n, ∃ v, g k = .ok v) → (∀ k < n, off k < out.ptr.length) →
      ∃ res, List.foldlM f out (List.range n) = .ok res ∧
        res.ptr.length = out.ptr.length ∧
        res.stores = out.stores ++ (List.range n).map off ∧
        (∀ k < n, (∀ j, k < j → j < n → off j ≠ off k) →
          ∀ v, g k = .ok v → res.ptr[off k]? = some v) ∧
        (∀ L, (∀ k < n, off k ≠ L) → res.ptr[L]? = out.ptr[L]?) := by
  intro n
  induction n with
  | zero =>
    intro _ _
    exact ⟨out, by simp⟩
  | succ n ih =>
    intro hg hoff
    obtain ⟨o1, h1, hl, hs, hlast, hkeep⟩ :=
      ih (fun k hk => hg k (by omega)) (fun k hk => hoff k (by omega))
    obtain ⟨vn, hvn⟩ := hg n (by omega)
    have hn1 : off n < o1.ptr.length := by rw [hl]; exact hoff n (by omega)
    refine ⟨⟨o1.ptr.set (off n) vn, o1.stores ++ [off n]⟩,
      ?_, by simp [hl], by simp [hs, List.range_succ], ?_, ?_⟩
    · rw [List.range_succ, List.foldlM_append, h1]
      simp only [ok_bind, List.foldlM_cons, List.foldlM_nil]
      rw [hf, hvn]
      simp only [ok_bind]
      rw [store_of_lt _ hn1]
      rfl
    · intro k hk hlater v hv
      by_cases hkn : k = n
      · subst hkn
        rw [hvn] at hv
        cases hv
        simp [List.getElem?_set_self hn1]
      · have hne : off n ≠ off k := hlater n (by omega) (by omega)
        simp only [List.getElem?_set_ne hne]
        exact hlast k (by omega) (fun j h1 h2 => hlater j h1 (by omega)) v hv
    · intro L hL
      have hne : off n ≠ L := hL n (by omega)
      simp only [List.getElem?_set_ne hne]
      exact hkeep L (fun k hk => hL k (by omega))

/-! ## Multi-indices and their ranks -/

theorem isIndex_unravel (shape : List Nat) (k : Nat) (hsh : ∀ s ∈ shape, 1 ≤ s) :
    IsIndex shape (unravel shape k) := by
  induction shape with
  | nil => exact List.Forall₂.nil
  | cons s rest ih =>
    refine List.Forall₂.cons (Nat.mod_lt _ (hsh s (by simp))) (ih ?_)
    intro t ht
    exact hsh t (by simp [ht])

theorem unravel_add_mul (shape : List Nat) (k i : Nat) (hsh : ∀ s ∈ shape, 1 ≤ s) :
    unravel shape (k + i * shape.prod) = unravel shape k := by
  induction shape generalizing i with
  | nil => rfl
  | cons s rest ih =>
    have hrest : ∀ t ∈ rest, 1 ≤ t := fun t ht => hsh t (by simp [ht])
    have hpos : 0 < rest.prod := List.prod_pos (fun t ht => hrest t ht)
    have h1 : k + i * (s :: rest).prod = k + (i * s) * rest.prod := by
      rw [List.prod_cons, Nat.mul_assoc]
    simp only [unravel]
    rw [h1, ih (i * s) hrest, Nat.add_mul_div_right _ _ hpos, Nat.add_mul_mod_self_right]

theorem extent_pos_of_isIndex (shape idx : List Nat) (h : IsIndex shape idx) :
    ∀ s ∈ shape, 1 ≤ s := by
  induction h with
  | nil => simp
  | @cons i s idx rest his _ ih =>
    intro t ht
    rcases List.mem_cons.mp ht with rfl | ht
    · omega
    · exact ih t ht

theorem ravel_lt_and_unravel (shape idx : List Nat) (h : IsIndex shape idx) :
    ravel shape idx < shape.prod ∧ unravel shape (ravel shape idx) = idx := by
  induction h with
  | nil => simp [ravel, unravel]
  | @cons i s idx rest his hrel ih =>
    have hrest : ∀ t ∈ rest, 1 ≤ t := extent_pos_of_isIndex rest idx hrel
    have hpos : 0 < rest.prod := List.prod_pos (fun t ht => hrest t ht)
    constructor
    · have h1 : (i + 1) * rest.prod ≤ s * rest.prod := Nat.mul_le_mul_right _ his
      rw [Nat.add_mul, Nat.one_mul] at h1
      simp only [ravel, List.prod_cons]
      omega
    · simp only [unravel, ravel]
      rw [Nat.add_comm (i * rest.prod), unravel_add_mul rest _ i hrest, ih.2,
        Nat.add_mul_div_right _ _ hpos, Nat.div_eq_of_lt ih.1, Nat.zero_add,
        Nat.mod_eq_of_lt his]

theorem isIndex_iff_unravel (shape idx : List Nat) (hsh : ∀ s ∈ shape, 1 ≤ s) :
    IsIndex shape idx ↔ ∃ k, k < shape.prod ∧ unravel shape k = idx := by
  constructor
  · intro h
    exact ⟨ravel shape idx, (ravel_lt_and_unravel shape idx h).1, (ravel_lt_and_unravel shape idx h).2⟩
  · rintro ⟨k, _, rfl⟩
    exact isIndex_unravel shape k hsh

/-- Among the ranks below `n` with the same image as `k`, there is a last one. -/
theorem exists_last_same (f : Nat → Nat) (n k : Nat) (hk : k < n) :
    ∃ j, j < n ∧ f j = f k ∧ ∀ i, j < i → i < n → f i ≠ f k := by
  classical
  let P : Nat → Prop := fun j => j < n ∧ f j = f k
  have hPk : P k := ⟨hk, rfl⟩
  have hspec : P (Nat.findGreatest P n) := Nat.findGreatest_spec (Nat.le_of_lt hk) hPk
  refine ⟨Nat.findGreatest P n, hspec.1, hspec.2, ?_⟩
  intro i hi1 hi2 hi3
  have hPi : P i := ⟨hi2, hi3⟩
  exact Nat.findGreatest_is_greatest hi1 (Nat.le_of_lt hi2) hPi

/-! ## What the three strided kernels compute, in terms of the machine offsets -/

theorem Compact_run {α : Type} (fuel : Nat) (a out : AlignedArray α) (shape strides : List Nat)
    (offset : Nat) (hsh : ∀ s ∈ shape, 1 ≤ s ∧ s < U32) (hlen : shape.length < U64)
    (hstr : strides.length = shape.length)
    (h1 : 1 ≤ out.size) (hsz : out.size ≤ shape.prod) (h64 : out.size < U64)
    (hfuel : out.size ≤ fuel)
    (hin : ∀ k < out.size, machineOffset offset (unravel shape k) strides < a.size) :
    ∃ res, Compact fuel a out shape strides offset = .ok res ∧
      res.ptr.length = out.ptr.length ∧
      res.stores = out.stores ++ List.range out.size ∧
      ∀ k < out.size, res.ptr[k]? = a.ptr[machineOffset offset (unravel shape k) strides]? := by
  obtain ⟨res, h, hl, hs, hv, _⟩ :=
    gather_fold a (fun k => machineOffset offset (unravel shape k) strides)
      (visit (fun out _ cur_offset cnt => do
          let v ← load a cur_offset
          store out cnt v) shape strides offset)
      (fun _ _ => rfl) out out.size (Nat.le_refl _) hin
  refine ⟨res, ?_, hl, hs, hv⟩
  rw [Compact, if_neg (by simp [hstr]), ← unravel_zero,
    traverse_eq_foldlM _ shape strides offset out.size hsh hlen (by omega) hsz h64 fuel 0 out
      (by omega) (by omega),
    Nat.sub_zero, ← List.range_eq_range']
  exact h

theorem EwiseSetitem_run {α : Type} (fuel : Nat) (a out : AlignedArray α)
    (shape strides : List Nat) (offset : Nat)
    (hsh : ∀ s ∈ shape, 1 ≤ s ∧ s < U32) (hlen : shape.length < U64)
    (hstr : shape.length ≤ strides.length)
    (h1 : 1 ≤ a.size) (hsz : a.size ≤ shape.prod) (h64 : a.size < U64)
    (hfuel : a.size ≤ fuel)
    (hin : ∀ k < a.size, machineOffset offset (unravel shape k) strides < out.size) :
    ∃ res, EwiseSetitem fuel a out shape strides offset = .ok res ∧
      res.ptr.length = out.ptr.length ∧
      res.stores = out.stores ++
        (List.range a.size).map (fun k => machineOffset offset (unravel shape k) strides) ∧
      (∀ k < a.size,
        (∀ j, k < j → j < a.size → machineOffset offset (unravel shape j) strides
          ≠ machineOffset offset (unravel shape k) strides) →
        res.ptr[machineOffset offset (unravel shape k) strides]? = a.ptr[k]?) ∧
      (∀ L, (∀ k < a.size, machineOffset offset (unravel shape k) strides ≠ L) →
        res.ptr[L]? = out.ptr[L]?) := by
  obtain ⟨res, h, hl, hs, hv, hk⟩ :=
    scatter_fold (load a) (fun k => machineOffset offset (unravel shape k) strides)
      (visit (fun out _ cur_offset cnt => do
          let v ← load a cnt
          store out cur_offset v) shape strides offset)
      (fun _ _ => rfl) out a.size
      (fun k hk => ⟨_, load_of_lt hk⟩) hin
  refine ⟨res, ?_, hl, hs, ?_, hk⟩
  · rw [EwiseSetitem, ← unravel_zero,
      traverse_eq_foldlM _ shape strides offset a.size hsh hlen hstr hsz h64 fuel 0 out
        (by omega) (by omega),
      Nat.sub_zero, ← List.range_eq_range']
    exact h
  · intro k hk1 hlater
    have hk2 : k < a.ptr.length := hk1
    rw [hv k hk1 hlater _ (load_of_lt hk2), List.getElem?_eq_getElem hk2]
    rfl

theorem ScalarSetitem_run {α : Type} (fuel size : Nat) (val : α) (out : AlignedArray α)
    (shape strides : List Nat) (offset : Nat)
    (hsh : ∀ s ∈ shape, 1 ≤ s ∧ s < U32) (hlen : shape.length < U64)
    (hstr : shape.length ≤ strides.length)
    (h1 : 1 ≤ size) (hsz : size ≤ shape.prod) (h64 : size < U64)
    (hfuel : size ≤ fuel)
    (hin : ∀ k < size, machineOffset offset (unravel shape k) strides < out.size) :
    ∃ res, ScalarSetitem fuel size val out shape strides offset = .ok res ∧
      res.ptr.length = out.ptr.length ∧
      res.stores = out.stores ++
        (List.range size).map (fun k => machineOffset offset (unravel shape k) strides) ∧
      (∀ k < size, res.ptr[machineOffset offset (unravel shape k) strides]? = some val) ∧
      (∀ L, (∀ k < size, machineOffset offset (unravel shape k) strides ≠ L) →
        res.ptr[L]? = out.ptr[L]?) := by
  obtain ⟨res, h, hl, hs, hv, hk⟩ :=
    scatter_fold (fun _ => Except.ok val)
      (fun k => machineOffset offset (unravel shape k) strides)
      (visit (fun out _ cur_offset _ => store out cur_offset val) shape strides offset)
      (fun _ _ => rfl) out size (fun k _ => ⟨val, rfl⟩) hin
  refine ⟨res, ?_, hl, hs, ?_, hk⟩
  · rw [ScalarSetitem, ← unravel_zero,
      traverse_eq_foldlM _ shape strides offset size hsh hlen hstr hsz h64 fuel 0 out
        (by omega) (by omega),
      Nat.sub_zero, ← List.range_eq_range']
    exact h
  · -- every visited position holds `val`: look at the last rank mapped to it
    intro k hk1
    obtain ⟨j, hj1, hj2, hj3⟩ : ∃ j, j < size ∧
        machineOffset offset (unravel shape j) strides
          = machineOffset offset (unravel shape k) strides ∧
        ∀ i, j < i → i < size → machineOffset offset (unravel shape i) strides
          ≠ machineOffset offset (unravel shape k) strides :=
      exists_last_same (fun k => machineOffset offset (unravel shape k) strides) size k hk1
    rw [← hj2]
    exact hv j hj1 (fun i h1 h2 => by rw [hj2]; exact hj3 i h1 h2) val rfl

/-! ## Contracts of the strided kernels -/

theorem prod_pos_of_extents {shape : List Nat} (hsh : ∀ s ∈ shape, 1 ≤ s ∧ s < U32) :
    1 ≤ shape.prod :=
  List.prod_pos (fun s hs => (hsh s hs).1)

theorem isIndex_pair {s1 s2 : Nat} {idx : List Nat} (h : IsIndex [s1, s2] idx) :
    ∃ i j, idx = [i, j] ∧ i < s1 ∧ j < s2 := by
  cases h with
  | cons hi h =>
    cases h with
    | cons hj h =>
      cases h
      exact ⟨_, _, rfl, hi, hj⟩

/-- C1. `Compact` returns, and element `k` of its output is the source element at
the linear offset of the `k`-th row-major multi-index, for every shape with extents
at least 1, strides of the same length and source in which all mapped offsets are
in bounds with `a.size < 2^32`; on `[1,2,3,4,5,6]` with shape `[2,3]`, strides
`[3,1]` give `[1,2,3,4,5,6]` and strides `[1,2]` give `[1,3,5,2,4,6]`. -/
theorem Compact_correct :
    (∀ (α : Type) (fuel : Nat) (a out : AlignedArray α) (shape strides : List Nat)
        (offset : Nat),
        (∀ s ∈ shape, 1 ≤ s ∧ s < U32) → shape.length < U64 →
        strides.length = shape.length →
        (∀ idx, IsIndex shape idx → linearOffset offset strides idx < a.size) →
        a.size < U32 → out.size = shape.prod → out.size < U64 → out.size ≤ fuel →
        ∃ res, Compact fuel a out shape strides offset = .ok res ∧
          res.size = out.size ∧
          ∀ k < out.size,
            res.ptr[k]? = a.ptr[linearOffset offset strides (unravel shape k)]?) ∧
    (∀ o1 o2 o3 o4 o5 o6 : Int,
      Compact 6 ⟨[1, 2, 3, 4, 5, 6], []⟩ ⟨[o1, o2, o3, o4, o5, o6], []⟩ [2, 3] [3, 1] 0
        = .ok ⟨[1, 2, 3, 4, 5, 6], [0, 1, 2, 3, 4, 5]⟩) ∧
    (∀ o1 o2 o3 o4 o5 o6 : Int,
      Compact 6 ⟨[1, 2, 3, 4, 5, 6], []⟩ ⟨[o1, o2, o3, o4, o5, o6], []⟩ [2, 3] [1, 2] 0
        = .ok ⟨[1, 3, 5, 2, 4, 6], [0, 1, 2, 3, 4, 5]⟩) := by
  refine ⟨?_, fun _ _ _ _ _ _ => rfl, fun _ _ _ _ _ _ => rfl⟩
  intro α fuel a out shape strides offset hsh hlen hstr hin ha hout h64 hfuel
  have hpos : ∀ s ∈ shape, 1 ≤ s := fun s hs => (hsh s hs).1
  have hoff : ∀ k, machineOffset offset (unravel shape k) strides
      = linearOffset offset strides (unravel shape k) := fun k =>
    machineOffset_of_small _ _ _
      (Nat.lt_trans (hin _ (isIndex_unravel shape k hpos)) ha)
  obtain ⟨res, h, hl, _, hv⟩ := Compact_run fuel a out shape strides offset hsh hlen hstr
    (by rw [hout]; exact prod_pos_of_extents hsh) (Nat.le_of_eq hout) h64 hfuel
    (fun k _ => by rw [hoff]; exact hin _ (isIndex_unravel shape k hpos))
  refine ⟨res, h, hl, ?_⟩
  intro k hk
  rw [hv k hk, hoff]

theorem Compact_correct_witness :
    ∃ res, Compact 6 ⟨[1, 2, 3, 4, 5, 6], []⟩ ⟨[0, 0, 0, 0, 0, 0], []⟩ [2, 3] [1, 2] 0
        = .ok res ∧
      res.size = AlignedArray.size (⟨[0, 0, 0, 0, 0, 0], []⟩ : AlignedArray Int) ∧
      ∀ k < AlignedArray.size (⟨[0, 0, 0, 0, 0, 0], []⟩ : AlignedArray Int),
        res.ptr[k]? = [(1 : Int), 2, 3, 4, 5, 6][linearOffset 0 [1, 2] (unravel [2, 3] k)]? :=
  Compact_correct.1 Int 6 ⟨[1, 2, 3, 4, 5, 6], []⟩ ⟨[0, 0, 0, 0, 0, 0], []⟩ [2, 3] [1, 2] 0
    (by decide) (by decide) rfl
    (by
      intro idx h
      obtain ⟨i, j, rfl, hi, hj⟩ := isIndex_pair h
      simp only [linearOffset, AlignedArray.size, List.zipWith_cons_cons, List.zipWith_nil_right,
        List.sum_cons, List.sum_nil, List.length_cons, List.length_nil]
      omega)
    (by decide) rfl (by decide) (Nat.le_refl _)

/-- C2. `EwiseSetitem` returns; afterwards a position of `out` that is the linear
offset of some rank `k < a.size` holds `a[k]` for the largest such `k`, any other
position keeps its previous value, and `out[off(idx_k)] = a[k]` for all `k` when the
offset mapping is injective. The source `a` is a read-only argument of the kernel. -/
theorem EwiseSetitem_correct (α : Type) (fuel : Nat) (a out : AlignedArray α)
    (shape strides : List Nat) (offset : Nat)
    (hsh : ∀ s ∈ shape, 1 ≤ s ∧ s < U32) (hlen : shape.length < U64)
    (hstr : strides.length = shape.length)
    (ha : a.size = shape.prod) (ha64 : a.size < U64)
    (hin : ∀ idx, IsIndex shape idx → linearOffset offset strides idx < out.size)
    (hout : out.size < U32) (hfuel : a.size ≤ fuel) :
    ∃ res, EwiseSetitem fuel a out shape strides offset = .ok res ∧
      res.size = out.size ∧
      (∀ L k, k < a.size → linearOffset offset strides (unravel shape k) = L →
        (∀ j, k < j → j < a.size → linearOffset offset strides (unravel shape j) ≠ L) →
        res.ptr[L]? = a.ptr[k]?) ∧
      (∀ L, (∀ k < a.size, linearOffset offset strides (unravel shape k) ≠ L) →
        res.ptr[L]? = out.ptr[L]?) ∧
      ((∀ j k, j < a.size → k < a.size →
          linearOffset offset strides (unravel shape j)
            = linearOffset offset strides (unravel shape k) → j = k) →
        ∀ k < a.size,
          res.ptr[linearOffset offset strides (unravel shape k)]? = a.ptr[k]?) := by
  have hpos : ∀ s ∈ shape, 1 ≤ s := fun s hs => (hsh s hs).1
  have hoff : ∀ k, machineOffset offset (unravel shape k) strides
      = linearOffset offset strides (unravel shape k) := fun k =>
    machineOffset_of_small _ _ _
      (Nat.lt_trans (hin _ (isIndex_unravel shape k hpos)) hout)
  obtain ⟨res, h, hl, _, hv, hk⟩ := EwiseSetitem_run fuel a out shape strides offset hsh hlen
    (Nat.le_of_eq hstr.symm) (by rw [ha]; exact prod_pos_of_extents hsh) (Nat.le_of_eq ha)
    ha64 hfuel (fun k _ => by rw [hoff]; exact hin _ (isIndex_unravel shape k hpos))
  simp only [hoff] at hv hk
  refine ⟨res, h, hl, ?_, hk, ?_⟩
  · intro L k hk1 hL hlater
    subst hL
    exact hv k hk1 hlater
  · intro hinj k hk1
    refine hv k hk1 (fun j h1 h2 heq => ?_)
    have := hinj j k h2 hk1 heq
    omega

theorem EwiseSetitem_correct_witness :
    ∃ res, EwiseSetitem 6 ⟨[1, 2, 3, 4, 5, 6], []⟩ ⟨[0, 0, 0, 0, 0, 0, 0], []⟩ [2, 3] [0, 2] 1
        = .ok res ∧
      res.size = AlignedArray.size (⟨[0, 0, 0, 0, 0, 0, 0], []⟩ : AlignedArray Int) ∧
      (∀ L k, k < AlignedArray.size (⟨[1, 2, 3, 4, 5, 6], []⟩ : AlignedArray Int) →
        linearOffset 1 [0, 2] (unravel [2, 3] k) = L →
        (∀ j, k < j → j < AlignedArray.size (⟨[1, 2, 3, 4, 5, 6], []⟩ : AlignedArray Int) →
          linearOffset 1 [0, 2] (unravel [2, 3] j) ≠ L) →
        res.ptr[L]? = [(1 : Int), 2, 3, 4, 5, 6][k]?) ∧
      (∀ L, (∀ k < AlignedArray.size (⟨[1, 2, 3, 4, 5, 6], []⟩ : AlignedArray Int),
          linearOffset 1 [0, 2] (unravel [2, 3] k) ≠ L) →
        res.ptr[L]? = [(0 : Int), 0, 0, 0, 0, 0, 0][L]?) ∧
      ((∀ j k, j < AlignedArray.size (⟨[1, 2, 3, 4, 5, 6], []⟩ : AlignedArray Int) →
          k < AlignedArray.size (⟨[1, 2, 3, 4, 5, 6], []⟩ : AlignedArray Int) →
          linearOffset 1 [0, 2] (unravel [2, 3] j) = linearOffset 1 [0, 2] (unravel [2, 3] k) →
          j = k) →
        ∀ k < AlignedArray.size (⟨[1, 2, 3, 4, 5, 6], []⟩ : AlignedArray Int),
          res.ptr[linearOffset 1 [0, 2] (unravel [2, 3] k)]? = [(1 : Int), 2, 3, 4, 5, 6][k]?) :=
  EwiseSetitem_correct Int 6 ⟨[1, 2, 3, 4, 5, 6], []⟩ ⟨[0, 0, 0, 0, 0, 0, 0], []⟩ [2, 3] [0, 2] 1
    (by decide) (by decide) rfl rfl (by decide)
    (by
      intro idx h
      obtain ⟨i, j, rfl, hi, hj⟩ := isIndex_pair h
      simp only [linearOffset, AlignedArray.size, List.zipWith_cons_cons, List.zipWith_nil_right,
        List.sum_cons, List.sum_nil, List.length_cons, List.length_nil]
      omega)
    (by decide) (Nat.le_refl _)

theorem isIndex_single {s1 : Nat} {idx : List Nat} (h : IsIndex [s1] idx) :
    ∃ i, idx = [i] ∧ i < s1 := by
  cases h with
  | cons hi h =>
    cases h
    exact ⟨_, rfl, hi⟩

/-- The kernel `ScalarSetitem` on descriptors whose products `idx[d] * strides[d]` all fit in
32 bits: every mapped position holds `val`, every other position is unchanged. -/
theorem ScalarSetitem_frame (α : Type) (fuel size : Nat) (val : α) (out : AlignedArray α)
    (shape strides : List Nat) (offset : Nat)
    (hsh : ∀ s ∈ shape, 1 ≤ s ∧ s < U32) (hlen : shape.length < U64)
    (hstr : strides.length = shape.length)
    (hsize : size = shape.prod) (h64 : size < U64)
    (hin : ∀ idx, IsIndex shape idx → linearOffset offset strides idx < out.size)
    (hprod : ∀ idx, IsIndex shape idx →
      ∀ q ∈ List.zipWith (fun i s => i * s) idx strides, q < U32)
    (hout : out.size < U64) (hfuel : size ≤ fuel) :
    ∃ res, ScalarSetitem fuel size val out shape strides offset = .ok res ∧
      res.size = out.size ∧
      (∀ idx, IsIndex shape idx → res.ptr[linearOffset offset strides idx]? = some val) ∧
      (∀ L, (∀ idx, IsIndex shape idx → linearOffset offset strides idx ≠ L) →
        res.ptr[L]? = out.ptr[L]?) := by
  have hpos : ∀ s ∈ shape, 1 ≤ s := fun s hs => (hsh s hs).1
  have hoff : ∀ k, machineOffset offset (unravel shape k) strides
      = linearOffset offset strides (unravel shape k) := fun k =>
    machineOffset_eq_linearOffset _ _ _ (hprod _ (isIndex_unravel shape k hpos))
      (Nat.lt_trans (hin _ (isIndex_unravel shape k hpos)) hout)
  obtain ⟨res, h, hl, _, hv, hk⟩ := ScalarSetitem_run fuel size val out shape strides offset
    hsh hlen (Nat.le_of_eq hstr.symm) (by rw [hsize]; exact prod_pos_of_extents hsh)
    (Nat.le_of_eq hsize) h64 hfuel
    (fun k _ => by rw [hoff]; exact hin _ (isIndex_unravel shape k hpos))
  simp only [hoff] at hv hk
  refine ⟨res, h, hl, ?_, ?_⟩
  · intro idx hidx
    obtain ⟨hlt, heq⟩ := ravel_lt_and_unravel shape idx hidx
    have := hv (ravel shape idx) (by rw [hsize]; exact hlt)
    rwa [heq] at this
  · intro L hL
    exact hk L (fun k _ => hL _ (isIndex_unravel shape k hpos))

/-- The stated example of `ScalarSetitem`: `val = 9`, shape `[2,2]`, strides `[2,1]`,
offset 0, `size = 4` over `[0,0,0,0]` yields `[9,9,9,9]`. -/
theorem ScalarSetitem_example :
    ScalarSetitem 4 4 (9 : Int) ⟨[0, 0, 0, 0], []⟩ [2, 2] [2, 1] 0
      = .ok ⟨[9, 9, 9, 9], [0, 1, 2, 3]⟩ := rfl

theorem machineOffset_single (offset k s : Nat) :
    machineOffset offset (unravel [65537] k) [s]
      = (offset + (k % 65537) * s % 4294967296) % 18446744073709551616 := by
  simp [machineOffset, unravel, U32, U64]

theorem linearOffset_single (offset i s : Nat) : linearOffset offset [s] [i] = offset + i * s := by
  simp [linearOffset]

/-- C3, at the first column of a `65537 x 65536` row-major buffer (shape `[65537]`,
strides `[65536]`, offset 0): every mapped offset is in bounds, yet after
`ScalarSetitem` with `val = 9` the position mapped by the index `[65536]`, which
is `2^32`, still holds its old value 0, because the product `65536 * 65536` is
reduced modulo `2^32`. -/
theorem ScalarSetitem_wraps_at_column :
    (∀ idx, IsIndex [65537] idx → linearOffset 0 [65536] idx < 65537 * 65536) ∧
    IsIndex [65537] [65536] ∧
    ∃ res, ScalarSetitem 65537 65537 (9 : Int) ⟨List.replicate (65537 * 65536) 0, []⟩
        [65537] [65536] 0 = .ok res ∧
      res.ptr[linearOffset 0 [65536] [65536]]? = some 0 := by
  refine ⟨?_, List.Forall₂.cons (by decide) List.Forall₂.nil, ?_⟩
  · intro idx h
    obtain ⟨i, rfl, hi⟩ := isIndex_single h
    rw [linearOffset_single]
    omega
  · have hsize : AlignedArray.size (⟨List.replicate (65537 * 65536) 0, []⟩ : AlignedArray Int)
        = 65537 * 65536 := List.length_replicate _ _
    obtain ⟨res, h, _, _, _, hk⟩ := ScalarSetitem_run 65537 65537 (9 : Int)
      ⟨List.replicate (65537 * 65536) 0, []⟩ [65537] [65536] 0
      (by decide) (by decide) (Nat.le_refl _) (by decide) (by decide) (by decide)
      (Nat.le_refl _)
      (by
        intro k _
        rw [hsize, machineOffset_single]
        omega)
    refine ⟨res, h, ?_⟩
    rw [linearOffset_single, hk (0 + 65536 * 65536)
      (by
        intro k _
        rw [machineOffset_single]
        omega)]
    show (List.replicate (65537 * 65536) (0 : Int))[0 + 65536 * 65536]? = some 0
    rw [List.getElem?_replicate, if_pos (by omega)]

/-- The kernel `Compact` followed by `EwiseSetitem` through the same descriptor, in terms of the
machine offsets: every visited position of the result holds what `a` holds there,
every other position keeps the value of the second buffer. -/
theorem roundtrip_run {α : Type} (fuel : Nat) (a c a2 : AlignedArray α)
    (shape strides : List Nat) (offset : Nat)
    (hsh : ∀ s ∈ shape, 1 ≤ s ∧ s < U32) (hlen : shape.length < U64)
    (hstr : strides.length = shape.length)
    (hc : c.size = shape.prod) (hc64 : c.size < U64) (hfuel : c.size ≤ fuel)
    (hin : ∀ k < c.size, machineOffset offset (unravel shape k) strides < a.size)
    (ha2 : a2.size = a.size) :
    ∃ c1 res, Compact fuel a c shape strides offset = .ok c1 ∧
      EwiseSetitem fuel c1 a2 shape strides offset = .ok res ∧
      res.ptr.length = a2.ptr.length ∧
      (∀ k < c.size, res.ptr[machineOffset offset (unravel shape k) strides]?
        = a.ptr[machineOffset offset (unravel shape k) strides]?) ∧
      (∀ L, (∀ k < c.size, machineOffset offset (unravel shape k) strides ≠ L) →
        res.ptr[L]? = a2.ptr[L]?) := by
  have h1 : 1 ≤ c.size := by rw [hc]; exact prod_pos_of_extents hsh
  obtain ⟨c1, hcomp, hl1, _, hv1⟩ := Compact_run fuel a c shape strides offset hsh hlen hstr
    h1 (Nat.le_of_eq hc) hc64 hfuel hin
  have hsz : c1.size = c.size := hl1
  obtain ⟨res, hset, hl2, _, hv2, hk2⟩ := EwiseSetitem_run fuel c1 a2 shape strides offset
    hsh hlen (Nat.le_of_eq hstr.symm) (by omega) (by omega) (by omega) (by omega)
    (fun k hk => by rw [ha2]; exact hin k (by omega))
  rw [hsz] at hv2 hk2
  refine ⟨c1, res, hcomp, hset, hl2, ?_, hk2⟩
  intro k hk
  obtain ⟨j, hj1, hj2, hj3⟩ : ∃ j, j < c.size ∧
      machineOffset offset (unravel shape j) strides
        = machineOffset offset (unravel shape k) strides ∧
      ∀ i, j < i → i < c.size → machineOffset offset (unravel shape i) strides
        ≠ machineOffset offset (unravel shape k) strides :=
    exists_last_same (fun k => machineOffset offset (unravel shape k) strides) c.size k hk
  have := hv2 j hj1 (fun i h1 h2 => by rw [hj2]; exact hj3 i h1 h2)
  rw [hj2, hv1 j hj1, hj2] at this
  exact this

/-- Round trip `Compact` then `EwiseSetitem` on descriptors whose products
`idx[d] * strides[d]` all fit in 32 bits: every mapped position of the result holds
what `a` holds there, and a copy of `a` is left unchanged as a whole. -/
theorem roundtrip_of_small (α : Type) (fuel : Nat) (a c a2 : AlignedArray α)
    (shape strides : List Nat) (offset : Nat)
    (hsh : ∀ s ∈ shape, 1 ≤ s ∧ s < U32) (hlen : shape.length < U64)
    (hstr : strides.length = shape.length)
    (hin : ∀ idx, IsIndex shape idx → linearOffset offset strides idx < a.size)
    (hprod : ∀ idx, IsIndex shape idx →
      ∀ q ∈ List.zipWith (fun i s => i * s) idx strides, q < U32)
    (ha : a.size < U64)
    (hc : c.size = shape.prod) (hc64 : c.size < U64) (hfuel : c.size ≤ fuel)
    (ha2 : a2.size = a.size) :
    ∃ c1 res, Compact fuel a c shape strides offset = .ok c1 ∧
      EwiseSetitem fuel c1 a2 shape strides offset = .ok res ∧
      res.size = a2.size ∧
      (∀ idx, IsIndex shape idx →
        res.ptr[linearOffset offset strides idx]? = a.ptr[linearOffset offset strides idx]?) ∧
      (a2.ptr = a.ptr → res.ptr = a.ptr) := by
  have hpos : ∀ s ∈ shape, 1 ≤ s := fun s hs => (hsh s hs).1
  have hoff : ∀ k, machineOffset offset (unravel shape k) strides
      = linearOffset offset strides (unravel shape k) := fun k =>
    machineOffset_eq_linearOffset _ _ _ (hprod _ (isIndex_unravel shape k hpos))
      (Nat.lt_trans (hin _ (isIndex_unravel shape k hpos)) ha)
  obtain ⟨c1, res, hcomp, hset, hl, hv, hk⟩ := roundtrip_run fuel a c a2 shape strides offset
    hsh hlen hstr hc hc64 hfuel
    (fun k _ => by rw [hoff]; exact hin _ (isIndex_unravel shape k hpos)) ha2
  refine ⟨c1, res, hcomp, hset, hl, ?_, ?_⟩
  · intro idx hidx
    obtain ⟨hlt, heq⟩ := ravel_lt_and_unravel shape idx hidx
    have := hv (ravel shape idx) (by rw [hc]; exact hlt)
    rwa [hoff, heq] at this
  · intro hcopy
    apply List.ext_getElem?
    intro L
    by_cases hL : ∃ k, k < c.size ∧ machineOffset offset (unravel shape k) strides = L
    · obtain ⟨k, hk1, rfl⟩ := hL
      exact hv k hk1
    · rw [hk L (fun k hk1 heq => hL ⟨k, hk1, heq⟩), hcopy]

/-- C4, on the first column of a `65537 x 65536` row-major buffer `a` that holds 1 at
position `2^32` and 0 elsewhere (shape `[65537]`, strides `[65536]`, offset 0, a valid
view into `a`): after `Compact` and then `EwiseSetitem` into an all-zero buffer of
the same size, the position mapped by the index `[65536]` holds 0 while `a` holds 1
there, because the product `65536 * 65536` is reduced modulo `2^32`. -/
theorem roundtrip_wraps_at_column :
    (∀ idx, IsIndex [65537] idx → linearOffset 0 [65536] idx < 65537 * 65536) ∧
    IsIndex [65537] [65536] ∧
    ∃ c1 res,
      Compact 65537 ⟨(List.replicate (65537 * 65536) (0 : Int)).set 4294967296 1, []⟩
        ⟨List.replicate 65537 0, []⟩ [65537] [65536] 0 = .ok c1 ∧
      EwiseSetitem 65537 c1 ⟨List.replicate (65537 * 65536) 0, []⟩ [65537] [65536] 0
        = .ok res ∧
      res.ptr[linearOffset 0 [65536] [65536]]? = some 0 ∧
      ((List.replicate (65537 * 65536) (0 : Int)).set 4294967296 1)[
        linearOffset 0 [65536] [65536]]? = some 1 := by
  refine ⟨?_, List.Forall₂.cons (by decide) List.Forall₂.nil, ?_⟩
  · intro idx h
    obtain ⟨i, rfl, hi⟩ := isIndex_single h
    rw [linearOffset_single]
    omega
  · have hc : AlignedArray.size (⟨List.replicate 65537 0, []⟩ : AlignedArray Int) = 65537 :=
      List.length_replicate _ _
    have ha : AlignedArray.size
        (⟨(List.replicate (65537 * 65536) (0 : Int)).set 4294967296 1, []⟩ : AlignedArray Int)
        = 65537 * 65536 := by
      show ((List.replicate (65537 * 65536) (0 : Int)).set 4294967296 1).length = _
      rw [List.length_set, List.length_replicate]
    have ha2 : AlignedArray.size (⟨List.replicate (65537 * 65536) 0, []⟩ : AlignedArray Int)
        = 65537 * 65536 := List.length_replicate _ _
    obtain ⟨c1, res, hcomp, hset, _, _, hk⟩ := roundtrip_run 65537
      (⟨(List.replicate (65537 * 65536) (0 : Int)).set 4294967296 1, []⟩ : AlignedArray Int)
      ⟨List.replicate 65537 0, []⟩ ⟨List.replicate (65537 * 65536) 0, []⟩ [65537] [65536] 0
      (by decide) (by decide) rfl (by rw [hc]; rfl) (by rw [hc]; decide)
      (by rw [hc]) (by
        intro k _
        rw [ha, machineOffset_single]
        omega)
      (by rw [ha, ha2])
    refine ⟨c1, res, hcomp, hset, ?_, ?_⟩
    · rw [linearOffset_single, hk (0 + 65536 * 65536)
        (by
          intro k _
          rw [machineOffset_single]
          omega)]
      show (List.replicate (65537 * 65536) (0 : Int))[0 + 65536 * 65536]? = some 0
      rw [List.getElem?_replicate, if_pos (by omega)]
    · rw [linearOffset_single]
      show ((List.replicate (65537 * 65536) (0 : Int)).set 4294967296 1)[4294967296]? = some 1
      rw [List.getElem?_set_self (by rw [List.length_replicate]; omega)]

/-! ## Counting loops -/

/-- Invariant rule for a counting loop. -/
theorem forLoop_inv {σ : Type} (body : Nat → σ → Except Fault σ) (Inv : Nat → σ → Prop)
    (i0 : Nat) :
    ∀ (n : Nat) (s0 : σ), Inv 0 s0 →
      (∀ t < n, ∀ s, Inv t s → ∃ s1, body (i0 + t) s = .ok s1 ∧ Inv (t + 1) s1) →
      ∃ s1, forLoop body n i0 s0 = .ok s1 ∧ Inv n s1 := by
  intro n
  induction n with
  | zero =>
    intro s0 h0 _
    exact ⟨s0, rfl, h0⟩
  | succ n ih =>
    intro s0 h0 hstep
    obtain ⟨s1, h1, hi1⟩ := ih s0 h0 (fun t ht s hs => hstep t (by omega) s hs)
    obtain ⟨s2, h2, hi2⟩ := hstep n (by omega) s1 hi1
    refine ⟨s2, ?_, hi2⟩
    rw [forLoop_succ_last, h1]
    exact h2

theorem forLoop_congr {σ : Type} (body1 body2 : Nat → σ → Except Fault σ) :
    ∀ (n i1 i2 : Nat) (s : σ), (∀ t < n, ∀ s, body1 (i1 + t) s = body2 (i2 + t) s) →
      forLoop body1 n i1 s = forLoop body2 n i2 s := by
  intro n
  induction n with
  | zero =>
    intro _ _ _ _
    rfl
  | succ n ih =>
    intro i1 i2 s h
    rw [forLoop, forLoop, show body1 i1 s = body2 i2 s from h 0 (by omega) s,
      show forLoop body1 n (i1 + 1) = forLoop body2 n (i2 + 1) from
        funext (fun s1 => ih (i1 + 1) (i2 + 1) s1 (fun t ht s2 => by
          have := h (t + 1) (by omega) s2
          rwa [show i1 + (t + 1) = i1 + 1 + t by omega,
            show i2 + (t + 1) = i2 + 1 + t by omega] at this))]

theorem forLoop_add {σ : Type} (body : Nat → σ → Except Fault σ) :
    ∀ (n1 n2 i : Nat) (s : σ),
      forLoop body (n1 + n2) i s = forLoop body n1 i s >>= forLoop body n2 (i + n1) := by
  intro n1
  induction n1 with
  | zero =>
    intro n2 i s
    simp [forLoop]
  | succ n1 ih =>
    intro n2 i s
    rw [show n1 + 1 + n2 = (n1 + n2) + 1 by omega, forLoop, forLoop]
    cases body i s with
    | error e => rfl
    | ok s1 =>
      simp only [ok_bind]
      rw [ih n2 (i + 1) s1, show i + 1 + n1 = i + (n1 + 1) by omega]

/-- Two nested counting loops run their body at `(q / w, q % w)` for `q < h * w`. -/
theorem forLoop_nested {σ : Type} (B : Nat → Nat → σ → Except Fault σ) (w : Nat) :
    ∀ (h : Nat) (s : σ),
      forLoop (fun i s => forLoop (B i) w 0 s) h 0 s
        = forLoop (fun q s => B (q / w) (q % w) s) (h * w) 0 s := by
  intro h
  induction h with
  | zero =>
    intro s
    simp [forLoop]
  | succ h ih =>
    intro s
    rw [forLoop_succ_last, ih, Nat.succ_mul, forLoop_add, Nat.zero_add, Nat.zero_add]
    congr 1
    funext s1
    apply forLoop_congr
    intro t ht s2
    have hw : 0 < w := by omega
    rw [Nat.zero_add, Nat.mul_comm h w, Nat.mul_add_div hw, Nat.div_eq_of_lt ht,
      Nat.mul_add_mod, Nat.mod_eq_of_lt ht, Nat.add_zero]

/-- A counting loop whose iteration `q` stores to position `base + q` a value computed
from `q` and from the value found there. -/
theorem forLoop_update {α : Type} (body : Nat → AlignedArray α → Except Fault (AlignedArray α))
    (base N : Nat) (G : Nat → α → α) (out : AlignedArray α)
    (hb : base + N ≤ out.ptr.length)
    (hbody : ∀ q < N, ∀ o x, o.ptr[base + q]? = some x →
      body q o = store o (base + q) (G q x)) :
    ∃ res, forLoop body N 0 out = .ok res ∧
      res.ptr.length = out.ptr.length ∧
      res.stores = out.stores ++ (List.range N).map (fun q => base + q) ∧
      (∀ q < N, ∀ x, out.ptr[base + q]? = some x → res.ptr[base + q]? = some (G q x)) ∧
      (∀ L, L < base ∨ base + N ≤ L → res.ptr[L]? = out.ptr[L]?) := by
  have h := forLoop_inv body (fun t o =>
      o.ptr.length = out.ptr.length ∧
      o.stores = out.stores ++ (List.range t).map (fun q => base + q) ∧
      (∀ q < t, ∀ x, out.ptr[base + q]? = some x → o.ptr[base + q]? = some (G q x)) ∧
      (∀ L, L < base ∨ base + t ≤ L → o.ptr[L]? = out.ptr[L]?)) 0 N out
    ⟨rfl, by simp, fun q hq => absurd hq (Nat.not_lt_zero q), fun _ _ => rfl⟩
    (by
      intro t ht o ⟨hl, hs, hv, hk⟩
      have hlt : base + t < o.ptr.length := by omega
      have hold : o.ptr[base + t]? = some (o.ptr.get ⟨base + t, hlt⟩) :=
        List.getElem?_eq_getElem hlt
      refine ⟨⟨o.ptr.set (base + t) (G t (o.ptr.get ⟨base + t, hlt⟩)),
        o.stores ++ [base + t]⟩, ?_, by simp [hl], by simp [hs, List.range_succ], ?_, ?_⟩
      · rw [Nat.zero_add, hbody t ht o _ hold, store_of_lt _ hlt]
      · intro q hq x hx
        by_cases hqt : q = t
        · subst hqt
          have h1 : o.ptr[base + q]? = some x := by
            rw [hk (base + q) (Or.inr (Nat.le_refl _))]
            exact hx
          rw [hold] at h1
          cases h1
          simp [List.getElem?_set_self hlt]
        · have hne : base + t ≠ base + q := by omega
          simp only [List.getElem?_set_ne hne]
          exact hv q (by omega) x hx
      · intro L hL
        have hne : base + t ≠ L := by omega
        simp only [List.getElem?_set_ne hne]
        exact hk L (by omega))
  exact h

/-! ## Naive matrix multiplication -/

theorem row_index_lt {i m j n : Nat} (hi : i < m) (hj : j < n) : i * n + j < m * n := by
  have h : (i + 1) * n ≤ m * n := Nat.mul_le_mul_right n hi
  rw [Nat.add_mul, Nat.one_mul] at h
  omega

theorem mul_lt_U64 {m n : Nat} (hm : m < U32) (hn : n < U32) : m * n < U64 := by
  have h : m * n < U32 * U32 := Nat.mul_lt_mul'' hm hn
  have : U32 * U32 = U64 := by decide
  omega

theorem load_eq_getD {α : Type} {a : AlignedArray α} {i : Nat} (d : α)
    (h : i < a.ptr.length) : load a i = .ok (a.ptr.getD i d) := by
  rw [load_of_lt h, List.getD_eq_getElem _ _ h]
  rfl

theorem div_mod_of_lt_mul {q m p : Nat} (hq : q < m * p) :
    q / p < m ∧ q % p < p ∧ q / p * p + q % p = q := by
  have hp : 0 < p := by
    rcases Nat.eq_zero_or_pos p with h | h
    · subst h
      simp at hq
    · exact h
  refine ⟨(Nat.div_lt_iff_lt_mul hp).mpr hq, Nat.mod_lt _ hp, Nat.div_add_mod' q p⟩

/-- The loop over `j` of `Matmul` computes the dot product of row `i` and column `k`. -/
theorem matmul_dot {α : Type} [Semiring α] (a b : AlignedArray α) (m n p i k : Nat)
    (hm : m < U32) (hn : n < U32) (hp : p < U32)
    (ha : a.size = m * n) (hb : b.size = n * p) (hi : i < m) (hk : k < p) :
    forLoop (matmulAccum a b n p i k) n 0 0
      = .ok (Finset.sum (Finset.range n)
          (fun j => a.ptr.getD (i * n + j) 0 * b.ptr.getD (j * p + k) 0)) := by
  obtain ⟨tmp, h, hinv⟩ := forLoop_inv (matmulAccum a b n p i k)
    (fun t tmp => tmp = Finset.sum (Finset.range t)
      (fun j => a.ptr.getD (i * n + j) 0 * b.ptr.getD (j * p + k) 0)) 0 n 0
    (by simp)
    (by
      intro t ht tmp htmp
      have h1 : i * n + t < m * n := row_index_lt hi ht
      have h2 : t * p + k < n * p := row_index_lt ht hk
      have h3 := mul_lt_U64 hm hn
      have h4 := mul_lt_U64 hn hp
      refine ⟨tmp + a.ptr.getD (i * n + t) 0 * b.ptr.getD (t * p + k) 0, ?_, ?_⟩
      · rw [Nat.zero_add, matmulAccum, Nat.mod_eq_of_lt (by omega), Nat.mod_eq_of_lt (by omega),
          load_eq_getD 0 (by rw [← AlignedArray.size, ha]; exact h1),
          load_eq_getD 0 (by rw [← AlignedArray.size, hb]; exact h2)]
        rfl
      · show tmp + _ = Finset.sum (Finset.range (t + 1)) _
        rw [Finset.sum_range_succ, htmp])
  rw [h, hinv]

/-- What `Matmul` returns: every cell holds its dot product, and the cells are stored
one after the other, each once. -/
theorem Matmul_run {α : Type} [Semiring α] (a b out : AlignedArray α) (m n p : Nat)
    (hm : m < U32) (hn : n < U32) (hp : p < U32)
    (ha : a.size = m * n) (hb : b.size = n * p) (ho : out.size = m * p) :
    ∃ res, Matmul a b out m n p = .ok res ∧
      res.ptr.length = out.ptr.length ∧
      res.stores = out.stores ++ List.range (m * p) ∧
      ∀ i < m, ∀ k < p, res.ptr[i * p + k]? = some (Finset.sum (Finset.range n)
        (fun j => a.ptr.getD (i * n + j) 0 * b.ptr.getD (j * p + k) 0)) := by
  have h64 := mul_lt_U64 hm hp
  obtain ⟨res, h, hl, hs, hv, _⟩ := forLoop_update
    (fun q o => matmulCell a b n p (q / p) (q % p) o) 0 (m * p)
    (fun q _ => Finset.sum (Finset.range n)
      (fun j => a.ptr.getD (q / p * n + j) 0 * b.ptr.getD (j * p + q % p) 0)) out
    (by rw [Nat.zero_add]; exact Nat.le_of_eq ho.symm)
    (by
      intro q hq o x _
      obtain ⟨h1, h2, h3⟩ := div_mod_of_lt_mul hq
      simp only [matmulCell]
      rw [matmul_dot a b m n p _ _ hm hn hp ha hb h1 h2, h3,
        Nat.mod_eq_of_lt (show q < U64 by omega), Nat.zero_add]
      rfl)
  refine ⟨res, ?_, hl, ?_, ?_⟩
  · rw [Matmul, forLoop_nested]
    exact h
  · rw [hs]
    simp
  · intro i hi k hk
    have hq : i * p + k < m * p := row_index_lt hi hk
    have hlt : i * p + k < out.ptr.length := by rw [← AlignedArray.size, ho]; exact hq
    have := hv (i * p + k) hq _ (by rw [Nat.zero_add]; exact List.getElem?_eq_getElem hlt)
    rw [Nat.zero_add, Nat.mul_comm i p, Nat.mul_add_div (by omega), Nat.div_eq_of_lt hk,
      Nat.mul_add_mod, Nat.mod_eq_of_lt hk, Nat.add_zero] at this
    rw [Nat.mul_comm i p]
    exact this

/-- C5. `Matmul` returns with `out[i*p + k] = Σ_{j<n} a[i*n + j] * b[j*p + k]` for all
`i < m`, `k < p`, the sum being the left-to-right accumulation from 0; the result does
not depend on the previous contents of `out`, and the stores performed are exactly
the positions `0, 1, ..., m*p - 1`, each once. -/
theorem Matmul_correct (α : Type) [Semiring α] (a b out : AlignedArray α) (m n p : Nat)
    (hm : m < U32) (hn : n < U32) (hp : p < U32)
    (ha : a.size = m * n) (hb : b.size = n * p) (ho : out.size = m * p) :
    ∃ res, Matmul a b out m n p = .ok res ∧
      res.size = out.size ∧
      (∀ i < m, ∀ k < p, res.ptr[i * p + k]? = some (Finset.sum (Finset.range n)
        (fun j => a.ptr.getD (i * n + j) 0 * b.ptr.getD (j * p + k) 0))) ∧
      res.stores = out.stores ++ List.range (m * p) ∧
      (∀ q < m * p, (List.range (m * p)).count q = 1) ∧
      (∀ out2 : AlignedArray α, out2.size = m * p →
        ∃ res2, Matmul a b out2 m n p = .ok res2 ∧ res2.ptr = res.ptr) := by
  obtain ⟨res, h, hl, hs, hv⟩ := Matmul_run a b out m n p hm hn hp ha hb ho
  refine ⟨res, h, hl, hv, hs, ?_, ?_⟩
  · intro q hq
    exact List.count_eq_one_of_mem (List.nodup_range _) (List.mem_range.mpr hq)
  · intro out2 ho2
    obtain ⟨res2, h2, hl2, _, hv2⟩ := Matmul_run a b out2 m n p hm hn hp ha hb ho2
    refine ⟨res2, h2, ?_⟩
    apply List.ext_getElem?
    intro L
    by_cases hL : L < m * p
    · obtain ⟨h1, h3, h4⟩ := div_mod_of_lt_mul hL
      rw [← h4, hv _ h1 _ h3, hv2 _ h1 _ h3]
    · have e1 : res.ptr.length ≤ L := by
        rw [hl, ← AlignedArray.size, ho]
        omega
      have e2 : res2.ptr.length ≤ L := by
        rw [hl2, ← AlignedArray.size, ho2]
        omega
      rw [List.getElem?_eq_none e1, List.getElem?_eq_none e2]

theorem Matmul_correct_witness :
    ∃ res, Matmul (⟨[1, 2, 3, 4, 5, 6], []⟩ : AlignedArray Int) ⟨[1, 0, 0, 1, 1, 1], []⟩
        ⟨[7, 7, 7, 7], []⟩ 2 3 2 = .ok res ∧
      res.size = AlignedArray.size (⟨[7, 7, 7, 7], []⟩ : AlignedArray Int) ∧
      (∀ i < 2, ∀ k < 2, res.ptr[i * 2 + k]? = some (Finset.sum (Finset.range 3)
        (fun j => [(1 : Int), 2, 3, 4, 5, 6].getD (i * 3 + j) 0
          * [(1 : Int), 0, 0, 1, 1, 1].getD (j * 2 + k) 0))) ∧
      res.stores = [] ++ List.range (2 * 2) ∧
      (∀ q < 2 * 2, (List.range (2 * 2)).count q = 1) ∧
      (∀ out2 : AlignedArray Int, out2.size = 2 * 2 →
        ∃ res2, Matmul ⟨[1, 2, 3, 4, 5, 6], []⟩ ⟨[1, 0, 0, 1, 1, 1], []⟩ out2 2 3 2
          = .ok res2 ∧ res2.ptr = res.ptr) :=
  Matmul_correct Int ⟨[1, 2, 3, 4, 5, 6], []⟩ ⟨[1, 0, 0, 1, 1, 1], []⟩ ⟨[7, 7, 7, 7], []⟩ 2 3 2
    (by decide) (by decide) (by decide) rfl rfl rfl

/-! ## The micro-kernel `AlignedDot` -/

theorem load_of_getElem? {α : Type} {a : AlignedArray α} {i : Nat} {x : α}
    (h : a.ptr[i]? = some x) : load a i = .ok x := by
  simp [load, h]

theorem tile_index {q : Nat} (hq : q < 64) : q / 8 < 8 ∧ q % 8 < 8 ∧ q / 8 * 8 + q % 8 = q := by
  omega

/-- The loop over `j` of `AlignedDot` computes the dot product of row `i` of the first
block and column `k` of the second. -/
theorem alignedDot_dot {α : Type} [Semiring α] (a : AlignedArray α) (abase : Nat)
    (b : AlignedArray α) (bbase : Nat) (i k : Nat)
    (ha : abase + TILE * TILE ≤ a.size) (hb : bbase + TILE * TILE ≤ b.size)
    (hi : i < TILE) (hk : k < TILE) :
    forLoop (alignedDotAccum a abase b bbase i k) TILE 0 0
      = .ok (Finset.sum (Finset.range TILE)
          (fun j => a.ptr.getD (abase + (i * TILE + j)) 0
            * b.ptr.getD (bbase + (j * TILE + k)) 0)) := by
  obtain ⟨tmp, h, hinv⟩ := forLoop_inv (alignedDotAccum a abase b bbase i k)
    (fun t tmp => tmp = Finset.sum (Finset.range t)
      (fun j => a.ptr.getD (abase + (i * TILE + j)) 0
        * b.ptr.getD (bbase + (j * TILE + k)) 0)) 0 TILE 0
    (by simp)
    (by
      intro t ht tmp htmp
      simp only [TILE, AlignedArray.size] at ha hb hi hk ht
      refine ⟨tmp + a.ptr.getD (abase + (i * TILE + t)) 0
        * b.ptr.getD (bbase + (t * TILE + k)) 0, ?_, ?_⟩
      · rw [Nat.zero_add, alignedDotAccum,
          Nat.mod_eq_of_lt (show i * TILE + t < U64 by simp only [TILE, U64]; omega),
          Nat.mod_eq_of_lt (show t * TILE + k < U64 by simp only [TILE, U64]; omega),
          load_eq_getD 0 (show abase + (i * TILE + t) < a.ptr.length by simp only [TILE]; omega),
          load_eq_getD 0 (show bbase + (t * TILE + k) < b.ptr.length by simp only [TILE]; omega)]
        rfl
      · show tmp + _ = Finset.sum (Finset.range (t + 1)) _
        rw [Finset.sum_range_succ, htmp])
  rw [h, hinv]

/-- What `AlignedDot` returns: the product of the two blocks is added to the output
block, and nothing else is stored to. -/
theorem AlignedDot_run {α : Type} [Semiring α] (a : AlignedArray α) (abase : Nat)
    (b : AlignedArray α) (bbase : Nat) (out : AlignedArray α) (obase : Nat)
    (ha : abase + TILE * TILE ≤ a.size) (hb : bbase + TILE * TILE ≤ b.size)
    (ho : obase + TILE * TILE ≤ out.size) :
    ∃ res, AlignedDot a abase b bbase out obase = .ok res ∧
      res.ptr.length = out.ptr.length ∧
      res.stores = out.stores ++ (List.range (TILE * TILE)).map (fun q => obase + q) ∧
      (∀ i < TILE, ∀ k < TILE, res.ptr[obase + (i * TILE + k)]?
        = some (out.ptr.getD (obase + (i * TILE + k)) 0
            + Finset.sum (Finset.range TILE)
              (fun j => a.ptr.getD (abase + (i * TILE + j)) 0
                * b.ptr.getD (bbase + (j * TILE + k)) 0))) ∧
      (∀ L, L < obase ∨ obase + TILE * TILE ≤ L → res.ptr[L]? = out.ptr[L]?) := by
  obtain ⟨res, h, hl, hs, hv, hk⟩ := forLoop_update
    (fun q o => alignedDotCell a abase b bbase obase (q / TILE) (q % TILE) o) obase (TILE * TILE)
    (fun q x => x + Finset.sum (Finset.range TILE)
      (fun j => a.ptr.getD (abase + (q / TILE * TILE + j)) 0
        * b.ptr.getD (bbase + (j * TILE + q % TILE)) 0)) out ho
    (by
      intro q hq o x hx
      obtain ⟨h1, h2, h3⟩ := tile_index (show q < 64 from hq)
      simp only [alignedDotCell]
      rw [alignedDot_dot a abase b bbase (q / TILE) (q % TILE) ha hb h1 h2]
      simp only [TILE] at h3 ⊢
      rw [h3, Nat.mod_eq_of_lt (show q < U64 by simp only [U64]; omega), load_of_getElem? hx]
      rfl)
  refine ⟨res, ?_, hl, hs, ?_, hk⟩
  · rw [AlignedDot, forLoop_nested]
    exact h
  · intro i hi k hk1
    simp only [TILE, AlignedArray.size] at hi hk1 ho
    have hq : i * TILE + k < TILE * TILE := by simp only [TILE]; omega
    have hlt : obase + (i * TILE + k) < out.ptr.length := by simp only [TILE]; omega
    have := hv (i * TILE + k) hq _ (List.getElem?_eq_getElem hlt)
    rw [this, List.getD_eq_getElem _ _ hlt]
    have e1 : (i * TILE + k) / TILE = i := by simp only [TILE]; omega
    have e2 : (i * TILE + k) % TILE = k := by simp only [TILE]; omega
    rw [e1, e2]

/-- C7. `AlignedDot` accumulates and never initialises: for `TILE x TILE` blocks `A`
(at `abase` in `a`), `B` (at `bbase` in `b`) and the prior output block `C` (at `obase`
in `out`), afterwards `C[i*TILE + k]` is its previous value plus
`Σ_{j<TILE} A[i*TILE + j] * B[j*TILE + k]`, for all `i, k < TILE`; no other position of
`out` changes, and `a` and `b` are read-only arguments of the kernel. -/
theorem AlignedDot_accumulates (α : Type) [Semiring α] (a : AlignedArray α) (abase : Nat)
    (b : AlignedArray α) (bbase : Nat) (out : AlignedArray α) (obase : Nat)
    (ha : abase + TILE * TILE ≤ a.size) (hb : bbase + TILE * TILE ≤ b.size)
    (ho : obase + TILE * TILE ≤ out.size) :
    ∃ res, AlignedDot a abase b bbase out obase = .ok res ∧
      res.size = out.size ∧
      (∀ i < TILE, ∀ k < TILE, res.ptr[obase + (i * TILE + k)]?
        = some (out.ptr.getD (obase + (i * TILE + k)) 0
            + Finset.sum (Finset.range TILE)
              (fun j => a.ptr.getD (abase + (i * TILE + j)) 0
                * b.ptr.getD (bbase + (j * TILE + k)) 0))) ∧
      (∀ L, L < obase ∨ obase + TILE * TILE ≤ L → res.ptr[L]? = out.ptr[L]?) := by
  obtain ⟨res, h, hl, _, hv, hk⟩ := AlignedDot_run a abase b bbase out obase ha hb ho
  exact ⟨res, h, hl, hv, hk⟩

theorem AlignedDot_accumulates_witness :
    ∃ res, AlignedDot (⟨List.replicate 64 2, []⟩ : AlignedArray Int) 0
        ⟨List.replicate 64 3, []⟩ 0 ⟨List.replicate 64 5, []⟩ 0 = .ok res ∧
      res.size = AlignedArray.size (⟨List.replicate 64 5, []⟩ : AlignedArray Int) ∧
      (∀ i < TILE, ∀ k < TILE, res.ptr[0 + (i * TILE + k)]?
        = some ((List.replicate 64 (5 : Int)).getD (0 + (i * TILE + k)) 0
            + Finset.sum (Finset.range TILE)
              (fun j => (List.replicate 64 (2 : Int)).getD (0 + (i * TILE + j)) 0
                * (List.replicate 64 (3 : Int)).getD (0 + (j * TILE + k)) 0))) ∧
      (∀ L, L < 0 ∨ 0 + TILE * TILE ≤ L →
        res.ptr[L]? = (List.replicate 64 (5 : Int))[L]?) :=
  AlignedDot_accumulates Int ⟨List.replicate 64 2, []⟩ 0 ⟨List.replicate 64 3, []⟩ 0
    ⟨List.replicate 64 5, []⟩ 0 (by decide) (by decide) (by decide)

/-! ## Tiled matrix multiplication -/

theorem tile_base (I N J : Nat) : I * (8 * N) * 8 + J * 8 * 8 = 64 * (I * N + J) := by
  ring

theorem block_bound {I M J N : Nat} (hI : I < M) (hJ : J < N) :
    64 * (I * N + J) + 64 ≤ 64 * (M * N) := by
  have := row_index_lt hI hJ
  omega

/-- The two zeroing loops of `MatmulTiled` clear the output tile at `base` and store
nowhere else. -/
theorem tileZero_run {α : Type} [Semiring α] (out : AlignedArray α) (p i k base : Nat)
    (hbase : i * p * TILE + k * TILE * TILE = base)
    (ho : base + 64 ≤ out.size) (h64 : out.size < U64) :
    ∃ res, forLoop (fun q1 o => forLoop (tileZero p i k q1) TILE 0 o) TILE 0 out = .ok res ∧
      res.ptr.length = out.ptr.length ∧
      (∀ t < 64, res.ptr[base + t]? = some 0) ∧
      (∀ L, L < base ∨ base + 64 ≤ L → res.ptr[L]? = out.ptr[L]?) := by
  obtain ⟨res, h, hl, _, hv, hk⟩ := forLoop_update
    (fun q o => tileZero p i k (q / TILE) (q % TILE) o) base (TILE * TILE)
    (fun _ _ => (0 : α)) out ho
    (by
      intro q hq o x _
      obtain ⟨_, _, h3⟩ := tile_index (show q < 64 from hq)
      simp only [tileZero, hbase]
      simp only [TILE] at h3 ⊢
      rw [Nat.add_assoc, h3, Nat.mod_eq_of_lt]
      simp only [AlignedArray.size] at ho h64
      have : q < 64 := hq
      omega)
  refine ⟨res, ?_, hl, ?_, hk⟩
  · rw [forLoop_nested]
    exact h
  · intro t ht
    have hlt : base + t < out.ptr.length := by
      simp only [AlignedArray.size] at ho
      omega
    exact hv t ht _ (List.getElem?_eq_getElem hlt)

/-- One pass of the loop over `k` of `MatmulTiled`: the output tile `(I, K)` receives
the sum over `J` of the products of the tiles `(I, J)` of `a` and `(J, K)` of `b`. -/
theorem matmulTile_run {α : Type} [Semiring α] (a b out : AlignedArray α)
    (M N P I K : Nat) (hI : I < M) (hK : K < P)
    (ha : a.size = 64 * (M * N)) (hb : b.size = 64 * (N * P)) (ho : out.size = 64 * (M * P))
    (ha64 : a.size < U64) (hb64 : b.size < U64) (ho64 : out.size < U64) :
    ∃ res, matmulTile a b (8 * N) (8 * P) I K out = .ok res ∧
      res.ptr.length = out.ptr.length ∧
      (∀ r < 8, ∀ c < 8, res.ptr[64 * (I * P + K) + (r * 8 + c)]?
        = some (Finset.sum (Finset.range N) (fun J => Finset.sum (Finset.range 8)
            (fun j => a.ptr.getD (64 * (I * N + J) + (r * 8 + j)) 0
              * b.ptr.getD (64 * (J * P + K) + (j * 8 + c)) 0)))) ∧
      (∀ L, L < 64 * (I * P + K) ∨ 64 * (I * P + K) + 64 ≤ L →
        res.ptr[L]? = out.ptr[L]?) := by
  have hob := block_bound hI hK
  have hobase : I * (8 * P) * TILE + K * TILE * TILE = 64 * (I * P + K) := tile_base I P K
  obtain ⟨o1, hz, hl1, hv1, hk1⟩ := tileZero_run out (8 * P) I K (64 * (I * P + K)) hobase
    (by rw [ho]; exact hob) ho64
  obtain ⟨res, hloop, hl2, hv2, hk2⟩ := forLoop_inv
    (fun j out =>
      AlignedDot a ((I * (8 * N) * TILE + j * TILE * TILE) % U64)
        b ((j * (8 * P) * TILE + K * TILE * TILE) % U64)
        out ((I * (8 * P) * TILE + K * TILE * TILE) % U64))
    (fun t o => o.ptr.length = out.ptr.length ∧
      (∀ r < 8, ∀ c < 8, o.ptr[64 * (I * P + K) + (r * 8 + c)]?
        = some (Finset.sum (Finset.range t) (fun J => Finset.sum (Finset.range 8)
            (fun j => a.ptr.getD (64 * (I * N + J) + (r * 8 + j)) 0
              * b.ptr.getD (64 * (J * P + K) + (j * 8 + c)) 0)))) ∧
      (∀ L, L < 64 * (I * P + K) ∨ 64 * (I * P + K) + 64 ≤ L →
        o.ptr[L]? = out.ptr[L]?)) 0 N o1
    ⟨hl1, fun r hr c hc => by
        rw [Finset.sum_range_zero]
        exact hv1 (r * 8 + c) (by omega), hk1⟩
    (by
      intro t ht o ⟨hl, hv, hk⟩
      have hab := block_bound hI ht
      have hbb := block_bound ht hK
      have e1 : (I * (8 * N) * TILE + (0 + t) * TILE * TILE) % U64 = 64 * (I * N + t) := by
        rw [Nat.zero_add, show I * (8 * N) * TILE + t * TILE * TILE = 64 * (I * N + t) from
          tile_base I N t]
        exact Nat.mod_eq_of_lt (by omega)
      have e2 : ((0 + t) * (8 * P) * TILE + K * TILE * TILE) % U64 = 64 * (t * P + K) := by
        rw [Nat.zero_add, show t * (8 * P) * TILE + K * TILE * TILE = 64 * (t * P + K) from
          tile_base t P K]
        exact Nat.mod_eq_of_lt (by omega)
      have e3 : (I * (8 * P) * TILE + K * TILE * TILE) % U64 = 64 * (I * P + K) := by
        rw [hobase]
        exact Nat.mod_eq_of_lt (by omega)
      obtain ⟨o2, hd, hld, _, hvd, hkd⟩ := AlignedDot_run a (64 * (I * N + t))
        b (64 * (t * P + K)) o (64 * (I * P + K))
        (by rw [ha]; exact hab) (by rw [hb]; exact hbb)
        (by
          show _ ≤ o.ptr.length
          rw [hl, ← AlignedArray.size, ho]
          exact hob)
      refine ⟨o2, ?_, hld.trans hl, ?_, ?_⟩
      · simp only [e1, e2, e3]
        exact hd
      · intro r hr c hc
        have := hvd r hr c hc
        simp only [TILE] at this
        rw [this, List.getD_eq_getElem?_getD, hv r hr c hc,
          Finset.sum_range_succ (fun J => Finset.sum (Finset.range 8)
            (fun j => a.ptr.getD (64 * (I * N + J) + (r * 8 + j)) 0
              * b.ptr.getD (64 * (J * P + K) + (j * 8 + c)) 0)) t]
        rfl
      · intro L hL
        rw [hkd L hL]
        exact hk L hL)
  refine ⟨res, ?_, hl2, hv2, hk2⟩
  rw [matmulTile, hz]
  simp only [ok_bind]
  rw [show 8 * N / TILE = N from Nat.mul_div_cancel_left N (by decide)]
  exact hloop

/-- What `MatmulTiled` returns on `8M x 8N` times `8N x 8P`, tile by tile. -/
theorem MatmulTiled_run {α : Type} [Semiring α] (a b out : AlignedArray α) (M N P : Nat)
    (hm : 8 * M < U32) (hn : 8 * N < U32) (hp : 8 * P < U32)
    (ha : a.size = 64 * (M * N)) (hb : b.size = 64 * (N * P)) (ho : out.size = 64 * (M * P)) :
    ∃ res, MatmulTiled a b out (8 * M) (8 * N) (8 * P) = .ok res ∧
      res.ptr.length = out.ptr.length ∧
      ∀ I < M, ∀ K < P, ∀ r < 8, ∀ c < 8, res.ptr[64 * (I * P + K) + (r * 8 + c)]?
        = some (Finset.sum (Finset.range N) (fun J => Finset.sum (Finset.range 8)
            (fun j => a.ptr.getD (64 * (I * N + J) + (r * 8 + j)) 0
              * b.ptr.getD (64 * (J * P + K) + (j * 8 + c)) 0))) := by
  have e64 : ∀ x y : Nat, 64 * (x * y) = (8 * x) * (8 * y) := fun x y => by ring
  have ha64 : a.size < U64 := by rw [ha, e64]; exact mul_lt_U64 hm hn
  have hb64 : b.size < U64 := by rw [hb, e64]; exact mul_lt_U64 hn hp
  have ho64 : out.size < U64 := by rw [ho, e64]; exact mul_lt_U64 hm hp
  obtain ⟨res, hloop, hl, hv⟩ := forLoop_inv
    (fun q o => matmulTile a b (8 * N) (8 * P) (q / P) (q % P) o)
    (fun t o => o.ptr.length = out.ptr.length ∧
      ∀ Q < t, ∀ r < 8, ∀ c < 8, o.ptr[64 * Q + (r * 8 + c)]?
        = some (Finset.sum (Finset.range N) (fun J => Finset.sum (Finset.range 8)
            (fun j => a.ptr.getD (64 * (Q / P * N + J) + (r * 8 + j)) 0
              * b.ptr.getD (64 * (J * P + Q % P) + (j * 8 + c)) 0)))) 0 (M * P) out
    ⟨rfl, fun Q hQ => absurd hQ (Nat.not_lt_zero Q)⟩
    (by
      intro t ht o ⟨hl, hv⟩
      obtain ⟨h1, h2, h3⟩ := div_mod_of_lt_mul ht
      obtain ⟨o2, ht2, hl2, hv2, hk2⟩ := matmulTile_run a b o M N P (t / P) (t % P) h1 h2
        ha hb (by rw [AlignedArray.size, hl]; exact ho) ha64 hb64
        (by rw [AlignedArray.size, hl]; exact ho64)
      rw [h3] at hv2 hk2
      refine ⟨o2, by rw [Nat.zero_add]; exact ht2, hl2.trans hl, ?_⟩
      intro Q hQ r hr c hc
      by_cases hQt : Q = t
      · subst hQt
        exact hv2 r hr c hc
      · rw [hk2 _ (Or.inl (by omega))]
        exact hv Q (by omega) r hr c hc)
  refine ⟨res, ?_, hl, ?_⟩
  · rw [MatmulTiled,
      show 8 * M / TILE = M from Nat.mul_div_cancel_left M (by decide),
      show 8 * P / TILE = P from Nat.mul_div_cancel_left P (by decide), forLoop_nested]
    exact hloop
  · intro I hI K hK r hr c hc
    have hQ : I * P + K < M * P := row_index_lt hI hK
    have := hv (I * P + K) hQ r hr c hc
    rw [Nat.mul_comm I P, Nat.mul_add_div (by omega), Nat.div_eq_of_lt hK,
      Nat.mul_add_mod, Nat.mod_eq_of_lt hK, Nat.add_zero] at this
    rw [Nat.mul_comm I P]
    exact this

/-- A sum over `j < 8N` taken tile by tile. -/
theorem sum_by_tiles {α : Type} [Semiring α] (f : Nat → α) (N : Nat) :
    Finset.sum (Finset.range N) (fun J => Finset.sum (Finset.range 8) (fun j => f (J * 8 + j)))
      = Finset.sum (Finset.range (8 * N)) f := by
  induction N with
  | zero => simp
  | succ N ih =>
    rw [Finset.sum_range_succ, ih, show 8 * (N + 1) = 8 * N + 8 by omega,
      Finset.sum_range_add, Nat.mul_comm N 8]

/-- C6. `MatmulTiled` agrees with `Matmul`: for `m, n, p` multiples of `TILE` and
`At`, `Bt` the tiled re-layouts of the row-major `A`, `B`, both kernels return, and
the entry `(r, c)` of tile `(I, K)` of the tiled result equals the entry
`(I*TILE + r, K*TILE + c)` of the result of `Matmul`, whatever the output buffers
contained before. -/
theorem MatmulTiled_agrees (α : Type) [Semiring α] (A B O At Bt Ot : AlignedArray α)
    (m n p : Nat) (hm : m < U32) (hn : n < U32) (hp : p < U32)
    (hmT : m % TILE = 0) (hnT : n % TILE = 0) (hpT : p % TILE = 0)
    (hA : A.size = m * n) (hB : B.size = n * p) (hO : O.size = m * p)
    (hAt : At.size = m * n) (hBt : Bt.size = n * p) (hOt : Ot.size = m * p)
    (hlayA : ∀ I < m / TILE, ∀ J < n / TILE, ∀ r < TILE, ∀ c < TILE,
      At.ptr[((I * (n / TILE) + J) * TILE + r) * TILE + c]?
        = A.ptr[(I * TILE + r) * n + J * TILE + c]?)
    (hlayB : ∀ J < n / TILE, ∀ K < p / TILE, ∀ r < TILE, ∀ c < TILE,
      Bt.ptr[((J * (p / TILE) + K) * TILE + r) * TILE + c]?
        = B.ptr[(J * TILE + r) * p + K * TILE + c]?) :
    ∃ resT resN, MatmulTiled At Bt Ot m n p = .ok resT ∧
      Matmul A B O m n p = .ok resN ∧
      resT.size = Ot.size ∧ resN.size = O.size ∧
      ∀ I < m / TILE, ∀ K < p / TILE, ∀ r < TILE, ∀ c < TILE,
        resT.ptr[((I * (p / TILE) + K) * TILE + r) * TILE + c]?
          = resN.ptr[(I * TILE + r) * p + K * TILE + c]? := by
  obtain ⟨M, rfl⟩ : ∃ M, m = 8 * M := ⟨m / 8, by simp only [TILE] at hmT; omega⟩
  obtain ⟨N, rfl⟩ : ∃ N, n = 8 * N := ⟨n / 8, by simp only [TILE] at hnT; omega⟩
  obtain ⟨P, rfl⟩ : ∃ P, p = 8 * P := ⟨p / 8, by simp only [TILE] at hpT; omega⟩
  have eM : 8 * M / TILE = M := Nat.mul_div_cancel_left M (by decide)
  have eN : 8 * N / TILE = N := Nat.mul_div_cancel_left N (by decide)
  have eP : 8 * P / TILE = P := Nat.mul_div_cancel_left P (by decide)
  rw [eN, eP] at hlayB
  rw [eM, eN] at hlayA
  rw [eM, eP]
  have e64 : ∀ x y : Nat, (8 * x) * (8 * y) = 64 * (x * y) := fun x y => by ring
  obtain ⟨resT, hT, hlT, hvT⟩ := MatmulTiled_run At Bt Ot M N P hm hn hp
    (by rw [hAt, e64]) (by rw [hBt, e64]) (by rw [hOt, e64])
  obtain ⟨resN, hNv, hlN, _, hvN⟩ := Matmul_run A B O (8 * M) (8 * N) (8 * P) hm hn hp hA hB hO
  refine ⟨resT, resN, hT, hNv, hlT, hlN, ?_⟩
  intro I hI K hK r hr c hc
  simp only [TILE] at hr hc hlayA hlayB ⊢
  have hi : I * 8 + r < 8 * M := by omega
  have hk : K * 8 + c < 8 * P := by omega
  have e1 : ((I * P + K) * 8 + r) * 8 + c = 64 * (I * P + K) + (r * 8 + c) := by omega
  rw [e1, hvT I hI K hK r hr c hc, Nat.add_assoc, hvN _ hi _ hk,
    ← sum_by_tiles (fun j => A.ptr.getD ((I * 8 + r) * (8 * N) + j) 0
      * B.ptr.getD (j * (8 * P) + (K * 8 + c)) 0) N]
  congr 1
  apply Finset.sum_congr rfl
  intro J hJ
  apply Finset.sum_congr rfl
  intro j hj
  have hJ1 : J < N := Finset.mem_range.mp hJ
  have hj1 : j < 8 := Finset.mem_range.mp hj
  have ea : 64 * (I * N + J) + (r * 8 + j) = ((I * N + J) * 8 + r) * 8 + j := by omega
  have eb : 64 * (J * P + K) + (j * 8 + c) = ((J * P + K) * 8 + j) * 8 + c := by omega
  have ea2 : (I * 8 + r) * (8 * N) + (J * 8 + j) = (I * 8 + r) * (8 * N) + J * 8 + j := by
    omega
  have eb2 : (J * 8 + j) * (8 * P) + (K * 8 + c) = (J * 8 + j) * (8 * P) + K * 8 + c := by
    omega
  rw [List.getD_eq_getElem?_getD, List.getD_eq_getElem?_getD, List.getD_eq_getElem?_getD,
    List.getD_eq_getElem?_getD, ea, eb, ea2, eb2, hlayA I hI J hJ1 r hr j hj1,
    hlayB J hJ1 K hK j hj1 c hc]

theorem MatmulTiled_agrees_witness :
    ∃ resT resN,
      MatmulTiled (⟨(List.range 64).map Int.ofNat, []⟩ : AlignedArray Int)
        ⟨List.replicate 64 3, []⟩ ⟨List.replicate 64 5, []⟩ 8 8 8 = .ok resT ∧
      Matmul (⟨(List.range 64).map Int.ofNat, []⟩ : AlignedArray Int)
        ⟨List.replicate 64 3, []⟩ ⟨List.replicate 64 7, []⟩ 8 8 8 = .ok resN ∧
      resT.size = AlignedArray.size (⟨List.replicate 64 5, []⟩ : AlignedArray Int) ∧
      resN.size = AlignedArray.size (⟨List.replicate 64 7, []⟩ : AlignedArray Int) ∧
      ∀ I < 8 / TILE, ∀ K < 8 / TILE, ∀ r < TILE, ∀ c < TILE,
        resT.ptr[((I * (8 / TILE) + K) * TILE + r) * TILE + c]?
          = resN.ptr[(I * TILE + r) * 8 + K * TILE + c]? :=
  MatmulTiled_agrees Int ⟨(List.range 64).map Int.ofNat, []⟩ ⟨List.replicate 64 3, []⟩
    ⟨List.replicate 64 7, []⟩ ⟨(List.range 64).map Int.ofNat, []⟩ ⟨List.replicate 64 3, []⟩
    ⟨List.replicate 64 5, []⟩ 8 8 8 (by decide) (by decide) (by decide) rfl rfl rfl
    (by decide) (by decide) (by decide) (by decide) (by decide) (by decide)
    (by
      intro I hI J hJ r _ c _
      have hI0 : I = 0 := by simp only [TILE] at hI; omega
      have hJ0 : J = 0 := by simp only [TILE] at hJ; omega
      subst hI0 hJ0
      simp [TILE])
    (by
      intro J hJ K hK r _ c _
      have hJ0 : J = 0 := by simp only [TILE] at hJ; omega
      have hK0 : K = 0 := by simp only [TILE] at hK; omega
      subst hJ0 hK0
      simp [TILE])

/-! ## Reductions -/

/-- A counting loop whose iteration `q` stores to position `q` a value computed
without reading `out`. -/
theorem forLoop_fill {α : Type} (body : Nat → AlignedArray α → Except Fault (AlignedArray α))
    (g : Nat → Except Fault α) (out : AlignedArray α)
    (hbody : ∀ q o, body q o = g q >>= fun v => store o q v) :
    ∀ N, N ≤ out.ptr.length → (∀ q < N, ∃ v, g q = .ok v) →
      ∃ res, forLoop body N 0 out = .ok res ∧
        res.ptr.length = out.ptr.length ∧
        res.stores = out.stores ++ List.range N ∧
        (∀ q < N, ∀ v, g q = .ok v → res.ptr[q]? = some v) ∧
        (∀ L, N ≤ L → res.ptr[L]? = out.ptr[L]?) := by
  intro N hN hg
  exact forLoop_inv body (fun t o =>
      o.ptr.length = out.ptr.length ∧
      o.stores = out.stores ++ List.range t ∧
      (∀ q < t, ∀ v, g q = .ok v → o.ptr[q]? = some v) ∧
      (∀ L, t ≤ L → o.ptr[L]? = out.ptr[L]?)) 0 N out
    ⟨rfl, by simp, fun q hq => absurd hq (Nat.not_lt_zero q), fun _ _ => rfl⟩
    (by
      intro t ht o ⟨hl, hs, hv, hk⟩
      obtain ⟨vt, hvt⟩ := hg t ht
      have hlt : t < o.ptr.length := by omega
      refine ⟨⟨o.ptr.set t vt, o.stores ++ [t]⟩, ?_, by simp [hl],
        by simp [hs, List.range_succ], ?_, ?_⟩
      · rw [Nat.zero_add, hbody, hvt]
        exact store_of_lt _ hlt
      · intro q hq v hv1
        by_cases hqt : q = t
        · subst hqt
          rw [hvt] at hv1
          cases hv1
          simp [List.getElem?_set_self hlt]
        · have hne : t ≠ q := fun h => hqt h.symm
          simp only [List.getElem?_set_ne hne]
          exact hv q (by omega) v hv1
      · intro L hL
        have hne : t ≠ L := by omega
        simp only [List.getElem?_set_ne hne]
        exact hk L (by omega))

/-- The loop over `j` of `ReduceSum` adds up block `i`. -/
theorem reduceSum_block {α : Type} [Semiring α] (a : AlignedArray α) (rs n i : Nat)
    (ha : a.size = n * rs) (h64 : a.size < U64) (hi : i < n) :
    forLoop (reduceSumStep a rs i) rs 0 0
      = .ok (Finset.sum (Finset.range rs) (fun j => a.ptr.getD (i * rs + j) 0)) := by
  obtain ⟨tmp, h, hinv⟩ := forLoop_inv (reduceSumStep a rs i)
    (fun t tmp => tmp = Finset.sum (Finset.range t) (fun j => a.ptr.getD (i * rs + j) 0)) 0 rs 0
    (by simp)
    (by
      intro t ht tmp htmp
      have h1 : i * rs + t < n * rs := row_index_lt hi ht
      refine ⟨tmp + a.ptr.getD (i * rs + t) 0, ?_, ?_⟩
      · rw [Nat.zero_add, reduceSumStep, Nat.mod_eq_of_lt (by omega),
          load_eq_getD 0 (by rw [← AlignedArray.size, ha]; exact h1)]
        rfl
      · show tmp + _ = Finset.sum (Finset.range (t + 1)) _
        rw [Finset.sum_range_succ, htmp])
  rw [h, hinv]

/-- C9. `ReduceSum` returns with `out[i] = Σ_{j<reduce_size} a[i*reduce_size + j]` for
every `i < out.size` (the empty sum 0 when `reduce_size = 0`); `a` is a read-only
argument of the kernel. -/
theorem ReduceSum_correct (α : Type) [Semiring α] (a out : AlignedArray α) (reduce_size : Nat)
    (ha : a.size = out.size * reduce_size) (h64 : a.size < U64) :
    ∃ res, ReduceSum a out reduce_size = .ok res ∧
      res.size = out.size ∧
      ∀ i < out.size, res.ptr[i]? = some (Finset.sum (Finset.range reduce_size)
        (fun j => a.ptr.getD (i * reduce_size + j) 0)) := by
  obtain ⟨res, h, hl, _, hv, _⟩ := forLoop_fill (reduceSumCell a reduce_size)
    (fun i => forLoop (reduceSumStep a reduce_size i) reduce_size 0 0) out
    (fun _ _ => rfl) out.size (Nat.le_refl _)
    (fun q hq => ⟨_, reduceSum_block a reduce_size out.size q ha h64 hq⟩)
  refine ⟨res, h, hl, ?_⟩
  intro i hi
  exact hv i hi _ (reduceSum_block a reduce_size out.size i ha h64 hi)

theorem ReduceSum_correct_witness :
    ∃ res, ReduceSum (⟨[1, 5, 2, 8, 3, 3], []⟩ : AlignedArray Int) ⟨[0, 0], []⟩ 3 = .ok res ∧
      res.size = AlignedArray.size (⟨[0, 0], []⟩ : AlignedArray Int) ∧
      ∀ i < AlignedArray.size (⟨[0, 0], []⟩ : AlignedArray Int),
        res.ptr[i]? = some (Finset.sum (Finset.range 3)
          (fun j => [(1 : Int), 5, 2, 8, 3, 3].getD (i * 3 + j) 0)) :=
  ReduceSum_correct Int ⟨[1, 5, 2, 8, 3, 3], []⟩ ⟨[0, 0], []⟩ 3 rfl (by decide)

/-- The first load and the loop over `j` of `ReduceMax` yield an element of block `i`
that is at least every element of the block. -/
theorem reduceMax_block {α : Type} [LinearOrder α] (a : AlignedArray α) (rs n i : Nat)
    (h1 : 1 ≤ rs) (ha : a.size = n * rs) (h64 : a.size < U64) (hi : i < n) :
    ∃ v, (load a ((i * rs) % U64) >>= fun tmp =>
        forLoop (reduceMaxStep a rs i) (rs - 1) 1 tmp) = .ok v ∧
      (∀ j < rs, ∃ x, a.ptr[i * rs + j]? = some x ∧ x ≤ v) ∧
      (∃ j < rs, a.ptr[i * rs + j]? = some v) := by
  have hin : ∀ j < rs, i * rs + j < a.ptr.length := fun j hj => by
    rw [← AlignedArray.size, ha]
    exact row_index_lt hi hj
  have h0 : i * rs < a.ptr.length := hin 0 (by omega)
  obtain ⟨v, h, hle, hex⟩ := forLoop_inv (reduceMaxStep a rs i)
    (fun t tmp => (∀ j ≤ t, ∃ x, a.ptr[i * rs + j]? = some x ∧ x ≤ tmp) ∧
      (∃ j ≤ t, a.ptr[i * rs + j]? = some tmp)) 1 (rs - 1) (a.ptr.get ⟨i * rs, h0⟩)
    ⟨fun j hj => by
        have : j = 0 := by omega
        subst this
        exact ⟨_, List.getElem?_eq_getElem h0, le_refl _⟩,
      ⟨0, Nat.le_refl _, List.getElem?_eq_getElem h0⟩⟩
    (by
      intro t ht tmp ⟨hle, hex⟩
      have hlt : i * rs + (1 + t) < a.ptr.length := hin (1 + t) (by omega)
      have hmod : (i * rs + (1 + t)) % U64 = i * rs + (1 + t) :=
        Nat.mod_eq_of_lt (by simp only [AlignedArray.size] at h64; omega)
      have hx : a.ptr[i * rs + (1 + t)]? = some (a.ptr.get ⟨i * rs + (1 + t), hlt⟩) :=
        List.getElem?_eq_getElem hlt
      have e : i * rs + (t + 1) = i * rs + (1 + t) := by omega
      by_cases hgt : a.ptr.get ⟨i * rs + (1 + t), hlt⟩ > tmp
      · refine ⟨a.ptr.get ⟨i * rs + (1 + t), hlt⟩, ?_, ?_, ⟨t + 1, Nat.le_refl _, by rw [e]; exact hx⟩⟩
        · simp only [reduceMaxStep, hmod, load_of_lt hlt, ok_bind, if_pos hgt]
        · intro j hj
          by_cases hjt : j = t + 1
          · subst hjt
            exact ⟨_, by rw [e]; exact hx, le_refl _⟩
          · obtain ⟨x, hx1, hx2⟩ := hle j (by omega)
            exact ⟨x, hx1, le_trans hx2 (le_of_lt hgt)⟩
      · refine ⟨tmp, ?_, ?_, ?_⟩
        · simp only [reduceMaxStep, hmod, load_of_lt hlt, ok_bind, if_neg hgt, pure_eq_ok]
        · intro j hj
          by_cases hjt : j = t + 1
          · subst hjt
            exact ⟨_, by rw [e]; exact hx, not_lt.mp hgt⟩
          · exact hle j (by omega)
        · obtain ⟨j, hj1, hj2⟩ := hex
          exact ⟨j, by omega, hj2⟩)
  refine ⟨v, ?_, fun j hj => hle j (by omega), ?_⟩
  · rw [Nat.mod_eq_of_lt (by simp only [AlignedArray.size] at h64; omega), load_of_lt h0]
    exact h
  · obtain ⟨j, hj1, hj2⟩ := hex
    exact ⟨j, by omega, hj2⟩

/-- C8. `ReduceMax` returns, and for `reduce_size >= 1` every `out[i]` is an element of
the block `a[i*reduce_size .. i*reduce_size + reduce_size)` that is at least every
element of that block; `[1,5,2,8,3,3]` with `reduce_size = 3` gives `[5,8]`. -/
theorem ReduceMax_correct :
    (∀ (α : Type) [LinearOrder α] (a out : AlignedArray α) (reduce_size : Nat),
      1 ≤ reduce_size → a.size = out.size * reduce_size → a.size < U64 →
      ∃ res, ReduceMax a out reduce_size = .ok res ∧
        res.size = out.size ∧
        ∀ i < out.size, ∃ v, res.ptr[i]? = some v ∧
          (∀ j < reduce_size, ∃ x, a.ptr[i * reduce_size + j]? = some x ∧ x ≤ v) ∧
          (∃ j < reduce_size, a.ptr[i * reduce_size + j]? = some v)) ∧
    (∀ x y : Int,
      ReduceMax ⟨[1, 5, 2, 8, 3, 3], []⟩ ⟨[x, y], []⟩ 3 = .ok ⟨[5, 8], [0, 1]⟩) := by
  refine ⟨?_, fun _ _ => rfl⟩
  intro α _ a out rs h1 ha h64
  obtain ⟨res, h, hl, _, hv, _⟩ := forLoop_fill (reduceMaxCell a rs)
    (fun i => load a ((i * rs) % U64) >>= fun tmp =>
      forLoop (reduceMaxStep a rs i) (rs - 1) 1 tmp) out
    (fun q o => by simp only [reduceMaxCell, bind_assoc]) out.size (Nat.le_refl _)
    (fun q hq => by
      obtain ⟨v, hv, _⟩ := reduceMax_block a rs out.size q h1 ha h64 hq
      exact ⟨v, hv⟩)
  refine ⟨res, h, hl, ?_⟩
  intro i hi
  obtain ⟨v, hv1, hv2, hv3⟩ := reduceMax_block a rs out.size i h1 ha h64 hi
  exact ⟨v, hv i hi v hv1, hv2, hv3⟩

theorem ReduceMax_correct_witness :
    ∃ res, ReduceMax (⟨[1, 5, 2, 8, 3, 3], []⟩ : AlignedArray Int) ⟨[0, 0], []⟩ 3 = .ok res ∧
      res.size = AlignedArray.size (⟨[0, 0], []⟩ : AlignedArray Int) ∧
      ∀ i < AlignedArray.size (⟨[0, 0], []⟩ : AlignedArray Int), ∃ v, res.ptr[i]? = some v ∧
        (∀ j < 3, ∃ x, [(1 : Int), 5, 2, 8, 3, 3][i * 3 + j]? = some x ∧ x ≤ v) ∧
        (∃ j < 3, [(1 : Int), 5, 2, 8, 3, 3][i * 3 + j]? = some v) :=
  ReduceMax_correct.1 Int ⟨[1, 5, 2, 8, 3, 3], []⟩ ⟨[0, 0], []⟩ 3 (by decide) rfl (by decide)

/-- C10, as the code computes it: on `[1,5,2,8,3,3]` with `reduce_size = 3` and a
2-element output, `ReduceSum` produces `[8,14]` (1+5+2 and 8+3+3). -/
theorem ReduceSum_example (x y : Int) :
    ReduceSum ⟨[1, 5, 2, 8, 3, 3], []⟩ ⟨[x, y], []⟩ 3 = .ok ⟨[8, 14], [0, 1]⟩ := rfl

/-- C10 as stated fails: on `[1,5,2,8,3,3]` with `reduce_size = 3` the result of
`ReduceSum` is not `[8,9]`. -/
theorem ReduceSum_example_not_8_9 :
    ¬ ∃ res, ReduceSum (⟨[1, 5, 2, 8, 3, 3], []⟩ : AlignedArray Int) ⟨[0, 0], []⟩ 3 = .ok res ∧
      res.ptr = [8, 9] := by
  rintro ⟨res, h, hres⟩
  have h2 : ReduceSum (⟨[1, 5, 2, 8, 3, 3], []⟩ : AlignedArray Int) ⟨[0, 0], []⟩ 3
      = .ok ⟨[8, 14], [0, 1]⟩ := rfl
  rw [h2] at h
  cases h
  revert hres
  decide

/-! ## Comparison kernels -/

/-- C11, at `a = [1,2,3]`, `b = [2,2,2]`: `EwiseGe` writes `[0,0,1]`, so at the equal
pair `a[1] = b[1] = 2` it writes 0 although `a[1] >= b[1]`, while `ScalarGe` with
`val = 2` writes `[0,1,1]`: `EwiseGe` compares with `>`, `ScalarGe` with `>=`. -/
theorem EwiseGe_is_strict :
    EwiseGe (⟨[1, 2, 3], []⟩ : AlignedArray Int) ⟨[2, 2, 2], []⟩ ⟨[5, 5, 5], []⟩
      = .ok ⟨[0, 0, 1], [0, 1, 2]⟩ ∧
    ScalarGe (⟨[1, 2, 3], []⟩ : AlignedArray Int) 2 ⟨[5, 5, 5], []⟩
      = .ok ⟨[0, 1, 1], [0, 1, 2]⟩ :=
  ⟨rfl, rfl⟩

/-! ## Degenerate shapes -/

/-- With a count of 0 the traversal loop still runs its body once, at the initial
index, before it compares `cnt` with the count. -/
theorem traverse_size_zero {σ : Type} (body : σ → List Nat → Nat → Nat → Except Fault σ)
    (shape strides : List Nat) (offset fuel : Nat) (index : List Nat) (cnt : Nat) (s : σ) :
    traverse body shape strides offset 0 (fuel + 1) index cnt s
      = offsetLoop index strides shape.length offset >>= fun cur_offset =>
          body s index cur_offset cnt := by
  rw [traverse]
  cases offsetLoop index strides shape.length offset with
  | error e => rfl
  | ok cur =>
    simp only [ok_bind]
    cases body s index cur cnt with
    | error e => rfl
    | ok s1 => simp

/-- C13, at shape `[0,2]`, strides `[2,1]`, offset 0 and a count of 0: the traversal
visits one index, `[0,0]`, instead of none. `ScalarSetitem` with `size = 0` stores
`val = 9` to position 0 of `[1,2,3]`; `EwiseSetitem` with an empty source loads
`a.ptr[0]` and `Compact` with an empty output stores to `out->ptr[0]`, both outside
the buffer. -/
theorem zero_extent_runs_once :
    indexTrace [0, 2] [2, 1] 0 0 1 = .ok [[0, 0]] ∧
    ScalarSetitem 1 0 (9 : Int) ⟨[1, 2, 3], []⟩ [0, 2] [2, 1] 0 = .ok ⟨[9, 2, 3], [0]⟩ ∧
    EwiseSetitem 1 (⟨[], []⟩ : AlignedArray Int) ⟨[1, 2, 3], []⟩ [0, 2] [2, 1] 0
      = .error .out_of_bounds ∧
    Compact 1 (⟨[1, 2, 3], []⟩ : AlignedArray Int) ⟨[], []⟩ [0, 2] [2, 1] 0
      = .error .out_of_bounds :=
  ⟨rfl, rfl, rfl, rfl⟩

/-- C14, at index `[65536]` of shape `[65537]` with strides `[65536]` and offset 0 (all
values fit in 32 bits): the offset loop yields `cur_offset = 0`, while
`offset + Σ idx[d] * strides[d]` is `2^32`. -/
theorem offset_wraps_at_65536 :
    IsIndex [65537] [65536] ∧ 65536 < U32 ∧ 65537 < U32 ∧
    offsetLoop [65536] [65536] 1 0 = .ok 0 ∧
    linearOffset 0 [65536] [65536] = 4294967296 :=
  ⟨List.Forall₂.cons (by decide) List.Forall₂.nil, by decide, by decide, rfl, rfl⟩

/-- C18. For the empty shape with empty strides and a count of 1, the traversal
enumerates exactly one index, the empty coordinate, and returns: `Compact` sets
`out[0] = a[offset]`, `EwiseSetitem` sets `out[offset] = a[0]`, `ScalarSetitem` sets
`out[offset] = val`, each with that single store. -/
theorem zero_dim_correct (α : Type) (fuel : Nat) (hfuel : 1 ≤ fuel) :
    (∀ offset, indexTrace [] [] offset 1 fuel = .ok [[]]) ∧
    (∀ (a out : AlignedArray α) (offset : Nat), out.size = 1 → offset < a.size →
      ∃ v, a.ptr[offset]? = some v ∧
        Compact fuel a out [] [] offset = .ok ⟨[v], out.stores ++ [0]⟩) ∧
    (∀ (a out : AlignedArray α) (offset : Nat), a.size = 1 → offset < out.size →
      ∃ v, a.ptr[0]? = some v ∧
        EwiseSetitem fuel a out [] [] offset
          = .ok ⟨out.ptr.set offset v, out.stores ++ [offset]⟩) ∧
    (∀ (val : α) (out : AlignedArray α) (offset : Nat), offset < out.size →
      ScalarSetitem fuel 1 val out [] [] offset
        = .ok ⟨out.ptr.set offset val, out.stores ++ [offset]⟩) := by
  obtain ⟨f, rfl⟩ : ∃ f, fuel = f + 1 := ⟨fuel - 1, by omega⟩
  have h1 : (0 + 1) % U64 ≥ 1 := by decide
  refine ⟨fun offset => ?_, ?_, ?_, ?_⟩
  · simp [indexTrace, traverse, offsetLoop, forLoop, h1]
  · intro a out offset hout hoff
    have hlt : offset < a.ptr.length := hoff
    obtain ⟨x, hx⟩ : ∃ x, out.ptr = [x] := List.length_eq_one.mp hout
    refine ⟨a.ptr.get ⟨offset, hlt⟩, List.getElem?_eq_getElem hlt, ?_⟩
    simp [Compact, traverse, offsetLoop, forLoop, load_of_lt hlt, store, hx,
      AlignedArray.size, h1]
  · intro a out offset ha hoff
    have hlt : offset < out.ptr.length := hoff
    have h0 : 0 < a.ptr.length := by
      rw [← AlignedArray.size, ha]
      exact Nat.one_pos
    refine ⟨a.ptr.get ⟨0, h0⟩, List.getElem?_eq_getElem h0, ?_⟩
    simp [EwiseSetitem, traverse, offsetLoop, forLoop, load_of_lt h0, store, hlt, ha, h1]
  · intro val out offset hoff
    have hlt : offset < out.ptr.length := hoff
    simp [ScalarSetitem, traverse, offsetLoop, forLoop, store, hlt, h1]

theorem zero_dim_correct_witness :
    (∀ offset, indexTrace [] [] offset 1 1 = .ok [[]]) ∧
    (∀ (a out : AlignedArray Int) (offset : Nat), out.size = 1 → offset < a.size →
      ∃ v, a.ptr[offset]? = some v ∧
        Compact 1 a out [] [] offset = .ok ⟨[v], out.stores ++ [0]⟩) ∧
    (∀ (a out : AlignedArray Int) (offset : Nat), a.size = 1 → offset < out.size →
      ∃ v, a.ptr[0]? = some v ∧
        EwiseSetitem 1 a out [] [] offset
          = .ok ⟨out.ptr.set offset v, out.stores ++ [offset]⟩) ∧
    (∀ (val : Int) (out : AlignedArray Int) (offset : Nat), offset < out.size →
      ScalarSetitem 1 1 val out [] [] offset
        = .ok ⟨out.ptr.set offset val, out.stores ++ [offset]⟩) :=
  zero_dim_correct Int 1 (Nat.le_refl 1)

/-! ## Enumeration order and termination of the traversal -/

theorem foldlM_total {σ : Type} (f : σ → Nat → Except Fault σ) (g : σ → Nat → σ)
    (hf : ∀ s k, f s k = .ok (g s k)) :
    ∀ (l : List Nat) (s : σ), List.foldlM f s l = .ok (l.foldl g s) := by
  intro l
  induction l with
  | nil =>
    intro s
    rfl
  | cons k l ih =>
    intro s
    rw [List.foldlM_cons, hf, List.foldl_cons]
    simp only [ok_bind]
    exact ih _

theorem foldl_log {β : Type} (f : Nat → β) :
    ∀ (l : List Nat) (log : List β),
      l.foldl (fun log k => log ++ [f k]) log = log ++ l.map f := by
  intro l
  induction l with
  | nil =>
    intro log
    simp
  | cons k l ih =>
    intro log
    rw [List.foldl_cons, ih]
    simp

theorem foldl_count (l : List Nat) : ∀ n : Nat, l.foldl (fun n _ => n + 1) n = n + l.length := by
  induction l with
  | nil =>
    intro n
    rfl
  | cons k l ih =>
    intro n
    rw [List.foldl_cons, ih, List.length_cons]
    omega

/-- The index vectors seen by the traversal of a whole shape are the multi-indices of
ranks `0, 1, ..., Π shape[d] - 1`, in this order. -/
theorem indexTrace_eq (shape strides : List Nat) (offset fuel : Nat)
    (hsh : ∀ s ∈ shape, 1 ≤ s ∧ s < U32) (hlen : shape.length < U64)
    (hstr : shape.length ≤ strides.length) (h64 : shape.prod < U64)
    (hfuel : shape.prod ≤ fuel) :
    indexTrace shape strides offset shape.prod fuel
      = .ok ((List.range shape.prod).map (unravel shape)) := by
  have hpos := prod_pos_of_extents hsh
  rw [indexTrace, ← unravel_zero,
    traverse_eq_foldlM _ shape strides offset shape.prod hsh hlen hstr (Nat.le_refl _) h64
      fuel 0 [] (by omega) (by omega),
    Nat.sub_zero, ← List.range_eq_range',
    foldlM_total (visit (fun log index _ _ => Except.ok (log ++ [index])) shape strides offset)
      (fun log k => log ++ [unravel shape k]) (fun _ _ => rfl), foldl_log]
  rfl

/-- The traversal of a whole shape runs its body `Π shape[d]` times. -/
theorem passCount_eq (shape strides : List Nat) (offset fuel : Nat)
    (hsh : ∀ s ∈ shape, 1 ≤ s ∧ s < U32) (hlen : shape.length < U64)
    (hstr : shape.length ≤ strides.length) (h64 : shape.prod < U64)
    (hfuel : shape.prod ≤ fuel) :
    passCount shape strides offset shape.prod fuel = .ok shape.prod := by
  have hpos := prod_pos_of_extents hsh
  rw [passCount, ← unravel_zero,
    traverse_eq_foldlM _ shape strides offset shape.prod hsh hlen hstr (Nat.le_refl _) h64
      fuel 0 0 (by omega) (by omega),
    Nat.sub_zero, ← List.range_eq_range',
    foldlM_total (visit (fun n _ _ _ => Except.ok (n + 1)) shape strides offset)
      (fun n _ => n + 1) (fun _ _ => rfl), foldl_count, List.length_range,
    Nat.zero_add]

/-- With fewer passes than the count allowed, a traversal whose body does not fail
has not left its loop. -/
theorem traverse_fuel_short {σ : Type} (body : σ → List Nat → Nat → Nat → Except Fault σ)
    (hbody : ∀ s index cur cnt, ∃ s1, body s index cur cnt = .ok s1)
    (shape strides : List Nat) (offset size : Nat)
    (hsh : ∀ s ∈ shape, 1 ≤ s ∧ s < U32) (hlen : shape.length < U64)
    (hst : shape.length ≤ strides.length) (hsize : size ≤ shape.prod) (h64 : size < U64) :
    ∀ (fuel c : Nat) (s : σ), c < size → fuel < size - c →
      traverse body shape strides offset size fuel (unravel shape c) c s
        = .error .out_of_fuel := by
  intro fuel
  induction fuel with
  | zero =>
    intro c s _ _
    rfl
  | succ fuel ih =>
    intro c s hc hf
    have hoff := offsetLoop_eq (unravel shape c) strides offset (by rw [length_unravel]; exact hst)
    rw [length_unravel] at hoff
    obtain ⟨s1, hs1⟩ := hbody s (unravel shape c)
      (machineOffset offset (unravel shape c) strides) c
    rw [traverse, hoff]
    simp only [ok_bind]
    rw [hs1]
    simp only [ok_bind]
    rw [Nat.mod_eq_of_lt (by omega), if_neg (by omega),
      advance_unravel shape c hsh hlen (by omega)]
    simp only [ok_bind]
    exact ih (c + 1) s1 (by omega) (by omega)

theorem lex_irrefl : ∀ l : List Nat, ¬ List.Lex (fun a b => a < b) l l
  | [] => fun h => by cases h
  | a :: l => fun h => by
    cases h with
    | cons h => exact lex_irrefl l h
    | rel h => exact Nat.lt_irrefl a h

/-- Row-major ranks and lexicographic order agree. -/
theorem unravel_lex (shape : List Nat) (hsh : ∀ s ∈ shape, 1 ≤ s) :
    ∀ k1 k2, k1 < k2 → k2 < shape.prod →
      List.Lex (fun a b => a < b) (unravel shape k1) (unravel shape k2) := by
  induction shape with
  | nil =>
    intro k1 k2 h1 h2
    simp at h2
    omega
  | cons s rest ih =>
    intro k1 k2 h1 h2
    have hrest : ∀ t ∈ rest, 1 ≤ t := fun t ht => hsh t (by simp [ht])
    have hpos : 0 < rest.prod := List.prod_pos (fun t ht => hrest t ht)
    rw [List.prod_cons] at h2
    have hq2 : k2 / rest.prod < s := (Nat.div_lt_iff_lt_mul hpos).mpr h2
    have hle : k1 / rest.prod ≤ k2 / rest.prod := Nat.div_le_div_right (Nat.le_of_lt h1)
    have hq1 : k1 / rest.prod < s := Nat.lt_of_le_of_lt hle hq2
    simp only [unravel]
    rw [Nat.mod_eq_of_lt hq1, Nat.mod_eq_of_lt hq2]
    rcases Nat.lt_or_eq_of_le hle with hlt | heq
    · exact List.Lex.rel hlt
    · rw [heq]
      apply List.Lex.cons
      have e1 : k1 = k1 % rest.prod + (k1 / rest.prod) * rest.prod := by
        rw [Nat.add_comm]
        exact (Nat.div_add_mod' k1 rest.prod).symm
      have e2 : k2 = k2 % rest.prod + (k2 / rest.prod) * rest.prod := by
        rw [Nat.add_comm]
        exact (Nat.div_add_mod' k2 rest.prod).symm
      have hm : k1 % rest.prod < k2 % rest.prod := by
        rw [heq] at e1
        omega
      have u1 : unravel rest k1 = unravel rest (k1 % rest.prod) := by
        conv_lhs => rw [e1]
        exact unravel_add_mul rest _ _ hrest
      have u2 : unravel rest k2 = unravel rest (k2 % rest.prod) := by
        conv_lhs => rw [e2]
        exact unravel_add_mul rest _ _ hrest
      rw [u1, u2]
      exact ih hrest _ _ hm (Nat.mod_lt _ hpos)

/-- C12. For a shape with all extents at least 1 and a count of `Π shape[d]`, the index
vectors held at the successive iterations of the traversal loop are the multi-indices
of ranks `0, 1, ...` (coordinate `d` of rank `k` being `(k / Π_{e>d} shape[e]) % shape[d]`,
so the last dimension varies fastest): the first is all zeros, the sequence has no
repetition and its members are exactly the multi-indices of the shape, and it is
strictly increasing in lexicographic order; for shape `[2,3]` it is `(0,0),(0,1),(0,2),(1,0),(1,1),(1,2)`. -/
theorem enumeration_order :
    (∀ (shape strides : List Nat) (offset fuel : Nat),
      (∀ s ∈ shape, 1 ≤ s ∧ s < U32) → shape.length < U64 →
      strides.length = shape.length → shape.prod < U64 → shape.prod ≤ fuel →
      ∃ trace, indexTrace shape strides offset shape.prod fuel = .ok trace ∧
        trace = (List.range shape.prod).map (unravel shape) ∧
        trace.head? = some (List.replicate shape.length 0) ∧
        (∀ idx, idx ∈ trace ↔ IsIndex shape idx) ∧
        trace.Nodup ∧
        trace.Pairwise (List.Lex (fun a b => a < b))) ∧
    (∀ s1 s2 offset : Nat, indexTrace [2, 3] [s1, s2] offset 6 6
      = .ok [[0, 0], [0, 1], [0, 2], [1, 0], [1, 1], [1, 2]]) := by
  refine ⟨?_, fun _ _ _ => rfl⟩
  intro shape strides offset fuel hsh hlen hstr h64 hfuel
  have hpos : ∀ s ∈ shape, 1 ≤ s := fun s hs => (hsh s hs).1
  have hprod := prod_pos_of_extents hsh
  have hmem : ∀ idx, idx ∈ (List.range shape.prod).map (unravel shape) ↔ IsIndex shape idx := by
    intro idx
    rw [isIndex_iff_unravel shape idx hpos, List.mem_map]
    constructor
    · rintro ⟨k, hk, rfl⟩
      exact ⟨k, List.mem_range.mp hk, rfl⟩
    · rintro ⟨k, hk, rfl⟩
      exact ⟨k, List.mem_range.mpr hk, rfl⟩
  have hpair : ((List.range shape.prod).map (unravel shape)).Pairwise
      (List.Lex (fun a b => a < b)) := by
    rw [List.pairwise_map]
    exact (List.pairwise_lt_range shape.prod).imp_of_mem
      (fun _ hb hab => unravel_lex shape hpos _ _ hab (List.mem_range.mp hb))
  have hnodup : ((List.range shape.prod).map (unravel shape)).Nodup := by
    refine hpair.imp ?_
    intro a b hab heq
    rw [heq] at hab
    exact lex_irrefl b hab
  refine ⟨_, indexTrace_eq shape strides offset fuel hsh hlen (Nat.le_of_eq hstr.symm) h64 hfuel,
    rfl, ?_, hmem, hnodup, hpair⟩
  rw [List.head?_map, List.head?_range, if_neg (by omega)]
  simp [unravel_zero]

theorem enumeration_order_witness :
    ∃ trace, indexTrace [2, 3] [3, 1] 0 (List.prod [2, 3]) 6 = .ok trace ∧
      trace = (List.range (List.prod [2, 3])).map (unravel [2, 3]) ∧
      trace.head? = some (List.replicate (List.length [2, 3]) 0) ∧
      (∀ idx, idx ∈ trace ↔ IsIndex [2, 3] idx) ∧
      trace.Nodup ∧
      trace.Pairwise (List.Lex (fun a b => a < b)) :=
  enumeration_order.1 [2, 3] [3, 1] 0 6 (by decide) (by decide) rfl (by decide) (by decide)

/-- C17. For a shape with all extents at least 1 and a count of `Π shape[d]`, the
`while (true)` loop runs its body exactly `Π shape[d]` times and then exits (with
fewer passes allowed it has not exited); at every iteration but the last, the index
being the multi-index of rank `k` with `k + 1 < Π shape[d]`, the carry scan leaves
through its `break` with between 1 and `ndim` coordinates left, no `at` or `back()`
fails, and the index vector is brought back to length `ndim`, as the next
multi-index. Accordingly `ScalarSetitem` and `Compact` return after exactly
`Π shape[d]` stores when the offsets they compute are in bounds. -/
theorem traversal_terminates (shape strides : List Nat) (offset : Nat)
    (hsh : ∀ s ∈ shape, 1 ≤ s ∧ s < U32) (hlen : shape.length < U64)
    (hstr : strides.length = shape.length) (h64 : shape.prod < U64) :
    (∀ fuel, shape.prod ≤ fuel →
      passCount shape strides offset shape.prod fuel = .ok shape.prod) ∧
    (∀ fuel, fuel < shape.prod →
      passCount shape strides offset shape.prod fuel = .error .out_of_fuel) ∧
    (∀ fuel, shape.prod ≤ fuel →
      indexTrace shape strides offset shape.prod fuel
        = .ok ((List.range shape.prod).map (unravel shape))) ∧
    (∀ k, k + 1 < shape.prod →
      ∃ index1, carryScan shape (shape.length + 1) (unravel shape k)
          ((shape.length + U64 - 1) % U64) = .ok index1 ∧
        1 ≤ index1.length ∧ index1.length ≤ shape.length ∧
        advance shape (unravel shape k) = .ok (unravel shape (k + 1)) ∧
        (unravel shape (k + 1)).length = shape.length) ∧
    (∀ (α : Type) (fuel : Nat) (val : α) (out : AlignedArray α), shape.prod ≤ fuel →
      (∀ k < shape.prod, machineOffset offset (unravel shape k) strides < out.size) →
      ∃ res, ScalarSetitem fuel shape.prod val out shape strides offset = .ok res ∧
        res.stores.length = out.stores.length + shape.prod) ∧
    (∀ (α : Type) (fuel : Nat) (a out : AlignedArray α), out.size = shape.prod →
      shape.prod ≤ fuel →
      (∀ k < shape.prod, machineOffset offset (unravel shape k) strides < a.size) →
      ∃ res, Compact fuel a out shape strides offset = .ok res ∧
        res.stores.length = out.stores.length + shape.prod) := by
  have hst : shape.length ≤ strides.length := Nat.le_of_eq hstr.symm
  have hprod := prod_pos_of_extents hsh
  refine ⟨fun fuel hf => passCount_eq shape strides offset fuel hsh hlen hst h64 hf, ?_,
    fun fuel hf => indexTrace_eq shape strides offset fuel hsh hlen hst h64 hf, ?_, ?_, ?_⟩
  · intro fuel hf
    rw [passCount, ← unravel_zero]
    exact traverse_fuel_short _ (fun n _ _ _ => ⟨n + 1, rfl⟩) shape strides offset shape.prod
      hsh hlen hst (Nat.le_refl _) h64 fuel 0 0 (by omega) (by omega)
  · intro k hk
    obtain ⟨I1, last, h1, h2, _⟩ := carryScan_unravel shape [] k (shape.length + 1) hsh hlen hk
      (by omega)
    rw [List.append_nil] at h1
    refine ⟨I1 ++ [last], h1, by simp, by rw [List.length_append, List.length_singleton]; omega,
      advance_unravel shape k hsh hlen hk, length_unravel _ _⟩
  · intro α fuel val out hf hin
    obtain ⟨res, h, _, hs, _⟩ := ScalarSetitem_run fuel shape.prod val out shape strides offset
      hsh hlen hst hprod (Nat.le_refl _) h64 hf hin
    refine ⟨res, h, ?_⟩
    rw [hs]
    simp
  · intro α fuel a out hout hf hin
    obtain ⟨res, h, _, hs, _⟩ := Compact_run fuel a out shape strides offset hsh hlen hstr
      (by omega) (by omega) (by omega) (by omega) (fun k hk => hin k (by omega))
    refine ⟨res, h, ?_⟩
    rw [hs, hout]
    simp

theorem traversal_terminates_witness :
    (∀ fuel, List.prod [2, 3] ≤ fuel →
      passCount [2, 3] [3, 1] 0 (List.prod [2, 3]) fuel = .ok (List.prod [2, 3])) ∧
    (∀ fuel, fuel < List.prod [2, 3] →
      passCount [2, 3] [3, 1] 0 (List.prod [2, 3]) fuel = .error .out_of_fuel) ∧
    (∀ fuel, List.prod [2, 3] ≤ fuel →
      indexTrace [2, 3] [3, 1] 0 (List.prod [2, 3]) fuel
        = .ok ((List.range (List.prod [2, 3])).map (unravel [2, 3]))) ∧
    (∀ k, k + 1 < List.prod [2, 3] →
      ∃ index1, carryScan [2, 3] (List.length [2, 3] + 1) (unravel [2, 3] k)
          ((List.length [2, 3] + U64 - 1) % U64) = .ok index1 ∧
        1 ≤ index1.length ∧ index1.length ≤ List.length [2, 3] ∧
        advance [2, 3] (unravel [2, 3] k) = .ok (unravel [2, 3] (k + 1)) ∧
        (unravel [2, 3] (k + 1)).length = List.length [2, 3]) ∧
    (∀ (α : Type) (fuel : Nat) (val : α) (out : AlignedArray α), List.prod [2, 3] ≤ fuel →
      (∀ k < List.prod [2, 3], machineOffset 0 (unravel [2, 3] k) [3, 1] < out.size) →
      ∃ res, ScalarSetitem fuel (List.prod [2, 3]) val out [2, 3] [3, 1] 0 = .ok res ∧
        res.stores.length = out.stores.length + List.prod [2, 3]) ∧
    (∀ (α : Type) (fuel : Nat) (a out : AlignedArray α), out.size = List.prod [2, 3] →
      List.prod [2, 3] ≤ fuel →
      (∀ k < List.prod [2, 3], machineOffset 0 (unravel [2, 3] k) [3, 1] < a.size) →
      ∃ res, Compact fuel a out [2, 3] [3, 1] 0 = .ok res ∧
        res.stores.length = out.stores.length + List.prod [2, 3]) :=
  traversal_terminates [2, 3] [3, 1] 0 (by decide) (by decide) rfl (by decide)

/-! ## A count larger than the shape -/

theorem pred_div_mod {k s P : Nat} (hs : 1 ≤ s) (hP : 1 ≤ P) (hk : k + 1 = P * s) :
    k % s = s - 1 ∧ k / s + 1 = P := by
  obtain ⟨Q, rfl⟩ : ∃ Q, P = Q + 1 := ⟨P - 1, by omega⟩
  have e : k = s * Q + (s - 1) := by
    rw [Nat.add_mul, Nat.one_mul, Nat.mul_comm Q s] at hk
    omega
  constructor
  · rw [e, Nat.mul_add_mod, Nat.mod_eq_of_lt (by omega)]
  · rw [e, Nat.mul_add_div (by omega), Nat.div_eq_of_lt (by omega)]

/-- At the last multi-index every coordinate is at its maximum: the carry scan pops
them all and then calls `at` on the empty vector with `j` wrapped around. -/
theorem carryScan_last (sh : List Nat) :
    ∀ (extra : List Nat) (k fuel : Nat),
      (∀ s ∈ sh, 1 ≤ s ∧ s < U32) → sh.length < U64 → k + 1 = sh.prod → sh.length < fuel →
      carryScan (sh ++ extra) fuel (unravel sh k) ((sh.length + U64 - 1) % U64)
        = .error .out_of_range := by
  induction sh using List.reverseRecOn with
  | nil =>
    intro extra k fuel _ _ _ hfuel
    obtain ⟨f, rfl⟩ : ∃ f, fuel = f + 1 := ⟨fuel - 1, by omega⟩
    rw [carryScan]
    simp [unravel, vecAt]
  | append_singleton sh s ih =>
    intro extra k fuel hsh hlen hk hfuel
    have hs : 1 ≤ s ∧ s < U32 := hsh s (by simp)
    have hsh1 : ∀ t ∈ sh, 1 ≤ t ∧ t < U32 := fun t ht => hsh t (by simp [ht])
    rw [List.length_append, List.length_singleton] at hlen hfuel
    rw [List.prod_append, List.prod_singleton] at hk
    obtain ⟨f, rfl⟩ : ∃ f, fuel = f + 1 := ⟨fuel - 1, by omega⟩
    obtain ⟨hmod, hdiv⟩ := pred_div_mod hs.1 (prod_pos_of_extents hsh1) hk
    have hj : ((sh ++ [s]).length + U64 - 1) % U64 = (unravel sh (k / s)).length := by
      rw [List.length_append, List.length_singleton, u64_pred (by omega), length_unravel]
    have hj2 : (unravel sh (k / s)).length = sh.length := length_unravel _ _
    rw [unravel_concat, carryScan, hj, vecAt_append_length]
    have hshape : sh ++ [s] ++ extra = sh ++ s :: extra := by simp
    rw [hshape, hj2, vecAt_append_length]
    simp only [ok_bind, pure_eq_ok]
    rw [u32_pred hs.1 hs.2]
    simp only [hmod, ne_eq, not_true_eq_false, if_false, List.dropLast_concat]
    exact ih (s :: extra) (k / s) f hsh1 (by omega) (by omega) (by omega)

theorem advance_last (shape : List Nat) (k : Nat)
    (hsh : ∀ s ∈ shape, 1 ≤ s ∧ s < U32) (hlen : shape.length < U64)
    (hk : k + 1 = shape.prod) :
    advance shape (unravel shape k) = .error .out_of_range := by
  have h := carryScan_last shape [] k ((unravel shape k).length + 1) hsh hlen hk
    (by rw [length_unravel]; omega)
  rw [List.append_nil] at h
  rw [advance, h]
  rfl

/-- With a count larger than `Π shape[d]` the traversal visits every multi-index once
and then the carry scan throws. -/
theorem traverse_overrun {σ : Type} (body : σ → List Nat → Nat → Nat → Except Fault σ)
    (shape strides : List Nat) (offset size : Nat)
    (hsh : ∀ s ∈ shape, 1 ≤ s ∧ s < U32) (hlen : shape.length < U64)
    (hst : shape.length ≤ strides.length) (hsize : shape.prod < size) (h64 : size < U64) :
    ∀ (fuel c : Nat) (s : σ), c < shape.prod → shape.prod - c ≤ fuel →
      traverse body shape strides offset size fuel (unravel shape c) c s
        = List.foldlM (visit body shape strides offset) s (List.range' c (shape.prod - c))
            >>= fun _ => .error .out_of_range := by
  intro fuel
  induction fuel with
  | zero =>
    intro c s hc hf
    omega
  | succ fuel ih =>
    intro c s hc hf
    obtain ⟨n, hn⟩ : ∃ n, shape.prod - c = n + 1 := ⟨shape.prod - c - 1, by omega⟩
    have hoff := offsetLoop_eq (unravel shape c) strides offset (by rw [length_unravel]; exact hst)
    rw [length_unravel] at hoff
    rw [traverse, hoff, hn, List.range'_succ, List.foldlM_cons]
    simp only [ok_bind]
    show (visit body shape strides offset s c >>= _) = _
    cases hv : visit body shape strides offset s c with
    | error e => rfl
    | ok s1 =>
      simp only [ok_bind]
      rw [Nat.mod_eq_of_lt (by omega), if_neg (by omega)]
      by_cases hlast : c + 1 = shape.prod
      · have : n = 0 := by omega
        subst this
        rw [advance_last shape c hsh hlen hlast]
        rfl
      · rw [advance_unravel shape c hsh hlen (by omega)]
        simp only [ok_bind]
        rw [ih (c + 1) s1 (by omega) (by omega)]
        have : shape.prod - (c + 1) = n := by omega
        rw [this]

/-- The kernel `EwiseSetitem` with more source elements than the shape has
multi-indices: after `Π shape[d]` stores the carry scan throws `std::out_of_range`. -/
theorem EwiseSetitem_overrun {α : Type} (fuel : Nat) (a out : AlignedArray α)
    (shape strides : List Nat) (offset : Nat)
    (hsh : ∀ s ∈ shape, 1 ≤ s ∧ s < U32) (hlen : shape.length < U64)
    (hstr : shape.length ≤ strides.length)
    (hsz : shape.prod < a.size) (h64 : a.size < U64) (hfuel : shape.prod ≤ fuel)
    (hin : ∀ k < shape.prod, machineOffset offset (unravel shape k) strides < out.size) :
    EwiseSetitem fuel a out shape strides offset = .error .out_of_range := by
  have hpos := prod_pos_of_extents hsh
  obtain ⟨res, h, _⟩ :=
    scatter_fold (load a) (fun k => machineOffset offset (unravel shape k) strides)
      (visit (fun out _ cur_offset cnt => do
          let v ← load a cnt
          store out cur_offset v) shape strides offset)
      (fun _ _ => rfl) out shape.prod
      (fun k hk => ⟨_, load_of_lt (show k < a.ptr.length from Nat.lt_trans hk hsz)⟩) hin
  rw [EwiseSetitem, ← unravel_zero,
    traverse_overrun _ shape strides offset a.size hsh hlen hstr hsz h64 fuel 0 out
      (by omega) (by omega),
    Nat.sub_zero, ← List.range_eq_range', h]
  rfl

/-- C15 as stated fails: with source `[1,2,3]`, shape `[2]`, strides `[1]`, offset 0 and
a 3-element destination, `EwiseSetitem` does not return normally, whatever the
number of passes allowed; once two passes are allowed it throws `std::out_of_range`. -/
theorem EwiseSetitem_larger_source_throws :
    (∀ fuel, ¬ ∃ res, EwiseSetitem fuel (⟨[1, 2, 3], []⟩ : AlignedArray Int) ⟨[0, 0, 0], []⟩
      [2] [1] 0 = .ok res) ∧
    (∀ fuel, 2 ≤ fuel → EwiseSetitem fuel (⟨[1, 2, 3], []⟩ : AlignedArray Int) ⟨[0, 0, 0], []⟩
      [2] [1] 0 = .error .out_of_range) := by
  have h2 : ∀ fuel, 2 ≤ fuel →
      EwiseSetitem fuel (⟨[1, 2, 3], []⟩ : AlignedArray Int) ⟨[0, 0, 0], []⟩ [2] [1] 0
        = .error .out_of_range := by
    intro fuel hf
    apply EwiseSetitem_overrun fuel _ _ [2] [1] 0 (by decide) (by decide) (Nat.le_refl _)
      (by decide) (by decide) hf
    intro k hk
    have hk2 : k < 2 := hk
    have e : unravel [2] k = [k] := by
      simp only [unravel, List.prod_nil, Nat.div_one]
      rw [Nat.mod_eq_of_lt hk2]
    rw [e]
    simp only [machineOffset, List.zip_cons_cons, List.zip_nil_right, List.foldl_cons,
      List.foldl_nil, U32, U64, AlignedArray.size, List.length_cons, List.length_nil]
    omega
  refine ⟨?_, h2⟩
  intro fuel
  rintro ⟨res, hres⟩
  rcases Nat.lt_or_ge fuel 2 with hlt | hge
  · have hcases : fuel = 0 ∨ fuel = 1 := by omega
    rcases hcases with rfl | rfl
    · have h0 : EwiseSetitem 0 (⟨[1, 2, 3], []⟩ : AlignedArray Int) ⟨[0, 0, 0], []⟩ [2] [1] 0
          = .error .out_of_fuel := rfl
      rw [h0] at hres
      cases hres
    · have h1 : EwiseSetitem 1 (⟨[1, 2, 3], []⟩ : AlignedArray Int) ⟨[0, 0, 0], []⟩ [2] [1] 0
          = .error .out_of_fuel := rfl
      rw [h1] at hres
      cases hres
  · rw [h2 fuel hge] at hres
    cases hres

/-! ## The traversal on shapes that may hold an extent of 0 -/

theorem effExtent_spec (s : Nat) :
    1 ≤ effExtent s ∧ effExtent s ≤ U32 ∧ (s + U32 - 1) % U32 = effExtent s - 1 := by
  have hpos : 0 < U32 := by decide
  have := Nat.mod_lt (s + U32 - 1) hpos
  unfold effExtent
  omega

theorem effExtent_of_pos {s : Nat} (h1 : 1 ≤ s) (hs : s < U32) : effExtent s = s := by
  rw [effExtent, u32_pred h1 hs]
  omega

theorem map_effExtent_of_pos (shape : List Nat) (hsh : ∀ s ∈ shape, 1 ≤ s ∧ s < U32) :
    shape.map effExtent = shape := by
  induction shape with
  | nil => rfl
  | cons s rest ih =>
    rw [List.map_cons, effExtent_of_pos (hsh s (by simp)).1 (hsh s (by simp)).2,
      ih (fun t ht => hsh t (by simp [ht]))]

theorem effExtent_prod_pos (shape : List Nat) : 1 ≤ (shape.map effExtent).prod := by
  have h : ∀ e ∈ shape.map effExtent, 0 < e := by
    intro e he
    obtain ⟨s, _, rfl⟩ := List.mem_map.mp he
    exact (effExtent_spec s).1
  exact List.prod_pos h

/-- The carry scan on any shape of `uint32_t` extents, the coordinates running
through the effective extents: it leaves through `break` below the last rank. -/
theorem carryScan_unravel_eff (sh : List Nat) :
    ∀ (extra : List Nat) (k fuel : Nat),
      sh.length < U64 → k + 1 < (sh.map effExtent).prod → sh.length < fuel →
      ∃ I1 last,
        carryScan (sh ++ extra) fuel (unravel (sh.map effExtent) k)
            ((sh.length + U64 - 1) % U64)
          = .ok (I1 ++ [last]) ∧
        I1.length < sh.length ∧
        I1 ++ [(last + 1) % U32] ++ List.replicate (sh.length - (I1.length + 1)) 0
          = unravel (sh.map effExtent) (k + 1) := by
  induction sh using List.reverseRecOn with
  | nil =>
    intro extra k fuel _ hk _
    simp at hk
  | append_singleton sh s ih =>
    intro extra k fuel hlen hk hfuel
    obtain ⟨he1, he2, hpred⟩ := effExtent_spec s
    rw [List.length_append, List.length_singleton] at hlen hfuel
    rw [List.map_append, List.map_singleton, List.prod_append, List.prod_singleton] at hk
    rw [List.map_append, List.map_singleton]
    obtain ⟨f, rfl⟩ : ∃ f, fuel = f + 1 := ⟨fuel - 1, by omega⟩
    have hj2 : (unravel (sh.map effExtent) (k / effExtent s)).length = sh.length := by
      rw [length_unravel, List.length_map]
    have hj : ((sh ++ [s]).length + U64 - 1) % U64
        = (unravel (sh.map effExtent) (k / effExtent s)).length := by
      rw [List.length_append, List.length_singleton, u64_pred (by omega), hj2]
    have hmod : k % effExtent s < effExtent s := Nat.mod_lt _ (by omega)
    rw [unravel_concat, carryScan, hj, vecAt_append_length]
    have hshape : sh ++ [s] ++ extra = sh ++ s :: extra := by simp
    rw [hshape, hj2, vecAt_append_length]
    simp only [ok_bind, pure_eq_ok]
    rw [hpred, unravel_concat]
    by_cases hc : k % effExtent s = effExtent s - 1
    · -- the last coordinate is at its maximum: it is popped and the scan goes on
      have hks := succ_div_of_eq (by omega : 0 < effExtent s)
        (by omega : k % effExtent s + 1 = effExtent s)
      have hk1 : k / effExtent s + 1 < (sh.map effExtent).prod := by
        have h1 : k + 1 = effExtent s * (k / effExtent s + 1) := by
          have := Nat.div_add_mod k (effExtent s)
          rw [Nat.mul_add, Nat.mul_one]
          omega
        rw [h1, Nat.mul_comm] at hk
        exact Nat.lt_of_mul_lt_mul_right hk
      obtain ⟨I1, last, h1, h2, h3⟩ :=
        ih (s :: extra) (k / effExtent s) f (by omega) hk1 (by omega)
      refine ⟨I1, last, ?_, by rw [List.length_append, List.length_singleton]; omega, ?_⟩
      · simp only [hc, ne_eq, not_true_eq_false, if_false, List.dropLast_concat]
        rw [← hj2] at h1 ⊢
        simpa using h1
      · rw [hks.1, hks.2, ← h3]
        have : (sh ++ [s]).length - (I1.length + 1) = (sh.length - (I1.length + 1)) + 1 := by
          rw [List.length_append, List.length_singleton]
          omega
        rw [this, List.replicate_succ']
        simp
    · -- the scan leaves here
      have hks := succ_div_of_lt (by omega : k % effExtent s + 1 < effExtent s)
      refine ⟨unravel (sh.map effExtent) (k / effExtent s), k % effExtent s, ?_,
        by rw [List.length_append, hj2]; simp, ?_⟩
      · simp [hc]
      · rw [hks.1, hks.2, Nat.mod_eq_of_lt (by omega)]
        simp [hj2]

theorem advance_unravel_eff (shape : List Nat) (k : Nat) (hlen : shape.length < U64)
    (hk : k + 1 < (shape.map effExtent).prod) :
    advance shape (unravel (shape.map effExtent) k)
      = .ok (unravel (shape.map effExtent) (k + 1)) := by
  obtain ⟨I1, last, h1, _, h3⟩ :=
    carryScan_unravel_eff shape [] k ((unravel (shape.map effExtent) k).length + 1) hlen hk
      (by rw [length_unravel, List.length_map]; omega)
  rw [List.append_nil] at h1
  rw [advance, h1]
  simp only [ok_bind, List.getLast?_concat, List.dropLast_concat, pure_eq_ok]
  rw [← h3]
  simp

/-- At the last rank of the effective extents the carry scan pops every coordinate
and then calls `at` on the empty vector. -/
theorem carryScan_last_eff (sh : List Nat) :
    ∀ (extra : List Nat) (k fuel : Nat),
      sh.length < U64 → k + 1 = (sh.map effExtent).prod → sh.length < fuel →
      carryScan (sh ++ extra) fuel (unravel (sh.map effExtent) k)
          ((sh.length + U64 - 1) % U64)
        = .error .out_of_range := by
  induction sh using List.reverseRecOn with
  | nil =>
    intro extra k fuel _ _ hfuel
    obtain ⟨f, rfl⟩ : ∃ f, fuel = f + 1 := ⟨fuel - 1, by omega⟩
    rw [carryScan]
    simp [unravel, vecAt]
  | append_singleton sh s ih =>
    intro extra k fuel hlen hk hfuel
    obtain ⟨he1, he2, hpred⟩ := effExtent_spec s
    rw [List.length_append, List.length_singleton] at hlen hfuel
    rw [List.map_append, List.map_singleton, List.prod_append, List.prod_singleton] at hk
    rw [List.map_append, List.map_singleton]
    obtain ⟨f, rfl⟩ : ∃ f, fuel = f + 1 := ⟨fuel - 1, by omega⟩
    obtain ⟨hmod, hdiv⟩ := pred_div_mod he1 (effExtent_prod_pos sh) hk
    have hj2 : (unravel (sh.map effExtent) (k / effExtent s)).length = sh.length := by
      rw [length_unravel, List.length_map]
    have hj : ((sh ++ [s]).length + U64 - 1) % U64
        = (unravel (sh.map effExtent) (k / effExtent s)).length := by
      rw [List.length_append, List.length_singleton, u64_pred (by omega), hj2]
    rw [unravel_concat, carryScan, hj, vecAt_append_length]
    have hshape : sh ++ [s] ++ extra = sh ++ s :: extra := by simp
    rw [hshape, hj2, vecAt_append_length]
    simp only [ok_bind, pure_eq_ok]
    rw [hpred]
    simp only [hmod, ne_eq, not_true_eq_false, if_false, List.dropLast_concat]
    exact ih (s :: extra) (k / effExtent s) f (by omega) (by omega) (by omega)

theorem advance_last_eff (shape : List Nat) (k : Nat) (hlen : shape.length < U64)
    (hk : k + 1 = (shape.map effExtent).prod) :
    advance shape (unravel (shape.map effExtent) k) = .error .out_of_range := by
  have h := carryScan_last_eff shape [] k ((unravel (shape.map effExtent) k).length + 1)
    hlen hk (by rw [length_unravel, List.length_map]; omega)
  rw [List.append_nil] at h
  rw [advance, h]
  rfl

/-- The loop that keeps its state agrees with `traverse` on what the caller gets. -/
theorem traverse_eq_outcome {σ : Type} (body : σ → List Nat → Nat → Nat → Except Fault σ)
    (shape strides : List Nat) (offset size : Nat) :
    ∀ (fuel : Nat) (index : List Nat) (cnt : Nat) (s : σ),
      traverse body shape strides offset size fuel index cnt s
        = outcomeResult (traverseOutcome body shape strides offset size fuel index cnt s) := by
  intro fuel
  induction fuel with
  | zero =>
    intro index cnt s
    rfl
  | succ fuel ih =>
    intro index cnt s
    rw [traverse, traverseOutcome]
    cases offsetLoop index strides shape.length offset with
    | error e => rfl
    | ok cur =>
      simp only [ok_bind]
      cases body s index cur cnt with
      | error e => rfl
      | ok s1 =>
        simp only [ok_bind]
        by_cases hc : (cnt + 1) % U64 ≥ size
        · simp only [hc, if_true]
          rfl
        · simp only [hc, if_false]
          cases advance shape index with
          | error e => rfl
          | ok index1 =>
            simp only [ok_bind]
            exact ih index1 _ s1

/-- The outcome of the traversal when the bodies of the ranks it reaches succeed, for
any shape: with `N` the smaller of the count and of the product of the effective
extents, the loop runs the bodies of ranks `c, c+1, ...` and is left through lack of
fuel before pass `N`, through `break` at pass `N` when `N` is the count, and through
`std::out_of_range` at pass `N` otherwise. -/
theorem traverseOutcome_run {σ : Type} (body : σ → List Nat → Nat → Nat → Except Fault σ)
    (shape strides : List Nat) (offset size N : Nat)
    (hlen : shape.length < U64) (hst : shape.length ≤ strides.length) (h64 : size < U64)
    (hNs : N ≤ size) (hNE : N ≤ (shape.map effExtent).prod)
    (hN : N = size ∨ N = (shape.map effExtent).prod) :
    ∀ (fuel c : Nat) (s res : σ), c < N →
      List.foldlM (visit body (shape.map effExtent) strides offset) s
        (List.range' c (min fuel (N - c))) = .ok res →
      traverseOutcome body shape strides offset size fuel
          (unravel (shape.map effExtent) c) c s
        = (res, if fuel < N - c then .error .out_of_fuel
            else if N = size then .ok () else .error .out_of_range) := by
  intro fuel
  induction fuel with
  | zero =>
    intro c s res hc hfold
    rw [Nat.zero_min] at hfold
    cases hfold
    rw [traverseOutcome, if_pos (by omega)]
  | succ fuel ih =>
    intro c s res hc hfold
    have hm : min (fuel + 1) (N - c) = min fuel (N - (c + 1)) + 1 := by omega
    rw [hm, List.range'_succ, List.foldlM_cons] at hfold
    have hoff := offsetLoop_eq (unravel (shape.map effExtent) c) strides offset
      (by rw [length_unravel, List.length_map]; exact hst)
    rw [length_unravel, List.length_map] at hoff
    cases hv : visit body (shape.map effExtent) strides offset s c with
    | error e =>
      rw [hv] at hfold
      cases hfold
    | ok s1 =>
      rw [hv] at hfold
      simp only [ok_bind] at hfold
      have hb : body s (unravel (shape.map effExtent) c)
          (machineOffset offset (unravel (shape.map effExtent) c) strides) c = .ok s1 := hv
      rw [traverseOutcome, hoff]
      simp only [hb]
      rw [Nat.mod_eq_of_lt (by omega)]
      by_cases hbreak : c + 1 ≥ size
      · -- the count is reached: the loop is left through `break`
        have hN1 : N = size := by omega
        have h0 : min fuel (N - (c + 1)) = 0 := by omega
        rw [h0] at hfold
        cases hfold
        rw [if_pos hbreak, if_neg (show ¬ fuel + 1 < N - c by omega), if_pos hN1]
      · rw [if_neg hbreak]
        by_cases hlast : c + 1 = N
        · -- every coordinate is at its maximum: the carry scan throws
          have hNE1 : N = (shape.map effExtent).prod := by omega
          have h0 : min fuel (N - (c + 1)) = 0 := by omega
          rw [h0] at hfold
          cases hfold
          rw [advance_last_eff shape c hlen (by omega)]
          simp only []
          rw [if_neg (show ¬ fuel + 1 < N - c by omega), if_neg (show ¬ N = size by omega)]
        · rw [advance_unravel_eff shape c hlen (by omega)]
          simp only []
          rw [ih (c + 1) s1 res (by omega) hfold]
          by_cases hf : fuel < N - (c + 1)
          · rw [if_pos hf, if_pos (show fuel + 1 < N - c by omega)]
          · rw [if_neg hf, if_neg (show ¬ fuel + 1 < N - c by omega)]

/-- The kernel `EwiseSetitem` on any shape, with `N` the smaller of `a.size` and of the
product of the effective extents and the offsets computed for the ranks below `N` in
bounds: how the loop is left and what `out` holds then. -/
theorem EwiseSetitem_outcome_eff {α : Type} (a out : AlignedArray α)
    (shape strides : List Nat) (offset N : Nat)
    (hlen : shape.length < U64) (hst : shape.length ≤ strides.length)
    (h1 : 1 ≤ a.size) (h64 : a.size < U64)
    (hNs : N ≤ a.size) (hNE : N ≤ (shape.map effExtent).prod)
    (hN : N = a.size ∨ N = (shape.map effExtent).prod)
    (hin : ∀ k < N,
      machineOffset offset (unravel (shape.map effExtent) k) strides < out.size)
    (fuel : Nat) :
    ∃ res, EwiseSetitemOutcome fuel a out shape strides offset
        = (res, if fuel < N then .error .out_of_fuel
            else if N = a.size then .ok () else .error .out_of_range) ∧
      res.ptr.length = out.ptr.length ∧
      res.stores = out.stores ++ (List.range (min fuel N)).map
        (fun k => machineOffset offset (unravel (shape.map effExtent) k) strides) := by
  have hE := effExtent_prod_pos shape
  have hNpos : 0 < N := by
    rcases hN with h | h <;> omega
  obtain ⟨res, h, hl, hs, _⟩ :=
    scatter_fold (load a)
      (fun k => machineOffset offset (unravel (shape.map effExtent) k) strides)
      (visit (fun out _ cur_offset cnt => do
          let v ← load a cnt
          store out cur_offset v) (shape.map effExtent) strides offset)
      (fun _ _ => rfl) out (min fuel N)
      (fun k hk => ⟨_, load_of_lt (show k < a.ptr.length by
        have : k < a.size := by omega
        exact this)⟩)
      (fun k hk => hin k (by omega))
  refine ⟨res, ?_, hl, hs⟩
  have hz : List.replicate shape.length 0 = unravel (shape.map effExtent) 0 := by
    rw [unravel_zero, List.length_map]
  have hrun := traverseOutcome_run (fun out _ cur_offset cnt => do
      let v ← load a cnt
      store out cur_offset v) shape strides offset a.size N hlen hst h64 hNs hNE hN
    fuel 0 out res hNpos (by rw [Nat.sub_zero, ← List.range_eq_range']; exact h)
  rw [Nat.sub_zero] at hrun
  rw [EwiseSetitemOutcome, hz]
  exact hrun

/-- C15, amended. For a descriptor with one stride per dimension and a compact source
with `a.size >= 1`, let `E` be the product of the effective extents (`shape[d]` when it
is at least 1, `2^32` when it is 0; so `E = Π shape[d]` when all extents are at least
1), and let the offsets computed for the ranks below `a.size` and `E` be in bounds of
`out`. When `a.size <= E`, `EwiseSetitem` stops after exactly `a.size` passes and
`a.size` stores, one per source element, and returns normally. When `a.size > E` it
does not return normally: it makes `E` stores and then, in pass `E`, the carry
scan throws `std::out_of_range`. -/
theorem EwiseSetitem_size_mismatch (α : Type) (a out : AlignedArray α)
    (shape strides : List Nat) (offset : Nat)
    (hlen : shape.length < U64) (hstr : strides.length = shape.length)
    (h1 : 1 ≤ a.size) (h64 : a.size < U64)
    (hin : ∀ k, k < a.size → k < (shape.map effExtent).prod →
      machineOffset offset (unravel (shape.map effExtent) k) strides < out.size) :
    (∀ fuel, EwiseSetitem fuel a out shape strides offset
      = outcomeResult (EwiseSetitemOutcome fuel a out shape strides offset)) ∧
    ((∀ s ∈ shape, 1 ≤ s ∧ s < U32) → (shape.map effExtent).prod = shape.prod) ∧
    (a.size ≤ (shape.map effExtent).prod →
      (∀ fuel, a.size ≤ fuel →
        ∃ res, EwiseSetitem fuel a out shape strides offset = .ok res ∧
          res.stores = out.stores ++ (List.range a.size).map
            (fun k => machineOffset offset (unravel (shape.map effExtent) k) strides) ∧
          res.stores.length = out.stores.length + a.size) ∧
      (∀ fuel, fuel < a.size →
        EwiseSetitem fuel a out shape strides offset = .error .out_of_fuel)) ∧
    ((shape.map effExtent).prod < a.size →
      (∀ fuel, (shape.map effExtent).prod ≤ fuel →
        EwiseSetitem fuel a out shape strides offset = .error .out_of_range ∧
        ∃ res, EwiseSetitemOutcome fuel a out shape strides offset
            = (res, .error .out_of_range) ∧
          res.stores = out.stores ++ (List.range (shape.map effExtent).prod).map
            (fun k => machineOffset offset (unravel (shape.map effExtent) k) strides) ∧
          res.stores.length = out.stores.length + (shape.map effExtent).prod) ∧
      (∀ fuel, fuel < (shape.map effExtent).prod →
        EwiseSetitem fuel a out shape strides offset = .error .out_of_fuel)) := by
  have hst : shape.length ≤ strides.length := Nat.le_of_eq hstr.symm
  have hlink : ∀ fuel, EwiseSetitem fuel a out shape strides offset
      = outcomeResult (EwiseSetitemOutcome fuel a out shape strides offset) := fun fuel =>
    traverse_eq_outcome _ shape strides offset a.size fuel _ 0 out
  refine ⟨hlink, fun hsh => by rw [map_effExtent_of_pos shape hsh], ?_, ?_⟩
  · intro hle
    have hrun := EwiseSetitem_outcome_eff a out shape strides offset a.size hlen hst h1 h64
      (Nat.le_refl _) hle (Or.inl rfl) (fun k hk => hin k hk (by omega))
    constructor
    · intro fuel hf
      obtain ⟨res, h, _, hs⟩ := hrun fuel
      rw [if_neg (show ¬ fuel < a.size by omega), if_pos rfl] at h
      rw [Nat.min_eq_right hf] at hs
      refine ⟨res, ?_, hs, ?_⟩
      · rw [hlink, h]
        rfl
      · rw [hs]
        simp
    · intro fuel hf
      obtain ⟨res, h, _, _⟩ := hrun fuel
      rw [if_pos hf] at h
      rw [hlink, h]
      rfl
  · intro hlt
    have hrun := EwiseSetitem_outcome_eff a out shape strides offset (shape.map effExtent).prod
      hlen hst h1 h64 (Nat.le_of_lt hlt) (Nat.le_refl _) (Or.inr rfl)
      (fun k hk => hin k (by omega) hk)
    constructor
    · intro fuel hf
      obtain ⟨res, h, _, hs⟩ := hrun fuel
      rw [if_neg (show ¬ fuel < (shape.map effExtent).prod by omega),
        if_neg (show ¬ (shape.map effExtent).prod = a.size by omega)] at h
      rw [Nat.min_eq_right hf] at hs
      refine ⟨?_, res, h, hs, ?_⟩
      · rw [hlink, h]
        rfl
      · rw [hs]
        simp
    · intro fuel hf
      obtain ⟨res, h, _, _⟩ := hrun fuel
      rw [if_pos hf] at h
      rw [hlink, h]
      rfl

theorem EwiseSetitem_size_mismatch_witness :
    (∃ res, EwiseSetitem 2 (⟨[1, 2], []⟩ : AlignedArray Int) ⟨[0, 0, 0], []⟩ [0] [1] 0
        = .ok res ∧ res.stores.length = 0 + 2) ∧
    (∃ res, EwiseSetitemOutcome 5 (⟨[1, 2, 3], []⟩ : AlignedArray Int) ⟨[0, 0, 0], []⟩
        [2] [1] 0 = (res, .error .out_of_range) ∧ res.stores.length = 0 + 2) := by
  have hzero := EwiseSetitem_size_mismatch Int ⟨[1, 2], []⟩ ⟨[0, 0, 0], []⟩ [0] [1] 0
    (by decide) rfl (by decide) (by decide)
    (by
      intro k hk _
      have hk2 : k < 2 := hk
      have hcases : k = 0 ∨ k = 1 := by omega
      rcases hcases with rfl | rfl <;> decide)
  have hover := EwiseSetitem_size_mismatch Int ⟨[1, 2, 3], []⟩ ⟨[0, 0, 0], []⟩ [2] [1] 0
    (by decide) rfl (by decide) (by decide)
    (by
      intro k _ hk
      have hk2 : k < 2 := hk
      have hcases : k = 0 ∨ k = 1 := by omega
      rcases hcases with rfl | rfl <;> decide)
  constructor
  · obtain ⟨res, h, _, hl⟩ := (hzero.2.2.1 (by decide)).1 2 (by decide)
    exact ⟨res, h, hl⟩
  · obtain ⟨_, res, h, _, hl⟩ := (hover.2.2.2 (by decide)).1 5 (by decide)
    exact ⟨res, h, hl⟩

/-! ## Fill -/

theorem int_max_eq : INT_MAX = 2147483647 := rfl

theorem int_min_as_size_eq : INT_MIN_AS_SIZE = 18446744071562067968 := rfl

/-- The loop of `Fill`: the positions from `i` up to `INT_MAX` receive `val`, the ones
before `i` and the ones after `INT_MAX` are kept. -/
theorem fillLoop_run {α : Type} (val : α) :
    ∀ (n i : Nat) (out : AlignedArray α), i + n = out.ptr.length →
      out.ptr.length ≤ INT_MIN_AS_SIZE → (i ≤ INT_MAX ∨ n = 0) →
      ∃ res, fillLoop val n i out = .ok res ∧
        res.ptr.length = out.ptr.length ∧
        (∀ q, i ≤ q → q < i + n → q ≤ INT_MAX → res.ptr[q]? = some val) ∧
        (∀ q, q < i ∨ INT_MAX < q → res.ptr[q]? = out.ptr[q]?) := by
  intro n
  induction n with
  | zero =>
    intro i out _ _ _
    exact ⟨out, rfl, rfl, fun q h1 h2 => by omega, fun _ _ => rfl⟩
  | succ n ih =>
    intro i out hlen hmax hi
    have hi1 : i ≤ INT_MAX := by omega
    have hlt : i < out.ptr.length := by omega
    rw [fillLoop, store_of_lt val hlt]
    simp only [ok_bind]
    by_cases hov : i + 1 > INT_MAX
    · -- the counter wraps: the guard fails and the loop is left
      have hsz : ¬ INT_MIN_AS_SIZE
          < AlignedArray.size (⟨out.ptr.set i val, out.stores ++ [i]⟩ : AlignedArray α) := by
        simp only [AlignedArray.size, List.length_set]
        omega
      rw [if_pos hov, if_neg hsz]
      refine ⟨_, rfl, by simp, ?_, ?_⟩
      · intro q h1 _ h3
        have hq : q = i := by omega
        subst hq
        simp [List.getElem?_set_self hlt]
      · intro q hq
        have hne : i ≠ q := by omega
        simp only [List.getElem?_set_ne hne]
    · rw [if_neg hov]
      obtain ⟨res, h, hl, hv, hk⟩ := ih (i + 1) ⟨out.ptr.set i val, out.stores ++ [i]⟩
        (by simp only [List.length_set]; omega) (by simp only [List.length_set]; exact hmax)
        (Or.inl (by omega))
      refine ⟨res, h, by rw [hl]; simp, ?_, ?_⟩
      · intro q h1 h2 h3
        by_cases hq : q = i
        · subst hq
          rw [hk q (Or.inl (by omega))]
          simp [List.getElem?_set_self hlt]
        · exact hv q (by omega) (by omega) h3
      · intro q hq
        rw [hk q (by omega)]
        have hne : i ≠ q := by omega
        simp only [List.getElem?_set_ne hne]

/-- The kernel `Fill` on a buffer of at most `2^31` elements: the size is kept, every
element becomes `v`, and a second call changes no element. -/
theorem Fill_of_small (α : Type) (buf : AlignedArray α) (v : α)
    (hsmall : buf.size ≤ INT_MAX + 1) :
    ∃ res, Fill buf v = .ok res ∧ res.size = buf.size ∧
      (∀ i < buf.size, res.ptr[i]? = some v) ∧
      ∃ res2, Fill res v = .ok res2 ∧ res2.ptr = res.ptr := by
  have hI := int_max_eq
  have hM := int_min_as_size_eq
  have hlen : buf.ptr.length ≤ INT_MAX + 1 := hsmall
  obtain ⟨res, h, hl, hv, _⟩ := fillLoop_run v buf.size 0 buf (Nat.zero_add _)
    (by omega) (Or.inl (Nat.zero_le _))
  have hfill : ∀ i < buf.size, res.ptr[i]? = some v := fun i hi => by
    have hi1 : i < buf.ptr.length := hi
    exact hv i (Nat.zero_le _) (by omega) (by omega)
  have hsz : res.size = buf.size := hl
  obtain ⟨res2, h2, hl2, hv2, _⟩ := fillLoop_run v res.size 0 res (Nat.zero_add _)
    (by omega) (Or.inl (Nat.zero_le _))
  refine ⟨res, h, hl, hfill, res2, h2, ?_⟩
  apply List.ext_getElem?
  intro q
  by_cases hq : q < res.size
  · have hq1 : q < res.ptr.length := hq
    rw [hv2 q (Nat.zero_le _) (by omega) (by omega), hfill q (by omega)]
  · have e1 : res.ptr.length ≤ q := by
      simp only [AlignedArray.size] at hq
      omega
    have e2 : res2.ptr.length ≤ q := by omega
    rw [List.getElem?_eq_none e1, List.getElem?_eq_none e2]

/-- The kernel `Fill` on a buffer of more than `2^31` elements (and at most
`2^64 - 2^31`): it returns with the first `2^31` elements equal to `v` and the
elements from position `2^31` on unchanged. -/
theorem Fill_of_large {α : Type} (buf : AlignedArray α) (v : α)
    (hlarge : INT_MAX + 1 < buf.size) (hmax : buf.size ≤ INT_MIN_AS_SIZE) :
    ∃ res, Fill buf v = .ok res ∧ res.size = buf.size ∧
      (∀ i ≤ INT_MAX, res.ptr[i]? = some v) ∧
      (∀ i, INT_MAX < i → res.ptr[i]? = buf.ptr[i]?) := by
  have hlen : INT_MAX + 1 < buf.ptr.length := hlarge
  obtain ⟨res, h, hl, hv, hk⟩ := fillLoop_run v buf.size 0 buf (Nat.zero_add _) hmax
    (Or.inl (Nat.zero_le _))
  refine ⟨res, h, hl, ?_, ?_⟩
  · intro i hi
    exact hv i (Nat.zero_le _) (by simp only [AlignedArray.size]; omega) hi
  · intro i hi
    exact hk i (Or.inr hi)

/-- C16, on a buffer of `2^31 + 1` zeros with `v = 7`: `Fill` returns with element 0
equal to 7 but element `2^31` still 0; after the store to element `2^31 - 1` its
`int` counter is incremented at `INT_MAX` and the loop is left. -/
theorem Fill_stops_at_2_31 :
    ∃ res, Fill (⟨List.replicate 2147483649 0, []⟩ : AlignedArray Int) 7 = .ok res ∧
      res.ptr[0]? = some 7 ∧ res.ptr[2147483648]? = some 0 := by
  have hI := int_max_eq
  have hM := int_min_as_size_eq
  have hsz : AlignedArray.size (⟨List.replicate 2147483649 0, []⟩ : AlignedArray Int)
      = 2147483649 := List.length_replicate _ _
  obtain ⟨res, h, _, hv, hk⟩ := Fill_of_large
    (⟨List.replicate 2147483649 0, []⟩ : AlignedArray Int) 7
    (by rw [hsz]; omega) (by rw [hsz]; omega)
  refine ⟨res, h, hv 0 (by omega), ?_⟩
  rw [hk 2147483648 (by omega)]
  show (List.replicate 2147483649 (0 : Int))[2147483648]? = some 0
  rw [List.getElem?_replicate, if_pos (by omega)]

/-! ## Strided write followed by compaction -/

theorem unravel_injective (shape : List Nat) (hsh : ∀ s ∈ shape, 1 ≤ s) (j k : Nat)
    (hj : j < shape.prod) (hk : k < shape.prod) (h : unravel shape j = unravel shape k) :
    j = k := by
  rcases Nat.lt_trichotomy j k with hlt | heq | hgt
  · have := unravel_lex shape hsh j k hlt hk
    rw [h] at this
    exact absurd this (lex_irrefl _)
  · exact heq
  · have := unravel_lex shape hsh k j hgt hj
    rw [h] at this
    exact absurd this (lex_irrefl _)

/-- The kernel `EwiseSetitem` followed by `Compact` through the same descriptor, in
terms of the machine offsets: when they are pairwise distinct and in bounds, the
compacted buffer holds the elements written. -/
theorem reverse_roundtrip_run {α : Type} (fuel : Nat) (c out c2 : AlignedArray α)
    (shape strides : List Nat) (offset : Nat)
    (hsh : ∀ s ∈ shape, 1 ≤ s ∧ s < U32) (hlen : shape.length < U64)
    (hstr : strides.length = shape.length)
    (hc : c.size = shape.prod) (hc64 : c.size < U64) (hfuel : c.size ≤ fuel)
    (hc2 : c2.size = c.size)
    (hin : ∀ k < c.size, machineOffset offset (unravel shape k) strides < out.size)
    (hinj : ∀ j k, j < c.size → k < c.size →
      machineOffset offset (unravel shape j) strides
        = machineOffset offset (unravel shape k) strides → j = k) :
    ∃ o1 c1, EwiseSetitem fuel c out shape strides offset = .ok o1 ∧
      Compact fuel o1 c2 shape strides offset = .ok c1 ∧
      c1.size = c.size ∧ ∀ k < c.size, c1.ptr[k]? = c.ptr[k]? := by
  have h1 : 1 ≤ c.size := by rw [hc]; exact prod_pos_of_extents hsh
  obtain ⟨o1, hset, hl1, _, hv1, _⟩ := EwiseSetitem_run fuel c out shape strides offset
    hsh hlen (Nat.le_of_eq hstr.symm) h1 (Nat.le_of_eq hc) hc64 hfuel hin
  obtain ⟨c1, hcomp, hl2, _, hv2⟩ := Compact_run fuel o1 c2 shape strides offset hsh hlen hstr
    (by omega) (by omega) (by omega) (by omega)
    (fun k hk => by
      show _ < o1.ptr.length
      rw [hl1]
      exact hin k (by omega))
  refine ⟨o1, c1, hset, hcomp, hl2.trans hc2, ?_⟩
  intro k hk
  rw [hv2 k (by omega)]
  exact hv1 k hk (fun j h1 h2 heq => by
    have := hinj j k h2 hk heq
    omega)

/-- Round trip `EwiseSetitem` then `Compact` on descriptors whose products
`idx[d] * strides[d]` all fit in 32 bits: with an injective, in-bounds offset mapping
the compacted buffer equals the source element by element. -/
theorem reverse_roundtrip_of_small (α : Type) (fuel : Nat) (c out c2 : AlignedArray α)
    (shape strides : List Nat) (offset : Nat)
    (hsh : ∀ s ∈ shape, 1 ≤ s ∧ s < U32) (hlen : shape.length < U64)
    (hstr : strides.length = shape.length)
    (hin : ∀ idx, IsIndex shape idx → linearOffset offset strides idx < out.size)
    (hinj : ∀ idx1 idx2, IsIndex shape idx1 → IsIndex shape idx2 →
      linearOffset offset strides idx1 = linearOffset offset strides idx2 → idx1 = idx2)
    (hprod : ∀ idx, IsIndex shape idx →
      ∀ q ∈ List.zipWith (fun i s => i * s) idx strides, q < U32)
    (hout : out.size < U64)
    (hc : c.size = shape.prod) (hc64 : c.size < U64) (hfuel : c.size ≤ fuel)
    (hc2 : c2.size = c.size) :
    ∃ o1 c1, EwiseSetitem fuel c out shape strides offset = .ok o1 ∧
      Compact fuel o1 c2 shape strides offset = .ok c1 ∧
      c1.size = c.size ∧ ∀ k < c.size, c1.ptr[k]? = c.ptr[k]? := by
  have hpos : ∀ s ∈ shape, 1 ≤ s := fun s hs => (hsh s hs).1
  have hoff : ∀ k, machineOffset offset (unravel shape k) strides
      = linearOffset offset strides (unravel shape k) := fun k =>
    machineOffset_eq_linearOffset _ _ _ (hprod _ (isIndex_unravel shape k hpos))
      (Nat.lt_trans (hin _ (isIndex_unravel shape k hpos)) hout)
  exact reverse_roundtrip_run fuel c out c2 shape strides offset hsh hlen hstr hc hc64 hfuel hc2
    (fun k _ => by rw [hoff]; exact hin _ (isIndex_unravel shape k hpos))
    (fun j k hj hk heq => by
      rw [hoff, hoff] at heq
      exact unravel_injective shape hpos j k (by omega) (by omega)
        (hinj _ _ (isIndex_unravel shape j hpos) (isIndex_unravel shape k hpos) heq))

/-- The non-injective example of C19: with shape `[2]`, strides `[0]`, writing `[1,2]`
and compacting back gives `[2,2]`. -/
theorem reverse_roundtrip_stride_zero :
    EwiseSetitem 2 (⟨[1, 2], []⟩ : AlignedArray Int) ⟨[0], []⟩ [2] [0] 0 = .ok ⟨[2], [0, 0]⟩ ∧
    Compact 2 (⟨[2], [0, 0]⟩ : AlignedArray Int) ⟨[0, 0], []⟩ [2] [0] 0
      = .ok ⟨[2, 2], [0, 1]⟩ :=
  ⟨rfl, rfl⟩

/-- C19, on the first column of a `65537 x 65536` row-major buffer (shape `[65537]`,
strides `[65536]`, offset 0, an injective mapping that is in bounds): writing a
source `c` with `c[0] = 0` and `c[65536] = 1` by `EwiseSetitem` and compacting back
gives `c1[0] = 1`, not `c[0]`, because the offset of index `[65536]` is computed as
`65536 * 65536` modulo `2^32`, that is 0, the offset of index `[0]`. -/
theorem reverse_roundtrip_wraps_at_column :
    (∀ idx, IsIndex [65537] idx → linearOffset 0 [65536] idx < 65537 * 65536) ∧
    (∀ idx1 idx2, IsIndex [65537] idx1 → IsIndex [65537] idx2 →
      linearOffset 0 [65536] idx1 = linearOffset 0 [65536] idx2 → idx1 = idx2) ∧
    ∃ o1 c1,
      EwiseSetitem 65537 ⟨(List.replicate 65537 (0 : Int)).set 65536 1, []⟩
        ⟨List.replicate (65537 * 65536) 0, []⟩ [65537] [65536] 0 = .ok o1 ∧
      Compact 65537 o1 ⟨List.replicate 65537 0, []⟩ [65537] [65536] 0 = .ok c1 ∧
      c1.ptr[0]? = some 1 ∧
      ((List.replicate 65537 (0 : Int)).set 65536 1)[0]? = some 0 := by
  refine ⟨?_, ?_, ?_⟩
  · intro idx h
    obtain ⟨i, rfl, hi⟩ := isIndex_single h
    rw [linearOffset_single]
    omega
  · intro idx1 idx2 h1 h2 heq
    obtain ⟨i, rfl, _⟩ := isIndex_single h1
    obtain ⟨j, rfl, _⟩ := isIndex_single h2
    rw [linearOffset_single, linearOffset_single] at heq
    have : i = j := by omega
    rw [this]
  · have hc : AlignedArray.size
        (⟨(List.replicate 65537 (0 : Int)).set 65536 1, []⟩ : AlignedArray Int) = 65537 := by
      show ((List.replicate 65537 (0 : Int)).set 65536 1).length = _
      rw [List.length_set, List.length_replicate]
    have hc2 : AlignedArray.size (⟨List.replicate 65537 0, []⟩ : AlignedArray Int) = 65537 :=
      List.length_replicate _ _
    have ho : AlignedArray.size (⟨List.replicate (65537 * 65536) 0, []⟩ : AlignedArray Int)
        = 65537 * 65536 := List.length_replicate _ _
    obtain ⟨o1, hset, hl1, _, hv1, _⟩ := EwiseSetitem_run 65537
      (⟨(List.replicate 65537 (0 : Int)).set 65536 1, []⟩ : AlignedArray Int)
      ⟨List.replicate (65537 * 65536) 0, []⟩ [65537] [65536] 0
      (by decide) (by decide) (Nat.le_refl _) (by rw [hc]; decide) (by rw [hc]; decide)
      (by rw [hc]; decide) (by rw [hc])
      (by
        intro k _
        rw [ho, machineOffset_single]
        omega)
    have hsz1 : o1.size = 65537 * 65536 := hl1.trans ho
    obtain ⟨c1, hcomp, _, _, hv2⟩ := Compact_run 65537 o1
      (⟨List.replicate 65537 0, []⟩ : AlignedArray Int) [65537] [65536] 0
      (by decide) (by decide) rfl (by rw [hc2]; decide) (by rw [hc2]; decide)
      (by rw [hc2]; decide) (by rw [hc2])
      (by
        intro k _
        rw [hsz1, machineOffset_single]
        omega)
    refine ⟨o1, c1, hset, hcomp, ?_, ?_⟩
    · have e0 : machineOffset 0 (unravel [65537] 0) [65536] = 0 := by
        rw [machineOffset_single]
      have e1 : machineOffset 0 (unravel [65537] 65536) [65536] = 0 := by
        rw [machineOffset_single]
      have hlast := hv1 65536 (by rw [hc]; decide) (fun j h1 h2 => by
        rw [hc] at h2
        omega)
      rw [e1] at hlast
      rw [hv2 0 (by rw [hc2]; decide), e0, hlast]
      show ((List.replicate 65537 (0 : Int)).set 65536 1)[65536]? = some 1
      rw [List.getElem?_set_self (by rw [List.length_replicate]; decide)]
    · rw [List.getElem?_set_ne (by decide), List.getElem?_replicate, if_pos (by decide)]

/-! ## Reads of `ReduceMax` -/

/-- C20, at `reduce_size = 0` with an empty `a` and a 1-element `out` (so that
`a.size = out.size * reduce_size`): `ReduceMax` loads `a.ptr[0]`, outside `a`, while
`ReduceSum` on the same input reads nothing and stores 0. -/
theorem ReduceMax_reads_empty_block :
    AlignedArray.size (⟨[], []⟩ : AlignedArray Int)
      = AlignedArray.size (⟨[7], []⟩ : AlignedArray Int) * 0 ∧
    ReduceMax (⟨[], []⟩ : AlignedArray Int) ⟨[7], []⟩ 0 = .error .out_of_bounds ∧
    load (⟨[], []⟩ : AlignedArray Int) ((0 * 0) % U64) = .error .out_of_bounds ∧
    ReduceSum (⟨[], []⟩ : AlignedArray Int) ⟨[7], []⟩ 0 = .ok ⟨[0], [0]⟩ :=
  ⟨rfl, rfl, rfl, rfl⟩

end cpu
end needle

